import Mathlib

/-!
# Verification of the radix tree implementation (radix.go)

A shallow embedding of the generic radix tree from `radix.go`.  Go strings
are byte sequences, embedded as `List Nat`; Go's `(V, bool)` "zero value +
found flag" results are embedded as `Option V` (the spec's design notes
call for exactly this in languages without implicit zero values).  The
mutable pointer structure is a strict tree (structural invariant 5:
exclusive single ownership), so in-place mutation of a child node is
embedded as functional replacement of that child in the parent's edge
list.  Go's `sort.Search` (binary search for the leftmost index with
`label >= b` in the sorted edge slice) is embedded by its defining
semantics: the first edge with label `>= b`.  `sort.Sort` on edges
(ascending by label) is embedded as insertion sort.  Walk callbacks that
always return `false` (never aborting) are embedded by returning the list
of visited key/value pairs.

Name mapping (Go identifiers containing the substring "prefix" are
renamed with "Pfx"): `node.prefix` is `Node.pfx`, `longestPrefix` is
`longestPfx`, `DeletePrefix`/`deletePrefix` is `Tree.deletePfx` /
`deletePfxNode`, `WalkPrefix` is `Tree.walkPfx` / `walkPfxNode`,
`LongestPrefix` is `Tree.lp` / `lpNode`.
-/

namespace Radix

/-- Keys are Go strings, i.e. byte sequences. -/
abbrev Key := List Nat

/-- `node[V]` from radix.go: an optional leaf (holding the original full
key and the value), the prefix consumed between the parent and this node,
and the ordered edge list (label plus exclusively-owned child). -/
inductive Node (V : Type) : Type where
  | mk : Option (Key × V) → Key → List (Nat × Node V) → Node V

/-- The `leaf` field. -/
def Node.leaf {V} : Node V → Option (Key × V)
  | .mk l _ _ => l

/-- The `prefix` field. -/
def Node.pfx {V} : Node V → Key
  | .mk _ p _ => p

/-- The `edges` field. -/
def Node.children {V} : Node V → List (Nat × Node V)
  | .mk _ _ es => es

/-- Embeds `longestPrefix(k1, k2)` from radix.go: length of the shared prefix of
two strings. -/
def longestPfx : Key → Key → Nat
  | [], _ => 0
  | _ :: _, [] => 0
  | a :: as, b :: bs => if a = b then longestPfx as bs + 1 else 0

/-- The semantics of `sort.Search(num, fun i => edges[i].label >= b)`:
the first edge whose label is `>= b` (on the sorted edge lists the tree
maintains, binary and linear search for the leftmost such index agree). -/
def findGE {V} (b : Nat) : List (Nat × Node V) → Option (Nat × Node V)
  | [] => none
  | e :: rest => if b ≤ e.1 then some e else findGE b rest

/-- Embeds `node.getEdge(label)`: binary search for the label, `none` when the
edge found does not carry exactly that label. -/
def getEdge {V} (n : Node V) (b : Nat) : Option (Node V) :=
  match findGE b n.children with
  | some e => if e.1 = b then some e.2 else none
  | none => none

/-- One insertion step of insertion sort on edge lists (ascending by
label). -/
def insSorted {V} (e : Nat × Node V) : List (Nat × Node V) → List (Nat × Node V)
  | [] => [e]
  | f :: rest => if e.1 < f.1 then e :: f :: rest else f :: insSorted e rest

/-- Embeds `edges.Sort()`: sort ascending by label (insertion sort; any sort
agrees on the duplicate-free labels the tree maintains). -/
def sortEdges {V} : List (Nat × Node V) → List (Nat × Node V)
  | [] => []
  | e :: rest => insSorted e (sortEdges rest)

/-- Embeds `node.addEdge(e)`: append the edge, then re-sort. -/
def addEdge {V} (es : List (Nat × Node V)) (e : Nat × Node V) : List (Nat × Node V) :=
  sortEdges (es ++ [e])

/-- Embeds `node.updateEdge(label, node)`: binary search for the label and
replace the child there.  The missing-edge case (in which Go panics with
"replacing missing edge") leaves the list unchanged here; the mirror
`insertPanics` below tracks exactly when Go would reach that panic. -/
def updEdge {V} (es : List (Nat × Node V)) (b : Nat) (c : Node V) : List (Nat × Node V) :=
  match es with
  | [] => []
  | e :: rest => if b ≤ e.1 then (if e.1 = b then (e.1, c) :: rest else e :: rest)
                 else e :: updEdge rest b c

/-- Embeds `node.delEdge(label)`: binary search for the label and remove the
edge there (no-op when absent). -/
def delEdge {V} (es : List (Nat × Node V)) (b : Nat) : List (Nat × Node V) :=
  match es with
  | [] => []
  | e :: rest => if b ≤ e.1 then (if e.1 = b then rest else e :: rest)
                 else e :: delEdge rest b

/-- Embeds `node.mergeChild()`: absorb the sole child (concatenate prefixes,
inherit its leaf and edges).  Callers guard `len(n.edges) == 1`; on an
empty edge list (where Go would fault on the index) this is the
identity. -/
def mergeChild {V} (n : Node V) : Node V :=
  match n.children with
  | [] => n
  | (_, c) :: _ => .mk c.leaf (n.pfx ++ c.pfx) c.children

/- Embedding of `recursiveWalk(n, fn)` with a callback that always returns `false`:
the list of visited key/value pairs, leaf first, then the children in
edge order (together with `toListE`). -/
mutual
/-- Visit list of a node: leaf first, then the children in order. -/
def toList {V} : Node V → List (Key × V)
  | .mk l _ es => l.toList ++ toListE es

/-- Visit list of an edge list, in order. -/
def toListE {V} : List (Nat × Node V) → List (Key × V)
  | [] => []
  | (_, c) :: rest => toList c ++ toListE rest
end

/- ---- termination helpers (proof-carrying definitions used by the
`decreasing_by` clauses of the descent functions below) ---- -/

theorem findGE_mem {V} {b : Nat} {es : List (Nat × Node V)} {e : Nat × Node V}
    (h : findGE b es = some e) : e ∈ es := by
  induction es with
  | nil => simp [findGE] at h
  | cons f rest ih =>
    simp only [findGE] at h
    split at h
    · simp_all
    · exact List.mem_cons_of_mem _ (ih h)

theorem sizeOf_mem_children {V} {n : Node V} {e : Nat × Node V}
    (h : e ∈ n.children) : sizeOf e.2 < sizeOf n := by
  cases n with
  | mk l p es =>
    simp only [Node.children] at h
    have h1 : sizeOf e < sizeOf es := List.sizeOf_lt_of_mem h
    have h3 : sizeOf e.2 ≤ sizeOf e := by
      cases e with
      | mk a b => simp only [Prod.mk.sizeOf_spec]; omega
    simp only [Node.mk.sizeOf_spec]
    omega

theorem sizeOf_getEdge {V} {n : Node V} {b : Nat} {c : Node V}
    (h : getEdge n b = some c) : sizeOf c < sizeOf n := by
  unfold getEdge at h
  split at h
  · rename_i e he
    split at h
    · cases h
      exact sizeOf_mem_children (findGE_mem he)
    · cases h
  · cases h

theorem sizeOf_getLast? {V} {es : List (Nat × Node V)} {e : Nat × Node V}
    (h : es.getLast? = some e) : e ∈ es := by
  induction es with
  | nil => simp at h
  | cons f rest ih =>
    cases rest with
    | nil => simp_all
    | cons g rest2 =>
      rw [List.getLast?_cons_cons] at h
      exact List.mem_cons_of_mem _ (ih h)

/-- Embeds `Tree.Insert`'s descent (radix.go lines 152-238), acting on a node.
`s` is the original full key, `search` the unconsumed suffix.  Returns
the updated node and the previous value when the key already existed
(Go's `(old, true)` vs `(zero, false)`). -/
def insertNode {V} (n : Node V) (s : Key) (search : Key) (v : V) : Node V × Option V :=
  match search with
  | [] =>
    match n.leaf with
    | some (k0, old) => (.mk (some (k0, v)) n.pfx n.children, some old)
    | none => (.mk (some (s, v)) n.pfx n.children, none)
  | b :: _ =>
    match h : getEdge n b with
    | none =>
      (.mk n.leaf n.pfx (addEdge n.children (b, .mk (some (s, v)) search [])), none)
    | some child =>
      let cp := longestPfx search child.pfx
      if cp = child.pfx.length then
        let res := insertNode child s (search.drop cp) v
        (.mk n.leaf n.pfx (updEdge n.children b res.1), res.2)
      else
        -- split: reattach the trimmed original child under a new
        -- intermediate node keyed by its first remaining byte
        let c2 : Node V := .mk child.leaf (child.pfx.drop cp) child.children
        let es0 := addEdge [] (child.pfx.getD cp 0, c2)
        match search.drop cp with
        | [] =>
          (.mk n.leaf n.pfx (updEdge n.children b (.mk (some (s, v)) (search.take cp) es0)), none)
        | b2 :: rest2 =>
          (.mk n.leaf n.pfx (updEdge n.children b
            (.mk none (search.take cp)
              (addEdge es0 (b2, .mk (some (s, v)) (b2 :: rest2) [])))), none)
termination_by sizeOf n
decreasing_by exact sizeOf_getEdge h

/-- Mirror of `Insert`'s control flow recording whether the
`updateEdge` call on the split path would hit the "replacing missing
edge" panic: it panics exactly when the parent holds no edge labelled
`search[0]`. -/
def insertPanics {V} (n : Node V) (search : Key) : Bool :=
  match search with
  | [] => false
  | b :: _ =>
    match h : getEdge n b with
    | none => false
    | some child =>
      let cp := longestPfx search child.pfx
      if cp = child.pfx.length then insertPanics child (search.drop cp)
      else !(getEdge n b).isSome
termination_by sizeOf n
decreasing_by exact sizeOf_getEdge h

/-- Embeds `Tree.Delete`'s descent (radix.go lines 242-295) acting on a node.
`root?` is true when `n` is the tree root.  The DELETE block's surgery on
the final node and its immediate parent is performed in the parent's
frame, in Go's order: (a) drop the edge to the final node if it lost its
leaf and has no edges, (b) merge the final node with its sole child,
(c) merge the parent itself with its sole remaining child when the parent
is not the root, has exactly one edge and no leaf. -/
def deleteNode {V} (root? : Bool) (n : Node V) (search : Key) : Node V × Option V :=
  match search with
  | [] =>
    match n.leaf with
    | none => (n, none)
    | some (_, old) => (.mk none n.pfx n.children, some old)
  | b :: _ =>
    match h : getEdge n b with
    | none => (n, none)
    | some child =>
      if child.pfx.isPrefixOf search then
        let rest := search.drop child.pfx.length
        let res := deleteNode false child rest
        match res.2 with
        | none => (n, none)
        | some old =>
          if rest.isEmpty then
            let child1 := res.1
            let es1 := if child1.children.isEmpty then delEdge n.children b
                       else updEdge n.children b
                         (if child1.children.length == 1 then mergeChild child1 else child1)
            let n1 : Node V := .mk n.leaf n.pfx es1
            (if !root? && n1.children.length == 1 && n1.leaf.isNone then mergeChild n1 else n1,
             some old)
          else
            (.mk n.leaf n.pfx (updEdge n.children b res.1), some old)
      else (n, none)
termination_by sizeOf n
decreasing_by exact sizeOf_getEdge h

/-- Embeds `Tree.deletePrefix` (radix.go lines 305-342) acting on a node.  At
prefix exhaustion the node's leaf and edge list are discarded (its
`prefix` field and the parent's edge to it are kept, exactly as in the
source) and the subtree's leaves are counted via a full walk; the
"merge the parent's other child" step runs in the caller's frame. -/
def deletePfxNode {V} (root? : Bool) (n : Node V) (p : Key) : Node V × Nat :=
  match p with
  | [] => (.mk none n.pfx [], (toList n).length)
  | b :: _ =>
    match h : getEdge n b with
    | none => (n, 0)
    | some child =>
      if !(p.isPrefixOf child.pfx) && !(child.pfx.isPrefixOf p) then (n, 0)
      else
        let p' := if child.pfx.length > p.length then [] else p.drop child.pfx.length
        let res := deletePfxNode false child p'
        let n1 : Node V := .mk n.leaf n.pfx (updEdge n.children b res.1)
        if p'.isEmpty then
          (if !root? && n1.children.length == 1 && n1.leaf.isNone then mergeChild n1 else n1,
           res.2)
        else (n1, res.2)
termination_by sizeOf n
decreasing_by exact sizeOf_getEdge h

/-- Embeds `Tree.Get` (radix.go lines 354-380) acting on a node. -/
def getNode {V} (n : Node V) (search : Key) : Option V :=
  match search with
  | [] => n.leaf.map (·.2)
  | b :: _ =>
    match h : getEdge n b with
    | none => none
    | some child =>
      if child.pfx.isPrefixOf search then getNode child (search.drop child.pfx.length)
      else none
termination_by sizeOf n
decreasing_by exact sizeOf_getEdge h

/-- Embeds `Tree.LongestPrefix` (radix.go lines 384-416) acting on a node;
`last` is the deepest leaf seen so far on the descent path. -/
def lpNode {V} (n : Node V) (search : Key) (last : Option (Key × V)) : Option (Key × V) :=
  match search with
  | [] => (match n.leaf with | some l => some l | none => last)
  | b :: _ =>
    match h : getEdge n b with
    | none => (match n.leaf with | some l => some l | none => last)
    | some child =>
      if child.pfx.isPrefixOf search then
        lpNode child (search.drop child.pfx.length)
          (match n.leaf with | some l => some l | none => last)
      else (match n.leaf with | some l => some l | none => last)
termination_by sizeOf n
decreasing_by exact sizeOf_getEdge h

/-- Embeds `Tree.Minimum` (radix.go lines 419-432) acting on a node: return the
node's own leaf if present, otherwise descend into the first edge. -/
def minimumNode {V} (n : Node V) : Option (Key × V) :=
  match n.leaf with
  | some l => some l
  | none =>
    match h : n.children with
    | [] => none
    | e :: _ => minimumNode e.2
termination_by sizeOf n
decreasing_by exact sizeOf_mem_children (h ▸ List.mem_cons_self e _)

/-- Embeds `Tree.Maximum` (radix.go lines 435-448) acting on a node: always
descend into the last edge when any edge exists, otherwise return the
node's leaf. -/
def maximumNode {V} (n : Node V) : Option (Key × V) :=
  match h : n.children.getLast? with
  | some e => maximumNode e.2
  | none => n.leaf
termination_by sizeOf n
decreasing_by exact sizeOf_mem_children (sizeOf_getLast? h)

/-- Embeds `Tree.WalkPrefix` (radix.go lines 456-485) acting on a node, with a
callback that always returns `false`: the list of visited pairs. -/
def walkPfxNode {V} (n : Node V) (search : Key) : List (Key × V) :=
  match search with
  | [] => toList n
  | b :: _ =>
    match h : getEdge n b with
    | none => []
    | some child =>
      if child.pfx.isPrefixOf search then walkPfxNode child (search.drop child.pfx.length)
      else if search.isPrefixOf child.pfx then toList child
      else []
termination_by sizeOf n
decreasing_by exact sizeOf_getEdge h

/-- Embeds `Tree[V]` from radix.go: the root node and the running element
count. -/
structure Tree (V : Type) : Type where
  root : Node V
  size : Int

/-- Embeds `New()`: the empty tree. -/
def Tree.new (V : Type) : Tree V := ⟨.mk none [] [], 0⟩

/-- Embeds `Tree.Len()`. -/
def Tree.len {V} (t : Tree V) : Int := t.size

/-- Embeds `Tree.Insert(s, v)`: returns the updated tree and the previous value
when this was an update (`size` grows only on a genuinely new key). -/
def Tree.insert {V} (t : Tree V) (s : Key) (v : V) : Tree V × Option V :=
  let r := insertNode t.root s s v
  (⟨r.1, if r.2.isSome then t.size else t.size + 1⟩, r.2)

/-- Embeds `Tree.Delete(s)`: returns the updated tree and the removed value. -/
def Tree.delete {V} (t : Tree V) (s : Key) : Tree V × Option V :=
  let r := deleteNode true t.root s
  (⟨r.1, if r.2.isSome then t.size - 1 else t.size⟩, r.2)

/-- Embeds `Tree.DeletePrefix(p)`: returns the updated tree and the number of
leaves deleted. -/
def Tree.deletePfx {V} (t : Tree V) (p : Key) : Tree V × Nat :=
  let r := deletePfxNode true t.root p
  (⟨r.1, t.size - r.2⟩, r.2)

/-- Embeds `Tree.Get(s)`. -/
def Tree.get {V} (t : Tree V) (s : Key) : Option V := getNode t.root s

/-- Embeds `Tree.LongestPrefix(s)`. -/
def Tree.lp {V} (t : Tree V) (s : Key) : Option (Key × V) := lpNode t.root s none

/-- Embeds `Tree.Minimum()`. -/
def Tree.minimum {V} (t : Tree V) : Option (Key × V) := minimumNode t.root

/-- Embeds `Tree.Maximum()`. -/
def Tree.maximum {V} (t : Tree V) : Option (Key × V) := maximumNode t.root

/-- Embeds `Tree.Walk(fn)` with a callback that always returns `false`: the
list of visited pairs. -/
def Tree.walk {V} (t : Tree V) : List (Key × V) := toList t.root

/-- Embeds `Tree.WalkPrefix(p, fn)` with a callback that always returns
`false`: the list of visited pairs. -/
def Tree.walkPfx {V} (t : Tree V) (p : Key) : List (Key × V) := walkPfxNode t.root p

/-- A public mutating operation. -/
inductive Op (V : Type) : Type where
  | ins : Key → V → Op V
  | del : Key → Op V
  | dp : Key → Op V

/-- Apply one public mutating operation. -/
def applyOp {V} (t : Tree V) : Op V → Tree V
  | .ins k v => (t.insert k v).1
  | .del k => (t.delete k).1
  | .dp p => (t.deletePfx p).1

/-- The tree reached from `New()` by a sequence of public operations:
the claims' "reachable" trees. -/
def runOps {V} (ops : List (Op V)) : Tree V := ops.foldl applyOp (Tree.new V)

/-- Strict ascending order of edge labels (structural invariant 1). -/
def sortedLabels {V} : List (Nat × Node V) → Bool
  | [] => true
  | [_] => true
  | e :: f :: rest => decide (e.1 < f.1) && sortedLabels (f :: rest)

/- Well-formedness of a node whose root-to-node prefix concatenation is
`path`: its leaf, if any, stores exactly `path` as its key; edges are
strictly sorted by label; every child has a nonempty prefix starting
with its edge label and is itself well-formed at the extended path.
(Structural invariants 1 and 3, and the prefix/leaf-key coherence that
invariant 2 induces.) -/
mutual
/-- Node-level well-formedness at a given full path. -/
def wfN {V} (path : Key) : Node V → Bool
  | .mk lf _ es =>
    (match lf with
      | none => true
      | some (k, _) => k == path) &&
    sortedLabels es && wfE path es

/-- Edge-list-level well-formedness at the parent's full path. -/
def wfE {V} (path : Key) : List (Nat × Node V) → Bool
  | [] => true
  | (l, c) :: rest =>
    (match c.pfx with
      | [] => false
      | b :: _ => b == l) &&
    wfN (path ++ c.pfx) c && wfE path rest
end

/-- Tree-level well-formedness: the root is well-formed at the empty
path and has an empty prefix. -/
def wfT {V} (t : Tree V) : Bool := wfN [] t.root && t.root.pfx.isEmpty

/-- Computes, as `lcp2 a b`, the longest common prefix of two keys. -/
def lcp2 (a b : Key) : Key := a.take (longestPfx a b)

/-- The longest common prefix of a nonempty collection of keys. -/
def lcpList (k : Key) (ks : List Key) : Key := ks.foldl lcp2 k

/- Structural invariant 2, strict form: at every node with a nonempty
subtree, the root-to-node prefix concatenation equals the longest common
prefix of all keys stored in that node's subtree. -/
mutual
/-- Node-level strict invariant 2 at a given full path. -/
def inv2N {V} (path : Key) : Node V → Bool
  | .mk lf p es =>
    (match (toList (Node.mk lf p es)).map Prod.fst with
      | [] => true
      | k :: ks => lcpList k ks == path) &&
    inv2E path es

/-- Edge-list-level strict invariant 2. -/
def inv2E {V} (path : Key) : List (Nat × Node V) → Bool
  | [] => true
  | (_, c) :: rest => inv2N (path ++ c.pfx) c && inv2E path rest
end

/-- Tree-level strict structural invariant 2. -/
def inv2T {V} (t : Tree V) : Bool := inv2N [] t.root

/- Structural invariant 4: no non-root node has exactly one edge and no
leaf (checked on all strict descendants of the argument). -/
mutual
/-- Node-level invariant 4 (descendants only). -/
def inv4N {V} : Node V → Bool
  | .mk _ _ es => inv4E es

/-- Edge-list-level invariant 4. -/
def inv4E {V} : List (Nat × Node V) → Bool
  | [] => true
  | (_, c) :: rest =>
    !(c.children.length == 1 && c.leaf.isNone) && inv4N c && inv4E rest
end

/-- Tree-level structural invariant 4. -/
def inv4T {V} (t : Tree V) : Bool := inv4N t.root

/- Productivity: every strict descendant of the argument has a
nonempty subtree (no dangling empty nodes). -/
mutual
/-- Node-level productivity (descendants only). -/
def prodN {V} : Node V → Bool
  | .mk _ _ es => prodE es

/-- Edge-list-level productivity. -/
def prodE {V} : List (Nat × Node V) → Bool
  | [] => true
  | (_, c) :: rest => !(toList c).isEmpty && prodN c && prodE rest
end

/-- Tree-level productivity. -/
def prodT {V} (t : Tree V) : Bool := prodN t.root

/-- Go's byte-wise lexicographic order on strings (a strict prefix is
smaller). -/
def klt : Key → Key → Bool
  | [], [] => false
  | [], _ :: _ => true
  | _ :: _, [] => false
  | a :: as, b :: bs => if a < b then true else if b < a then false else klt as bs

/-! ## Basic facts: prefixes, the shared-prefix length, and the byte-wise
lexicographic order -/

theorem isPrefixOf_iff {a b : Key} : a.isPrefixOf b = true ↔ a <+: b := by
  induction a generalizing b with
  | nil => simp [List.isPrefixOf]
  | cons x xs ih =>
    cases b with
    | nil => simp [List.isPrefixOf]
    | cons y ys =>
      simp only [List.isPrefixOf, Bool.and_eq_true, beq_iff_eq, ih,
        List.cons_prefix_cons]

theorem longestPfx_le_left (a b : Key) : longestPfx a b ≤ a.length := by
  induction a generalizing b with
  | nil => simp [longestPfx]
  | cons x xs ih =>
    cases b with
    | nil => simp [longestPfx]
    | cons y ys =>
      simp only [longestPfx]
      split
      · simpa using ih ys
      · simp

theorem longestPfx_le_right (a b : Key) : longestPfx a b ≤ b.length := by
  induction a generalizing b with
  | nil => simp [longestPfx]
  | cons x xs ih =>
    cases b with
    | nil => simp [longestPfx]
    | cons y ys =>
      simp only [longestPfx]
      split
      · simpa using ih ys
      · simp

theorem longestPfx_eq_length_iff {a b : Key} :
    longestPfx a b = b.length ↔ b <+: a := by
  induction b generalizing a with
  | nil =>
    cases a <;> simp [longestPfx]
  | cons y ys ih =>
    cases a with
    | nil => simp [longestPfx]
    | cons x xs =>
      simp only [longestPfx, List.cons_prefix_cons, List.length_cons]
      split
      · rename_i hxy
        subst hxy
        simp [ih]
      · rename_i hxy
        constructor
        · omega
        · rintro ⟨h1, h2⟩
          exact absurd h1.symm hxy

theorem longestPfx_take_eq (a b : Key) :
    a.take (longestPfx a b) = b.take (longestPfx a b) := by
  induction a generalizing b with
  | nil => simp [longestPfx]
  | cons x xs ih =>
    cases b with
    | nil => simp [longestPfx]
    | cons y ys =>
      simp only [longestPfx]
      split
      · rename_i hxy
        subst hxy
        simp [List.take_succ_cons, ih ys]
      · simp

theorem longestPfx_getD_ne {a b : Key} {d : Nat}
    (ha : longestPfx a b < a.length) (hb : longestPfx a b < b.length) :
    a.getD (longestPfx a b) d ≠ b.getD (longestPfx a b) d := by
  induction a generalizing b with
  | nil => simp [longestPfx] at ha
  | cons x xs ih =>
    cases b with
    | nil => simp [longestPfx] at hb
    | cons y ys =>
      by_cases hxy : x = y
      · subst hxy
        have hu : longestPfx (x :: xs) (x :: ys) = longestPfx xs ys + 1 := by
          simp [longestPfx]
        rw [hu] at ha hb ⊢
        simp only [List.length_cons, Nat.add_lt_add_iff_right] at ha hb
        simpa using ih ha hb
      · have hu : longestPfx (x :: xs) (y :: ys) = 0 := by
          simp [longestPfx, hxy]
        rw [hu] at ha hb ⊢
        simpa using hxy

theorem prefix_of_longestPfx_eq_length {a b : Key}
    (h : longestPfx a b = b.length) : b <+: a :=
  longestPfx_eq_length_iff.mp h

theorem klt_irrefl (a : Key) : klt a a = false := by
  induction a with
  | nil => rfl
  | cons x xs ih => simp [klt, ih]

theorem klt_trans {a b c : Key} (h1 : klt a b = true) (h2 : klt b c = true) :
    klt a c = true := by
  induction a generalizing b c with
  | nil =>
    cases b with
    | nil => simp [klt] at h1
    | cons y ys =>
      cases c with
      | nil => simp [klt] at h2
      | cons z zs => simp [klt]
  | cons x xs ih =>
    cases b with
    | nil => simp [klt] at h1
    | cons y ys =>
      cases c with
      | nil => simp [klt] at h2
      | cons z zs =>
        simp only [klt] at h1 h2 ⊢
        split at h1
        · rename_i hxy
          split at h2
          · rename_i hyz
            rw [if_pos (Nat.lt_trans hxy hyz)]
          · split at h2
            · simp at h2
            · rename_i h3 h4
              have : y = z := by omega
              subst this
              rw [if_pos hxy]
        · split at h1
          · simp at h1
          · rename_i h3 h4
            have hxy : x = y := by omega
            subst hxy
            split at h2
            · rename_i hyz
              rw [if_pos hyz]
            · split at h2
              · simp at h2
              · rename_i h5 h6
                have : x = z := by omega
                subst this
                simp only [Nat.lt_irrefl, if_false]
                exact ih h1 h2

theorem klt_asymm {a b : Key} (h1 : klt a b = true) : klt b a = false := by
  by_contra h2
  rw [Bool.not_eq_false] at h2
  have := klt_trans h1 h2
  rw [klt_irrefl] at this
  cases this

theorem klt_ne {a b : Key} (h : klt a b = true) : a ≠ b := by
  rintro rfl
  rw [klt_irrefl] at h
  cases h

theorem klt_total {a b : Key} (h1 : klt a b = false) (h2 : klt b a = false) :
    a = b := by
  induction a generalizing b with
  | nil =>
    cases b with
    | nil => rfl
    | cons y ys => simp [klt] at h1
  | cons x xs ih =>
    cases b with
    | nil => simp [klt] at h2
    | cons y ys =>
      simp only [klt] at h1 h2
      split at h1
      · simp at h1
      · split at h1
        · rename_i h3 h4
          rw [if_pos h4] at h2
          simp at h2
        · rename_i h3 h4
          have hxy : x = y := by omega
          subst hxy
          rw [if_neg h3, if_neg h3] at h2
          rw [ih h1 h2]

theorem klt_append_congr (p a b : Key) : klt (p ++ a) (p ++ b) = klt a b := by
  induction p with
  | nil => rfl
  | cons x xs ih => simp [klt, ih]

theorem klt_nil_right {a : Key} (h : a ≠ []) : klt [] a = true := by
  cases a with
  | nil => exact absurd rfl h
  | cons x xs => rfl

theorem klt_append_right {p a : Key} (h : a ≠ []) : klt p (p ++ a) = true := by
  have := klt_append_congr p [] a
  rw [List.append_nil] at this
  rw [this]
  exact klt_nil_right h

theorem klt_cons_of_lt {a b : Nat} {x y : Key} (h : a < b) :
    klt (a :: x) (b :: y) = true := by
  simp [klt, if_pos h]

theorem klt_of_prefix_ne {a b : Key} (h : a <+: b) (hne : a ≠ b) :
    klt a b = true := by
  obtain ⟨t, rfl⟩ := h
  apply klt_append_right
  rintro rfl
  simp at hne

/-- Two keys that both extend `p ++ [x]` and `p ++ [y]` with `x < y` are
ordered. -/
theorem klt_of_head_lt {p : Key} {x y : Nat} {a b : Key}
    (hx : p ++ [x] <+: a) (hy : p ++ [y] <+: b) (h : x < y) :
    klt a b = true := by
  obtain ⟨ta, rfl⟩ := hx
  obtain ⟨tb, rfl⟩ := hy
  rw [List.append_assoc, List.append_assoc, klt_append_congr]
  simpa using klt_cons_of_lt (x := ta) (y := tb) h

/-! ## Edge-list toolkit: sortedness, lookup, replacement, removal,
insertion -/

theorem sortedLabels_iff {V} {es : List (Nat × Node V)} :
    sortedLabels es = true ↔ es.Pairwise (fun e f => e.1 < f.1) := by
  induction es with
  | nil => simp [sortedLabels]
  | cons e rest ih =>
    cases rest with
    | nil => simp [sortedLabels]
    | cons f rest2 =>
      simp only [sortedLabels, Bool.and_eq_true, decide_eq_true_eq, ih,
        List.pairwise_cons] at *
      constructor
      · rintro ⟨hef, hf, hrest⟩
        refine ⟨?_, hf, hrest⟩
        intro g hg
        rcases List.mem_cons.mp hg with rfl | hg2
        · exact hef
        · exact Nat.lt_trans hef (hf g hg2)
      · rintro ⟨he, hf, hrest⟩
        exact ⟨he f (List.mem_cons_self _ _), hf, hrest⟩

theorem sortedLabels_of_map_eq {V} {es es' : List (Nat × Node V)}
    (h : es.map Prod.fst = es'.map Prod.fst) (hs : sortedLabels es = true) :
    sortedLabels es' = true := by
  rw [sortedLabels_iff] at hs ⊢
  have := (List.pairwise_map (f := (Prod.fst : Nat × Node V → Nat))
    (R := fun a b => a < b)).mpr hs
  rw [h] at this
  exact (List.pairwise_map).mp this

theorem getEdge_some_mem {V} {n : Node V} {b : Nat} {c : Node V}
    (h : getEdge n b = some c) : (b, c) ∈ n.children := by
  unfold getEdge at h
  split at h
  · rename_i e he
    split at h
    · rename_i heq
      cases h
      have := findGE_mem he
      cases e with
      | mk l d =>
        simp only at heq
        subst heq
        exact this
    · cases h
  · cases h

theorem findGE_eq_cons {V} {b : Nat} {e : Nat × Node V}
    {rest : List (Nat × Node V)} (h : b ≤ e.1) :
    findGE b (e :: rest) = some e := by
  simp [findGE, h]

theorem getEdge_some_of_mem {V} {lf : Option (Key × V)} {p : Key}
    {es : List (Nat × Node V)} (hs : sortedLabels es = true) {b : Nat}
    {c : Node V} (h : (b, c) ∈ es) : getEdge (.mk lf p es) b = some c := by
  rw [sortedLabels_iff] at hs
  induction es with
  | nil => simp at h
  | cons e rest ih =>
    rw [List.pairwise_cons] at hs
    rcases List.mem_cons.mp h with rfl | hmem
    · simp [getEdge, Node.children, findGE]
    · have hlt : e.1 < b := hs.1 (b, c) hmem
      have hrec := ih hs.2 hmem
      have step : getEdge (Node.mk lf p (e :: rest)) b
          = getEdge (Node.mk lf p rest) b := by
        unfold getEdge
        simp only [Node.children]
        rw [findGE, if_neg (by omega : ¬ b ≤ e.1)]
      rw [step]
      exact hrec

theorem getEdge_none_not_mem {V} {lf : Option (Key × V)} {p : Key}
    {es : List (Nat × Node V)} {b : Nat} (hs : sortedLabels es = true)
    (h : getEdge (.mk lf p es) b = none) : ∀ c, (b, c) ∉ es := by
  intro c hc
  rw [getEdge_some_of_mem hs hc] at h
  cases h

theorem mem_decomp_sorted {V} {es : List (Nat × Node V)}
    (hs : sortedLabels es = true) {b : Nat} {c : Node V} (h : (b, c) ∈ es) :
    ∃ es₁ es₂, es = es₁ ++ (b, c) :: es₂ ∧ (∀ e ∈ es₁, e.1 < b) ∧
      (∀ e ∈ es₂, b < e.1) := by
  rw [sortedLabels_iff] at hs
  induction es with
  | nil => simp at h
  | cons e rest ih =>
    rw [List.pairwise_cons] at hs
    rcases List.mem_cons.mp h with rfl | hmem
    · exact ⟨[], rest, by simp, by simp, fun f hf => hs.1 f hf⟩
    · obtain ⟨es₁, es₂, heq, h1, h2⟩ := ih hs.2 hmem
      refine ⟨e :: es₁, es₂, by simp [heq], ?_, h2⟩
      intro f hf
      rcases List.mem_cons.mp hf with rfl | hf2
      · exact hs.1 (b, c) hmem
      · exact h1 f hf2

theorem updEdge_cons_of_lt {V} {e : Nat × Node V} {rest : List (Nat × Node V)}
    {b : Nat} {c : Node V} (h : e.1 < b) :
    updEdge (e :: rest) b c = e :: updEdge rest b c := by
  have h2 : ¬ b ≤ e.1 := by omega
  simp [updEdge, h2]

theorem delEdge_cons_of_lt {V} {e : Nat × Node V} {rest : List (Nat × Node V)}
    {b : Nat} (h : e.1 < b) :
    delEdge (e :: rest) b = e :: delEdge rest b := by
  have h2 : ¬ b ≤ e.1 := by omega
  simp [delEdge, h2]

theorem updEdge_decomp {V} {es₁ es₂ : List (Nat × Node V)} {b : Nat}
    {c₀ c : Node V} (h1 : ∀ e ∈ es₁, e.1 < b) :
    updEdge (es₁ ++ (b, c₀) :: es₂) b c = es₁ ++ (b, c) :: es₂ := by
  induction es₁ with
  | nil => simp [updEdge]
  | cons e rest ih =>
    have he : e.1 < b := h1 e (List.mem_cons_self _ _)
    rw [List.cons_append, updEdge_cons_of_lt he,
      ih (fun f hf => h1 f (List.mem_cons_of_mem _ hf)), List.cons_append]

theorem delEdge_decomp {V} {es₁ es₂ : List (Nat × Node V)} {b : Nat}
    {c₀ : Node V} (h1 : ∀ e ∈ es₁, e.1 < b) :
    delEdge (es₁ ++ (b, c₀) :: es₂) b = es₁ ++ es₂ := by
  induction es₁ with
  | nil => simp [delEdge]
  | cons e rest ih =>
    have he : e.1 < b := h1 e (List.mem_cons_self _ _)
    rw [List.cons_append, delEdge_cons_of_lt he,
      ih (fun f hf => h1 f (List.mem_cons_of_mem _ hf)), List.cons_append]

theorem updEdge_map_fst {V} (es : List (Nat × Node V)) (b : Nat) (c : Node V) :
    (updEdge es b c).map Prod.fst = es.map Prod.fst := by
  induction es with
  | nil => rfl
  | cons e rest ih =>
    simp only [updEdge]
    split
    · split
      · simp
      · simp
    · simp [ih]

theorem mem_insSorted {V} {e g : Nat × Node V} {es : List (Nat × Node V)} :
    g ∈ insSorted e es ↔ g = e ∨ g ∈ es := by
  induction es with
  | nil => simp [insSorted]
  | cons f rest ih =>
    simp only [insSorted]
    split
    · simp [List.mem_cons]
    · simp only [List.mem_cons, ih]
      tauto

theorem insSorted_cons {V} (e f : Nat × Node V) (rest : List (Nat × Node V)) :
    insSorted e (f :: rest)
      = if e.1 < f.1 then e :: f :: rest else f :: insSorted e rest := rfl

theorem insSorted_eq_cons_of_lt_all {V} {e : Nat × Node V}
    {es : List (Nat × Node V)} (h : ∀ g ∈ es, e.1 < g.1) :
    insSorted e es = e :: es := by
  cases es with
  | nil => rfl
  | cons f rest => simp [insSorted, h f (List.mem_cons_self _ _)]

theorem insSorted_sorted {V} {e : Nat × Node V} {es : List (Nat × Node V)}
    (hs : sortedLabels es = true) (hfresh : ∀ g ∈ es, g.1 ≠ e.1) :
    sortedLabels (insSorted e es) = true := by
  rw [sortedLabels_iff] at hs ⊢
  induction es with
  | nil => simp [insSorted]
  | cons f rest ih =>
    rw [List.pairwise_cons] at hs
    simp only [insSorted]
    split
    · rename_i hef
      rw [List.pairwise_cons]
      constructor
      · intro g hg
        rcases List.mem_cons.mp hg with rfl | hg2
        · exact hef
        · exact Nat.lt_trans hef (hs.1 g hg2)
      · rw [List.pairwise_cons]
        exact hs
    · rename_i hef
      have hfe : f.1 < e.1 := by
        have := hfresh f (List.mem_cons_self _ _)
        omega
      rw [List.pairwise_cons]
      constructor
      · intro g hg
        rcases mem_insSorted.mp hg with rfl | hg2
        · exact hfe
        · exact hs.1 g hg2
      · exact ih hs.2 (fun g hg => hfresh g (List.mem_cons_of_mem _ hg))

theorem sortEdges_eq_of_sorted {V} {es : List (Nat × Node V)}
    (hs : sortedLabels es = true) : sortEdges es = es := by
  rw [sortedLabels_iff] at hs
  induction es with
  | nil => rfl
  | cons e rest ih =>
    rw [List.pairwise_cons] at hs
    simp only [sortEdges]
    rw [ih hs.2]
    exact insSorted_eq_cons_of_lt_all hs.1

theorem addEdge_eq_insSorted {V} {es : List (Nat × Node V)}
    {e : Nat × Node V} (hs : sortedLabels es = true)
    (hfresh : ∀ g ∈ es, g.1 ≠ e.1) : addEdge es e = insSorted e es := by
  rw [sortedLabels_iff] at hs
  induction es with
  | nil => rfl
  | cons f rest ih =>
    rw [List.pairwise_cons] at hs
    have hrec : sortEdges (rest ++ [e]) = insSorted e rest :=
      ih hs.2 (fun g hg => hfresh g (List.mem_cons_of_mem _ hg))
    have hfe : f.1 ≠ e.1 := hfresh f (List.mem_cons_self _ _)
    rw [show addEdge (f :: rest) e = insSorted f (sortEdges (rest ++ [e])) from rfl]
    rw [hrec]
    by_cases hcmp : e.1 < f.1
    · have h1 : insSorted e rest = e :: rest := by
        apply insSorted_eq_cons_of_lt_all
        intro g hg
        exact Nat.lt_trans hcmp (hs.1 g hg)
      rw [h1, insSorted_cons, if_neg (by omega : ¬ f.1 < e.1),
        insSorted_eq_cons_of_lt_all hs.1, insSorted_cons, if_pos hcmp]
    · have hfe2 : f.1 < e.1 := by omega
      have h2 : insSorted f (insSorted e rest) = f :: insSorted e rest := by
        apply insSorted_eq_cons_of_lt_all
        intro g hg
        rcases mem_insSorted.mp hg with rfl | hg2
        · exact hfe2
        · exact hs.1 g hg2
      rw [h2, insSorted_cons, if_neg (by omega : ¬ e.1 < f.1)]

/-! ## Visit-list toolkit -/

theorem toList_mk {V} (lf : Option (Key × V)) (p : Key)
    (es : List (Nat × Node V)) :
    toList (.mk lf p es) = lf.toList ++ toListE es := by
  rw [toList]

theorem toListE_cons {V} (e : Nat × Node V) (rest : List (Nat × Node V)) :
    toListE (e :: rest) = toList e.2 ++ toListE rest := by
  cases e
  rw [toListE]

theorem toListE_append {V} (xs ys : List (Nat × Node V)) :
    toListE (xs ++ ys) = toListE xs ++ toListE ys := by
  induction xs with
  | nil => simp [toListE]
  | cons e rest ih => simp [toListE_cons, ih, List.append_assoc]

theorem toList_pfx_irrel {V} (lf : Option (Key × V)) (p p' : Key)
    (es : List (Nat × Node V)) :
    toList (.mk lf p es) = toList (.mk lf p' es) := by
  rw [toList_mk, toList_mk]

theorem mem_toListE {V} {kv : Key × V} {es : List (Nat × Node V)} :
    kv ∈ toListE es ↔ ∃ e ∈ es, kv ∈ toList e.2 := by
  induction es with
  | nil => simp [toListE]
  | cons e rest ih =>
    rw [toListE_cons]
    simp only [List.mem_append, ih, List.mem_cons]
    constructor
    · rintro (h | ⟨f, hf, hkv⟩)
      · exact ⟨e, Or.inl rfl, h⟩
      · exact ⟨f, Or.inr hf, hkv⟩
    · rintro ⟨f, (rfl | hf), hkv⟩
      · exact Or.inl hkv
      · exact Or.inr ⟨f, hf, hkv⟩

theorem toListE_insSorted_perm {V} (e : Nat × Node V)
    (es : List (Nat × Node V)) :
    (toListE (insSorted e es)).Perm (toList e.2 ++ toListE es) := by
  induction es with
  | nil => simp [insSorted, toListE_cons, toListE]
  | cons f rest ih =>
    simp only [insSorted]
    split
    · exact List.Perm.refl _
    · rw [toListE_cons, toListE_cons]
      refine (ih.append_left (toList f.2)).trans ?_
      rw [← List.append_assoc, ← List.append_assoc]
      exact List.perm_append_comm.append_right _

/-! ## Structural induction over nodes, and well-formedness
characterizations -/

theorem nodeInd {V} {P : Node V → Prop}
    (h : ∀ lf p es, (∀ e ∈ es, P e.2) → P (.mk lf p es)) : ∀ n, P n
  | .mk lf p es => h lf p es (fun e he => nodeInd h e.2)
termination_by n => sizeOf n
decreasing_by exact sizeOf_mem_children (n := Node.mk lf p es) he

theorem wfN_mk {V} (path : Key) (lf : Option (Key × V)) (p : Key)
    (es : List (Nat × Node V)) :
    wfN path (.mk lf p es)
      = ((match lf with
          | none => true
          | some (k, _) => k == path) &&
         sortedLabels es && wfE path es) := by
  rw [wfN.eq_def]

theorem wfE_cons {V} (path : Key) (e : Nat × Node V)
    (rest : List (Nat × Node V)) :
    wfE path (e :: rest)
      = ((match e.2.pfx with
          | [] => false
          | b :: _ => b == e.1) &&
         wfN (path ++ e.2.pfx) e.2 && wfE path rest) := by
  cases e with
  | mk l c => rw [wfE.eq_def]

theorem wfE_iff {V} {path : Key} {es : List (Nat × Node V)} :
    wfE path es = true
      ↔ ∀ e ∈ es, e.2.pfx.head? = some e.1 ∧ wfN (path ++ e.2.pfx) e.2 = true := by
  induction es with
  | nil => simp [wfE]
  | cons e rest ih =>
    rw [wfE_cons]
    simp only [Bool.and_eq_true, ih]
    constructor
    · rintro ⟨⟨hm, hn⟩, hrest⟩
      intro f hf
      rcases List.mem_cons.mp hf with rfl | hf2
      · refine ⟨?_, hn⟩
        cases hp : f.2.pfx with
        | nil => rw [hp] at hm; cases hm
        | cons x xs =>
          rw [hp] at hm
          simp only [beq_iff_eq] at hm
          simp [hm]
      · exact hrest f hf2
    · intro hall
      refine ⟨⟨?_, (hall e (List.mem_cons_self _ _)).2⟩, ?_⟩
      · have := (hall e (List.mem_cons_self _ _)).1
        cases hp : e.2.pfx with
        | nil => rw [hp] at this; cases this
        | cons x xs =>
          rw [hp] at this
          simp only [List.head?_cons, Option.some.injEq] at this
          simp [this]
      · exact fun f hf => hall f (List.mem_cons_of_mem _ hf)

theorem wfN_iff {V} {path : Key} {lf : Option (Key × V)} {p : Key}
    {es : List (Nat × Node V)} :
    wfN path (.mk lf p es) = true
      ↔ (∀ k v, lf = some (k, v) → k = path) ∧ sortedLabels es = true ∧
        wfE path es = true := by
  rw [wfN_mk]
  simp only [Bool.and_eq_true]
  constructor
  · rintro ⟨⟨hl, hs⟩, he⟩
    refine ⟨?_, hs, he⟩
    intro k v hkv
    rw [hkv] at hl
    simpa using hl
  · rintro ⟨hl, hs, he⟩
    refine ⟨⟨?_, hs⟩, he⟩
    cases lf with
    | none => rfl
    | some l =>
      cases l with
      | mk k v => simpa using hl k v rfl

theorem wfN_pfx_irrel {V} (path : Key) (lf : Option (Key × V)) (p p' : Key)
    (es : List (Nat × Node V)) :
    wfN path (.mk lf p es) = wfN path (.mk lf p' es) := by
  rw [wfN_mk, wfN_mk]

/-! ## Keys in the visit list: extension and ordering -/

theorem ne_of_extends {p k : Key} {x : Nat} (h : (p ++ [x]) <+: k) : k ≠ p := by
  intro hk
  subst hk
  have := h.length_le
  simp at this

theorem head_of_prefix_ext {p : Key} {x y : Nat} {ys : Key}
    (h : (p ++ [x]) <+: (p ++ y :: ys)) : x = y := by
  obtain ⟨t, ht⟩ := h
  rw [List.append_assoc] at ht
  have h2 := List.append_cancel_left ht
  simp only [List.singleton_append] at h2
  injection h2 with h3 h4

theorem prefix_ext_trans {p a k : Key} {x : Nat}
    (hp : a.head? = some x) (h : (p ++ a) <+: k) : (p ++ [x]) <+: k := by
  cases a with
  | nil => cases hp
  | cons b bs =>
    simp only [List.head?_cons, Option.some.injEq] at hp
    subst hp
    refine List.IsPrefix.trans ⟨bs, ?_⟩ h
    simp

theorem toList_key {V} :
    ∀ (n : Node V) {path : Key}, wfN path n = true →
      ∀ kv ∈ toList n, path <+: kv.1 := by
  intro n
  induction n using nodeInd with
  | _ lf p es ih =>
    intro path hwf kv hkv
    rw [wfN_iff] at hwf
    rw [toList_mk] at hkv
    rcases List.mem_append.mp hkv with hl | he
    · cases lf with
      | none => simp at hl
      | some l =>
        simp only [Option.toList_some, List.mem_singleton] at hl
        subst hl
        rw [hwf.1 kv.1 kv.2 (by cases kv; rfl)]
    · obtain ⟨e, hees, hkv2⟩ := mem_toListE.mp he
      have hwfe := (wfE_iff.mp hwf.2.2) e hees
      have h2 := ih e hees hwfe.2 kv hkv2
      exact List.IsPrefix.trans (List.prefix_append path e.2.pfx) h2

theorem toListE_key {V} {path : Key} {es : List (Nat × Node V)}
    (h : wfE path es = true) :
    ∀ kv ∈ toListE es, ∃ e ∈ es, (path ++ [e.1]) <+: kv.1 := by
  intro kv hkv
  obtain ⟨e, he, hkv2⟩ := mem_toListE.mp hkv
  have h2 := (wfE_iff.mp h) e he
  have h3 := toList_key e.2 h2.2 kv hkv2
  exact ⟨e, he, prefix_ext_trans h2.1 h3⟩

theorem mem_label_unique {V} {es : List (Nat × Node V)}
    (hs : sortedLabels es = true) {b : Nat} {c c' : Node V}
    (h1 : (b, c) ∈ es) (h2 : (b, c') ∈ es) : c = c' := by
  rw [sortedLabels_iff] at hs
  induction es with
  | nil => simp at h1
  | cons e rest ih =>
    rw [List.pairwise_cons] at hs
    rcases List.mem_cons.mp h1 with rfl | h1m
    · rcases List.mem_cons.mp h2 with heq | h2m
      · cases heq
        rfl
      · have := hs.1 (b, c') h2m
        simp at this
    · rcases List.mem_cons.mp h2 with rfl | h2m
      · have := hs.1 (b, c) h1m
        simp at this
      · exact ih hs.2 h1m h2m

theorem mem_toListE_label {V} {path : Key} {es : List (Nat × Node V)}
    (hwfe : wfE path es = true) (hs : sortedLabels es = true) {b : Nat}
    {child : Node V} (hmem : (b, child) ∈ es) {bs : Key} {v : V} :
    (path ++ b :: bs, v) ∈ toListE es ↔ (path ++ b :: bs, v) ∈ toList child := by
  constructor
  · intro h
    obtain ⟨e, he, hkv⟩ := mem_toListE.mp h
    have hx := (wfE_iff.mp hwfe) e he
    have hkey := toList_key e.2 hx.2 _ hkv
    have hext := prefix_ext_trans hx.1 hkey
    have hlab : e.1 = b := head_of_prefix_ext hext
    cases e with
    | mk l c =>
      simp only at hlab
      subst hlab
      rw [mem_label_unique hs he hmem] at hkv
      exact hkv
  · intro h
    exact mem_toListE.mpr ⟨(b, child), hmem, h⟩

theorem toListE_sorted_aux {V} {path : Key} {es : List (Nat × Node V)}
    (hs : sortedLabels es = true) (hwfe : wfE path es = true)
    (hall : ∀ e ∈ es, (toList e.2).Pairwise (fun x y => klt x.1 y.1 = true)) :
    (toListE es).Pairwise (fun x y => klt x.1 y.1 = true) := by
  induction es with
  | nil => simp [toListE]
  | cons e rest ih =>
    rw [sortedLabels_iff, List.pairwise_cons] at hs
    rw [wfE_cons] at hwfe
    simp only [Bool.and_eq_true] at hwfe
    rw [toListE_cons]
    rw [List.pairwise_append]
    refine ⟨hall e (List.mem_cons_self _ _), ?_, ?_⟩
    · apply ih
      · rw [sortedLabels_iff]
        exact hs.2
      · exact hwfe.2
      · exact fun f hf => hall f (List.mem_cons_of_mem _ hf)
    · intro x hx y hy
      have hhead : e.2.pfx.head? = some e.1 := by
        rcases hwfe.1 with ⟨hm, _⟩
        cases hp : e.2.pfx with
        | nil => rw [hp] at hm; cases hm
        | cons a as =>
          rw [hp] at hm
          simp only [beq_iff_eq] at hm
          simp [hm]
      have hxkey : (path ++ [e.1]) <+: x.1 :=
        prefix_ext_trans hhead (toList_key e.2 hwfe.1.2 x hx)
      obtain ⟨f, hf, hykey⟩ := toListE_key hwfe.2 y hy
      exact klt_of_head_lt hxkey hykey (hs.1 f hf)

theorem toList_sorted {V} :
    ∀ (n : Node V) {path : Key}, wfN path n = true →
      (toList n).Pairwise (fun x y => klt x.1 y.1 = true) := by
  intro n
  induction n using nodeInd with
  | _ lf p es ih =>
    intro path hwf
    rw [wfN_iff] at hwf
    rw [toList_mk, List.pairwise_append]
    refine ⟨?_, ?_, ?_⟩
    · cases lf <;> simp
    · exact toListE_sorted_aux hwf.2.1 hwf.2.2
        (fun e he => ih e he ((wfE_iff.mp hwf.2.2) e he).2)
    · intro x hx y hy
      cases lf with
      | none => simp at hx
      | some l =>
        simp only [Option.toList_some, List.mem_singleton] at hx
        subst hx
        have hkx : x.1 = path := hwf.1 x.1 x.2 (by cases x; rfl)
        obtain ⟨f, hf, hykey⟩ := toListE_key hwf.2.2 y hy
        rw [hkx]
        obtain ⟨t, ht⟩ := hykey
        rw [← ht, List.append_assoc]
        apply klt_append_right
        simp

theorem sorted_eq_of_mem_iff {V} :
    ∀ {l₁ l₂ : List (Key × V)},
      l₁.Pairwise (fun x y => klt x.1 y.1 = true) →
      l₂.Pairwise (fun x y => klt x.1 y.1 = true) →
      (∀ kv, kv ∈ l₁ ↔ kv ∈ l₂) → l₁ = l₂ := by
  intro l₁
  induction l₁ with
  | nil =>
    intro l₂ h1 h2 h
    cases l₂ with
    | nil => rfl
    | cons y ys =>
      have := (h y).mpr (List.mem_cons_self _ _)
      simp at this
  | cons x xs ih =>
    intro l₂ h1 h2 h
    cases l₂ with
    | nil =>
      have := (h x).mp (List.mem_cons_self _ _)
      simp at this
    | cons y ys =>
      rw [List.pairwise_cons] at h1 h2
      have hxy : x = y := by
        have hx2 : x ∈ y :: ys := (h x).mp (List.mem_cons_self _ _)
        have hy1 : y ∈ x :: xs := (h y).mpr (List.mem_cons_self _ _)
        rcases List.mem_cons.mp hx2 with rfl | hxys
        · rfl
        · rcases List.mem_cons.mp hy1 with rfl | hyxs
          · rfl
          · have k1 : klt x.1 y.1 = true := h1.1 y hyxs
            have k2 : klt y.1 x.1 = true := h2.1 x hxys
            rw [klt_asymm k1] at k2
            cases k2
      subst hxy
      congr 1
      apply ih h1.2 h2.2
      intro kv
      constructor
      · intro hkv
        have hin : kv ∈ x :: ys := (h kv).mp (List.mem_cons_of_mem _ hkv)
        rcases List.mem_cons.mp hin with rfl | hys
        · have := h1.1 kv hkv
          rw [klt_irrefl] at this
          cases this
        · exact hys
      · intro hkv
        have hin : kv ∈ x :: xs := (h kv).mpr (List.mem_cons_of_mem _ hkv)
        rcases List.mem_cons.mp hin with rfl | hxs
        · have := h2.1 kv hkv
          rw [klt_irrefl] at this
          cases this
        · exact hxs

/-! ## Plain-match unfolding equations for the descent functions -/

theorem getNode_nil {V} (n : Node V) : getNode n [] = n.leaf.map (·.2) := by
  rw [getNode.eq_def]

theorem getNode_cons {V} (n : Node V) (b : Nat) (bs : Key) :
    getNode n (b :: bs)
      = (match getEdge n b with
         | none => none
         | some child =>
           if child.pfx.isPrefixOf (b :: bs) = true then
             getNode child ((b :: bs).drop child.pfx.length)
           else none) := by
  rw [getNode.eq_def]
  split
  · rename_i heq
    simp at heq
  · rename_i b2 bs2 heq
    injection heq with h1 h2
    subst h1
    subst h2
    split
    · rename_i heq2
      rw [heq2]
    · rename_i child heq2
      rw [heq2]

theorem getNode_cons_some {V} {n : Node V} {b : Nat} {bs : Key}
    {child : Node V} (h : getEdge n b = some child) :
    getNode n (b :: bs)
      = (if child.pfx.isPrefixOf (b :: bs) = true then
           getNode child ((b :: bs).drop child.pfx.length)
         else none) := by
  rw [getNode_cons, h]

/-! ## Get agrees with the visit list -/

theorem getNode_iff_mem {V} :
    ∀ (n : Node V) (search : Key), ∀ {path : Key}, wfN path n = true →
      ∀ v, (getNode n search = some v ↔ (path ++ search, v) ∈ toList n) := by
  intro n search
  induction n, search using getNode.induct with
  | case1 n =>
    intro path hwf v
    cases n with
    | mk lf p es =>
      rw [wfN_iff] at hwf
      rw [toList_mk, getNode_nil]
      simp only [List.append_nil]
      cases lf with
      | none =>
        simp only [Node.leaf, Option.map_none', Option.toList_none,
          List.nil_append]
        constructor
        · intro h
          cases h
        · intro h
          obtain ⟨e, he, hext⟩ := toListE_key hwf.2.2 (path, v) h
          exact absurd rfl (ne_of_extends hext)
      | some l =>
        obtain ⟨k0, w⟩ := l
        have hk : k0 = path := hwf.1 k0 w rfl
        subst k0
        simp only [Node.leaf, Option.map_some', Option.toList_some,
          List.singleton_append, List.mem_cons, Option.some.injEq,
          Prod.mk.injEq, true_and]
        constructor
        · rintro rfl
          left
          rfl
        · rintro (heq | hmem)
          · rw [heq]
          · obtain ⟨e, he, hext⟩ := toListE_key hwf.2.2 (path, v) hmem
            exact absurd rfl (ne_of_extends hext)
  | case2 n b bs h =>
    intro path hwf v
    cases n with
    | mk lf p es =>
      rw [wfN_iff] at hwf
      rw [toList_mk, getNode_cons]
      rw [h]
      constructor
      · intro hx
        cases hx
      · intro hmem
        rcases List.mem_append.mp hmem with hl | he
        · cases lf with
          | none => simp at hl
          | some l =>
            obtain ⟨k0, w⟩ := l
            have hk : k0 = path := hwf.1 k0 w rfl
            subst k0
            simp only [Option.toList_some, List.mem_singleton,
              Prod.mk.injEq] at hl
            have hpre : (path ++ [b]) <+: (path ++ b :: bs) := ⟨bs, by simp⟩
            exact absurd hl.1 (ne_of_extends hpre)
        · obtain ⟨e, hees, hext⟩ := toListE_key hwf.2.2 _ he
          have hlab : e.1 = b := head_of_prefix_ext hext
          have hmem2 : (b, e.2) ∈ es := by
            cases e with
            | mk l c =>
              simp only at hlab
              subst hlab
              exact hees
          exact absurd hmem2 (getEdge_none_not_mem hwf.2.1 h e.2)
  | case3 n b bs child h hpf res =>
    intro path hwf v
    cases n with
    | mk lf p es =>
      rw [wfN_iff] at hwf
      have hmemc : (b, child) ∈ es := getEdge_some_mem h
      have hwfc := (wfE_iff.mp hwf.2.2) (b, child) hmemc
      have hpfx : child.pfx <+: (b :: bs) := isPrefixOf_iff.mp hpf
      obtain ⟨t, ht⟩ := hpfx
      have hdrop : (b :: bs).drop child.pfx.length = t := by
        rw [← ht]
        exact List.drop_left _ _
      rw [toList_mk, getNode_cons, h]
      simp only [hpf, if_true]
      have ihx := res hwfc.2 v
      rw [hdrop] at ihx ⊢
      rw [ihx]
      have hkey : path ++ child.pfx ++ t = path ++ b :: bs := by
        rw [List.append_assoc, ht]
      rw [hkey]
      constructor
      · intro hmem
        apply List.mem_append.mpr
        right
        exact (mem_toListE_label hwf.2.2 hwf.2.1 hmemc).mpr hmem
      · intro hmem
        rcases List.mem_append.mp hmem with hl | he
        · cases lf with
          | none => simp at hl
          | some l =>
            obtain ⟨k0, w⟩ := l
            have hk : k0 = path := hwf.1 k0 w rfl
            subst k0
            simp only [Option.toList_some, List.mem_singleton,
              Prod.mk.injEq] at hl
            have hpre : (path ++ [b]) <+: (path ++ b :: bs) := ⟨bs, by simp⟩
            exact absurd hl.1 (ne_of_extends hpre)
        · exact (mem_toListE_label hwf.2.2 hwf.2.1 hmemc).mp he
  | case4 n b bs child h hpf =>
    intro path hwf v
    cases n with
    | mk lf p es =>
      rw [wfN_iff] at hwf
      have hmemc : (b, child) ∈ es := getEdge_some_mem h
      have hwfc := (wfE_iff.mp hwf.2.2) (b, child) hmemc
      rw [toList_mk, getNode_cons, h]
      simp only [hpf, if_false, Bool.false_eq_true]
      constructor
      · intro hx
        cases hx
      · intro hmem
        rcases List.mem_append.mp hmem with hl | he
        · cases lf with
          | none => simp at hl
          | some l =>
            obtain ⟨k0, w⟩ := l
            have hk : k0 = path := hwf.1 k0 w rfl
            subst k0
            simp only [Option.toList_some, List.mem_singleton,
              Prod.mk.injEq] at hl
            have hpre : (path ++ [b]) <+: (path ++ b :: bs) := ⟨bs, by simp⟩
            exact absurd hl.1 (ne_of_extends hpre)
        · have hin : (path ++ b :: bs, v) ∈ toList child :=
            (mem_toListE_label hwf.2.2 hwf.2.1 hmemc).mp he
          have hkey := toList_key child hwfc.2 _ hin
          have hcp : child.pfx <+: (b :: bs) :=
            (List.prefix_append_right_inj path).mp hkey
          rw [← isPrefixOf_iff] at hcp
          exact absurd hcp hpf


/-! ## Unfolding equations for insertPanics and deleteNode -/

theorem insertPanics_nil {V} (n : Node V) : insertPanics n [] = false := by
  rw [insertPanics.eq_def]

theorem insertPanics_cons {V} (n : Node V) (b : Nat) (bs : Key) :
    insertPanics n (b :: bs)
      = (match getEdge n b with
         | none => false
         | some child =>
           if longestPfx (b :: bs) child.pfx = child.pfx.length then
             insertPanics child ((b :: bs).drop (longestPfx (b :: bs) child.pfx))
           else !(getEdge n b).isSome) := by
  rw [insertPanics.eq_def]
  split
  · rename_i heq
    simp at heq
  · rename_i b2 bs2 heq
    injection heq with h1 h2
    subst h1
    subst h2
    split
    · rename_i heq2
      rw [heq2]
    · rename_i child heq2
      rw [heq2]

theorem insertPanics_cons_some {V} {n : Node V} {b : Nat} {bs : Key}
    {child : Node V} (h : getEdge n b = some child) :
    insertPanics n (b :: bs)
      = (if longestPfx (b :: bs) child.pfx = child.pfx.length then
           insertPanics child ((b :: bs).drop (longestPfx (b :: bs) child.pfx))
         else !(getEdge n b).isSome) := by
  rw [insertPanics_cons, h]

theorem deleteNode_nil {V} (root? : Bool) (n : Node V) :
    deleteNode root? n []
      = (match n.leaf with
         | none => (n, none)
         | some (_, old) => (.mk none n.pfx n.children, some old)) := by
  rw [deleteNode.eq_def]

theorem deleteNode_cons {V} (root? : Bool) (n : Node V) (b : Nat) (bs : Key) :
    deleteNode root? n (b :: bs)
      = (match getEdge n b with
         | none => (n, none)
         | some child =>
           if child.pfx.isPrefixOf (b :: bs) = true then
             let rest := (b :: bs).drop child.pfx.length
             let res := deleteNode false child rest
             match res.2 with
             | none => (n, none)
             | some old =>
               if rest.isEmpty then
                 let child1 := res.1
                 let es1 := if child1.children.isEmpty then delEdge n.children b
                            else updEdge n.children b
                              (if child1.children.length == 1 then mergeChild child1
                               else child1)
                 let n1 : Node V := .mk n.leaf n.pfx es1
                 (if !root? && n1.children.length == 1 && n1.leaf.isNone then
                    mergeChild n1
                  else n1,
                  some old)
               else
                 (.mk n.leaf n.pfx (updEdge n.children b res.1), some old)
           else (n, none)) := by
  rw [deleteNode.eq_def]
  split
  · rename_i heq
    simp at heq
  · rename_i b2 bs2 heq
    injection heq with h1 h2
    subst h1
    subst h2
    split
    · rename_i heq2
      rw [heq2]
    · rename_i child heq2
      rw [heq2]

theorem deleteNode_cons_some {V} {root? : Bool} {n : Node V} {b : Nat}
    {bs : Key} {child : Node V} (h : getEdge n b = some child) :
    deleteNode root? n (b :: bs)
      = (if child.pfx.isPrefixOf (b :: bs) = true then
           let rest := (b :: bs).drop child.pfx.length
           let res := deleteNode false child rest
           match res.2 with
           | none => (n, none)
           | some old =>
             if rest.isEmpty then
               let child1 := res.1
               let es1 := if child1.children.isEmpty then delEdge n.children b
                          else updEdge n.children b
                            (if child1.children.length == 1 then mergeChild child1
                             else child1)
               let n1 : Node V := .mk n.leaf n.pfx es1
               (if !root? && n1.children.length == 1 && n1.leaf.isNone then
                  mergeChild n1
                else n1,
                some old)
             else
               (.mk n.leaf n.pfx (updEdge n.children b res.1), some old)
         else (n, none)) := by
  rw [deleteNode_cons, h]

/-! ## Claim C9: the "replacing missing edge" panic is unreachable -/

theorem insertPanics_eq_false {V} :
    ∀ (n : Node V) (search : Key), insertPanics n search = false := by
  intro n search
  induction n, search using insertPanics.induct with
  | case1 n => exact insertPanics_nil n
  | case2 n b bs h =>
    rw [insertPanics_cons, h]
  | case3 n b bs child h cp hcp ih =>
    rw [insertPanics_cons_some h, if_pos hcp]
    exact ih
  | case4 n b bs child h cp hcp =>
    rw [insertPanics_cons_some h, if_neg hcp]
    simp [h]

/-- Claim C9: the panic "replacing missing edge" in `updateEdge` is
unreachable through any sequence of valid public calls.  `insertPanics`
mirrors `Insert`'s descent and returns `true` exactly when the split
path's `updateEdge(search[0], child)` call would find no edge labelled
`search[0]` on the parent; this never happens, for any node (reachable
or not) and any key, because the split path is only entered after
`getEdge` has just returned that very edge. -/
theorem radix_c9_insert_never_panics (V : Type) (n : Node V) (search : Key) :
    insertPanics n search = false :=
  insertPanics_eq_false n search

theorem deleteNode_absent {V} :
    ∀ (root? : Bool) (n : Node V) (search : Key),
      getNode n search = none → deleteNode root? n search = (n, none) := by
  intro root? n search
  induction root?, n, search using deleteNode.induct with
  | case1 root? n hleaf =>
    intro hget
    rw [deleteNode_nil, hleaf]
  | case2 root? n k0 old hleaf =>
    intro hget
    rw [getNode_nil, hleaf] at hget
    cases hget
  | case3 root? n b bs h =>
    intro hget
    rw [deleteNode_cons, h]
  | case4 root? n b bs child h hpf rest res hres ih =>
    intro hget
    have hget2 : getNode child rest = none := by
      rw [getNode_cons_some h, if_pos hpf] at hget
      exact hget
    rw [deleteNode_cons_some h, if_pos hpf]
    simp only [ih hget2]
  | case5 root? n b bs child h old hpf rest res hres hempty ih =>
    intro hget
    have hget2 : getNode child rest = none := by
      rw [getNode_cons_some h, if_pos hpf] at hget
      exact hget
    have hres2 : (deleteNode false child rest).2 = some old := hres
    rw [ih hget2] at hres2
    cases hres2
  | case6 root? n b bs child h old hpf rest res hres hnempty ih =>
    intro hget
    have hget2 : getNode child rest = none := by
      rw [getNode_cons_some h, if_pos hpf] at hget
      exact hget
    have hres2 : (deleteNode false child rest).2 = some old := hres
    rw [ih hget2] at hres2
    cases hres2
  | case7 root? n b bs child h hnpf =>
    intro hget
    rw [deleteNode_cons_some h, if_neg hnpf]

/-- Claim C10: deleting a key that is not present returns not-found and
leaves the tree entirely unchanged (the very same root node and size, so
every subsequent query answers exactly as before).  This holds for every
tree, in particular every reachable one. -/
theorem radix_c10_delete_absent_id {V} (t : Tree V) (k : Key)
    (h : t.get k = none) : t.delete k = (t, none) := by
  unfold Tree.delete
  rw [deleteNode_absent true t.root k h]
  simp

/-- Witness for C10 at a concrete input: in the tree holding only the
key `[0]`, the key `[1]` is absent and deleting it is the identity. -/
theorem radix_c10_witness :
    (runOps [Op.ins [0] (1 : Nat)]).get [1] = none ∧
      (runOps [Op.ins [0] (1 : Nat)]).delete [1]
        = (runOps [Op.ins [0] (1 : Nat)], none) :=
  have h : (runOps [Op.ins [0] (1 : Nat)]).get [1] = none := by
    simp [runOps, applyOp, Tree.new, Tree.insert, Tree.get, insertNode,
      getNode, getEdge, findGE, addEdge, sortEdges, insSorted, Node.children,
      Node.leaf, Node.pfx, List.isPrefixOf, longestPfx]
  ⟨h, radix_c10_delete_absent_id (runOps [Op.ins [0] (1 : Nat)]) [1] h⟩

/-- Claim C1, failing input: starting from `New()`, run
`Insert("ab", 1)`, `Insert("ac", 2)`, `DeletePrefix("ab")` (bytes:
`a = 97`, `b = 98`, `c = 99`).  The key "ac" is still present (`Get`
finds it), yet `Minimum()` returns found = false: `deletePrefix` clears
the emptied node's leaf and edges but never removes the parent's edge to
it, and `Minimum`'s descent into that dangling empty node hits a node
with no leaf and no edges and gives up.  This refutes the claim that on
every reachable tree with at least one present key `Minimum()` returns
the smallest present key with found = true. -/
theorem radix_c1_minimum_not_found_on_reachable_tree :
    (runOps [Op.ins [97, 98] 1, Op.ins [97, 99] 2, Op.dp [97, 98]]
        : Tree Nat).get [97, 99] = some 2 ∧
      (runOps [Op.ins [97, 98] 1, Op.ins [97, 99] 2, Op.dp [97, 98]]
        : Tree Nat).minimum = none := by
  constructor <;>
    simp [runOps, applyOp, Tree.new, Tree.insert, Tree.deletePfx, Tree.get,
      Tree.minimum, insertNode, deletePfxNode, getNode, minimumNode, getEdge,
      findGE, addEdge, sortEdges, insSorted, updEdge, delEdge, mergeChild,
      toList, toListE, Node.children, Node.leaf, Node.pfx, List.isPrefixOf,
      longestPfx]

/-- Claim C2, failing input: starting from `New()`, run
`Insert("ab", 1)`, `Insert("ac", 2)`, then `DeletePrefix("ab")`.  The
removal itself behaves as claimed (count 1, "ab" gone, "ac" kept), but
structural invariant 2 does not hold afterwards: the node at path "a"
keeps an edge to the emptied node, its subtree holds exactly the key
"ac", and the root-to-node prefix concatenation "a" is not the longest
common prefix ("ac") of the keys in its subtree. -/
theorem radix_c2_inv2_broken_after_delete_pfx :
    ((runOps [Op.ins [97, 98] 1, Op.ins [97, 99] 2]
        : Tree Nat).deletePfx [97, 98]).2 = 1 ∧
      ((runOps [Op.ins [97, 98] 1, Op.ins [97, 99] 2]
        : Tree Nat).deletePfx [97, 98]).1.get [97, 98] = none ∧
      ((runOps [Op.ins [97, 98] 1, Op.ins [97, 99] 2]
        : Tree Nat).deletePfx [97, 98]).1.get [97, 99] = some 2 ∧
      inv2T ((runOps [Op.ins [97, 98] 1, Op.ins [97, 99] 2]
        : Tree Nat).deletePfx [97, 98]).1 = false := by
  refine ⟨?_, ?_, ?_, ?_⟩ <;>
    simp [runOps, applyOp, Tree.new, Tree.insert, Tree.deletePfx, Tree.get,
      insertNode, deletePfxNode, getNode, getEdge, findGE, addEdge, sortEdges,
      insSorted, updEdge, delEdge, mergeChild, toList, toListE, Node.children,
      Node.leaf, Node.pfx, List.isPrefixOf, longestPfx, inv2T, inv2N, inv2E,
      lcpList, lcp2]

/-- The tree reached by `Insert("a", 1)`, `Insert("b", 2)`,
`DeletePrefix("b")`: the dangling emptied node for "b" is still linked
from the root. -/
def c7t0 : Tree Nat :=
  ⟨.mk none [] [(97, .mk (some ([97], 1)) [97] []), (98, .mk none [98] [])], 1⟩

/-- The tree after re-inserting `"b" ↦ 5` into `c7t0`. -/
def c7t1 : Tree Nat :=
  ⟨.mk none [] [(97, .mk (some ([97], 1)) [97] []),
                (98, .mk (some ([98], 5)) [98] [])], 2⟩

theorem c7_t0_eq :
    (runOps [Op.ins [97] 1, Op.ins [98] 2, Op.dp [98]] : Tree Nat) = c7t0 := by
  simp [runOps, applyOp, Tree.new, Tree.insert, Tree.deletePfx, c7t0,
    insertNode, deletePfxNode, getNode, getEdge, findGE, addEdge, sortEdges,
    insSorted, updEdge, toList, toListE, Node.children, Node.leaf, Node.pfx,
    List.isPrefixOf, longestPfx]

theorem c7_get_t0 : c7t0.get [98] = none := by
  simp [c7t0, Tree.get, getNode, getEdge, findGE, Node.children, Node.leaf,
    Node.pfx, List.isPrefixOf]

theorem c7_max_t0 : c7t0.maximum = none := by
  simp [c7t0, Tree.maximum, maximumNode, Node.children, Node.leaf,
    List.getLast?]

theorem c7_ins_t0 : (c7t0.insert [98] 5).1 = c7t1 := by
  simp [c7t0, c7t1, Tree.insert, insertNode, getNode, getEdge, findGE,
    updEdge, Node.children, Node.leaf, Node.pfx, List.isPrefixOf, longestPfx]

theorem c7_del_t1_val : (c7t1.delete [98]).2 = some 5 := by
  simp [c7t1, Tree.delete, deleteNode, getNode, getEdge, findGE, updEdge,
    delEdge, mergeChild, Node.children, Node.leaf, Node.pfx, List.isPrefixOf]

theorem c7_del_t1_max : (c7t1.delete [98]).1.maximum = some ([97], 1) := by
  simp [c7t1, Tree.delete, Tree.maximum, deleteNode, maximumNode, getNode,
    getEdge, findGE, updEdge, delEdge, mergeChild, Node.children, Node.leaf,
    Node.pfx, List.isPrefixOf, List.getLast?]

/-- Claim C7, failing input: starting from `New()`, run `Insert("a", 1)`,
`Insert("b", 2)`, `DeletePrefix("b")`, reaching a tree `t` in which "b"
is absent.  `Insert("b", 5)` followed by `Delete("b")` does return
`(5, true)` from the delete as claimed, but the tree does not answer as
before: `Maximum()` on `t` returned found = false (the DeletePrefix
residue broke it), while after the insert/delete round trip it returns
`("a", 1, true)` — the delete's cleanup removed the dangling empty node
that DeletePrefix had left, changing an observable answer about the
previously-present key "a". -/
theorem radix_c7_round_trip_changes_answers :
    (runOps [Op.ins [97] 1, Op.ins [98] 2, Op.dp [98]]
        : Tree Nat).get [98] = none ∧
      (((runOps [Op.ins [97] 1, Op.ins [98] 2, Op.dp [98]]
        : Tree Nat).insert [98] 5).1.delete [98]).2 = some 5 ∧
      (runOps [Op.ins [97] 1, Op.ins [98] 2, Op.dp [98]]
        : Tree Nat).maximum = none ∧
      (((runOps [Op.ins [97] 1, Op.ins [98] 2, Op.dp [98]]
        : Tree Nat).insert [98] 5).1.delete [98]).1.maximum
        = some ([97], 1) := by
  rw [c7_t0_eq, c7_ins_t0]
  exact ⟨c7_get_t0, c7_del_t1_val, c7_max_t0, c7_del_t1_max⟩

/-! ## Unfolding equations and basic facts for insertNode -/

theorem insertNode_nil {V} (n : Node V) (s : Key) (v : V) :
    insertNode n s [] v
      = (match n.leaf with
         | some (k0, old) => (.mk (some (k0, v)) n.pfx n.children, some old)
         | none => (.mk (some (s, v)) n.pfx n.children, none)) := by
  rw [insertNode.eq_def]

theorem insertNode_cons {V} (n : Node V) (s : Key) (b : Nat) (bs : Key)
    (v : V) :
    insertNode n s (b :: bs) v
      = (match getEdge n b with
         | none =>
           (.mk n.leaf n.pfx (addEdge n.children (b, .mk (some (s, v)) (b :: bs) [])),
            none)
         | some child =>
           let cp := longestPfx (b :: bs) child.pfx
           if cp = child.pfx.length then
             let res := insertNode child s ((b :: bs).drop cp) v
             (.mk n.leaf n.pfx (updEdge n.children b res.1), res.2)
           else
             let c2 : Node V := .mk child.leaf (child.pfx.drop cp) child.children
             let es0 := addEdge [] (child.pfx.getD cp 0, c2)
             match (b :: bs).drop cp with
             | [] =>
               (.mk n.leaf n.pfx
                 (updEdge n.children b (.mk (some (s, v)) ((b :: bs).take cp) es0)),
                none)
             | b2 :: rest2 =>
               (.mk n.leaf n.pfx (updEdge n.children b
                 (.mk none ((b :: bs).take cp)
                   (addEdge es0 (b2, .mk (some (s, v)) (b2 :: rest2) [])))),
                none)) := by
  rw [insertNode.eq_def]
  split
  · rename_i heq
    simp at heq
  · rename_i b2 bs2 heq
    injection heq with h1 h2
    subst h1
    subst h2
    split
    · rename_i heq2
      rw [heq2]
    · rename_i child heq2
      rw [heq2]

theorem insertNode_cons_some {V} {n : Node V} {s : Key} {b : Nat} {bs : Key}
    {v : V} {child : Node V} (h : getEdge n b = some child) :
    insertNode n s (b :: bs) v
      = (let cp := longestPfx (b :: bs) child.pfx
         if cp = child.pfx.length then
           let res := insertNode child s ((b :: bs).drop cp) v
           (.mk n.leaf n.pfx (updEdge n.children b res.1), res.2)
         else
           let c2 : Node V := .mk child.leaf (child.pfx.drop cp) child.children
           let es0 := addEdge [] (child.pfx.getD cp 0, c2)
           match (b :: bs).drop cp with
           | [] =>
             (.mk n.leaf n.pfx
               (updEdge n.children b (.mk (some (s, v)) ((b :: bs).take cp) es0)),
              none)
           | b2 :: rest2 =>
             (.mk n.leaf n.pfx (updEdge n.children b
               (.mk none ((b :: bs).take cp)
                 (addEdge es0 (b2, .mk (some (s, v)) (b2 :: rest2) [])))),
              none)) := by
  rw [insertNode_cons, h]

theorem insertNode_cons_none {V} {n : Node V} {s : Key} {b : Nat} {bs : Key}
    {v : V} (h : getEdge n b = none) :
    insertNode n s (b :: bs) v
      = (.mk n.leaf n.pfx (addEdge n.children (b, .mk (some (s, v)) (b :: bs) [])),
         none) := by
  rw [insertNode_cons, h]

theorem isPrefixOf_false_of_longestPfx_ne {a b : Key}
    (h : longestPfx a b ≠ b.length) : b.isPrefixOf a = false := by
  by_contra hx
  rw [Bool.not_eq_false] at hx
  exact h (longestPfx_eq_length_iff.mpr (isPrefixOf_iff.mp hx))

/-- The previous value returned by insertNode is exactly what Get would
have returned before the insert. -/
theorem insertNode_res {V} :
    ∀ (n : Node V) (s search : Key) (v : V),
      (insertNode n s search v).2 = getNode n search := by
  intro n s search v
  induction n, s, search, v using insertNode.induct with
  | case1 n s v k0 old hleaf =>
    rw [insertNode_nil, hleaf, getNode_nil, hleaf]
    rfl
  | case2 n s v hleaf =>
    rw [insertNode_nil, hleaf, getNode_nil, hleaf]
    rfl
  | case3 n s v b bs h =>
    rw [insertNode_cons_none h, getNode_cons, h]
  | case4 n s v b bs child h cp hcp ih =>
    rw [insertNode_cons_some h, getNode_cons_some h]
    simp only [if_pos hcp]
    have hpf : child.pfx.isPrefixOf (b :: bs) = true := by
      rw [isPrefixOf_iff]
      exact prefix_of_longestPfx_eq_length hcp
    rw [if_pos hpf]
    have hlen : (b :: bs).drop cp = (b :: bs).drop child.pfx.length := by
      rw [hcp]
    rw [← hlen]
    exact ih
  | case5 n s v b bs child h cp hcp hdrop =>
    rw [insertNode_cons_some h, getNode_cons_some h]
    simp only [if_neg hcp, hdrop]
    rw [isPrefixOf_false_of_longestPfx_ne hcp]
    rfl
  | case6 n s v b bs child h b2 rest2 cp hcp hdrop =>
    rw [insertNode_cons_some h, getNode_cons_some h]
    simp only [if_neg hcp, hdrop]
    rw [isPrefixOf_false_of_longestPfx_ne hcp]
    rfl

/-- insertNode never changes the prefix of the node it is applied to. -/
theorem insertNode_pfx {V} :
    ∀ (n : Node V) (s search : Key) (v : V),
      (insertNode n s search v).1.pfx = n.pfx := by
  intro n s search v
  induction n, s, search, v using insertNode.induct with
  | case1 n s v k0 old hleaf =>
    rw [insertNode_nil, hleaf]
    rfl
  | case2 n s v hleaf =>
    rw [insertNode_nil, hleaf]
    rfl
  | case3 n s v b bs h =>
    rw [insertNode_cons_none h]
    rfl
  | case4 n s v b bs child h cp hcp ih =>
    rw [insertNode_cons_some h]
    simp only [if_pos hcp]
    rfl
  | case5 n s v b bs child h cp hcp hdrop =>
    rw [insertNode_cons_some h]
    simp only [if_neg hcp, hdrop]
    rfl
  | case6 n s v b bs child h b2 rest2 cp hcp hdrop =>
    rw [insertNode_cons_some h]
    simp only [if_neg hcp, hdrop]
    rfl

/-! ## Helpers for the split case -/

theorem key_ne_of_label_ne {path : Key} {a b : Nat} {k : Key} {bs : Key}
    (h : (path ++ [a]) <+: k) (hab : a ≠ b) : k ≠ path ++ b :: bs := by
  obtain ⟨t, ht⟩ := h
  rintro rfl
  rw [List.append_assoc] at ht
  have h2 := List.append_cancel_left ht
  simp only [List.singleton_append] at h2
  injection h2 with h3 h4
  exact hab h3

theorem longestPfx_cons_same (b : Nat) (x y : Key) :
    longestPfx (b :: x) (b :: y) = longestPfx x y + 1 := by
  simp [longestPfx]

theorem drop_head?_getD {l : Key} {i : Nat} (h : i < l.length) :
    (l.drop i).head? = some (l.getD i 0) := by
  rw [List.head?_drop, List.getD_eq_getElem?_getD]
  rw [List.getElem?_eq_getElem h]
  rfl

theorem getD_of_drop_eq_cons {l : Key} {i : Nat} {x : Nat} {t : Key}
    (h : l.drop i = x :: t) : l.getD i 0 = x := by
  have hlt : i < l.length := by
    by_contra hle
    rw [Nat.not_lt] at hle
    rw [List.drop_eq_nil_iff.mpr hle] at h
    cases h
  have := drop_head?_getD hlt
  rw [h] at this
  simpa using this.symm

theorem take_cons_head? {b : Nat} {bs : Key} {cp : Nat} (h : cp ≠ 0) :
    ((b :: bs).take cp).head? = some b := by
  cases cp with
  | zero => exact absurd rfl h
  | succ m => rfl

theorem fresh_of_getEdge_none {V} {lf : Option (Key × V)} {p : Key}
    {es : List (Nat × Node V)} {b : Nat} (hs : sortedLabels es = true)
    (h : getEdge (.mk lf p es) b = none) : ∀ g ∈ es, g.1 ≠ b := by
  intro g hg hgb
  apply getEdge_none_not_mem hs h g.2
  cases g with
  | mk l c =>
    simp only at hgb
    subst hgb
    exact hg


theorem addEdge_nil {V} (e : Nat × Node V) : addEdge [] e = [e] := rfl

set_option maxHeartbeats 1000000 in
theorem insertNode_master {V} :
    ∀ (n : Node V) (s search : Key) (v : V),
      ∀ (path : Key), wfN path n = true → s = path ++ search →
      wfN path (insertNode n s search v).1 = true ∧
      (∀ kv : Key × V, kv ∈ toList (insertNode n s search v).1
          ↔ (kv = (s, v) ∨ (kv ∈ toList n ∧ kv.1 ≠ s))) ∧
      (toList (insertNode n s search v).1).length
        = (toList n).length + (if (getNode n search).isSome = true then 0 else 1) := by
  intro n s search v
  induction n, s, search, v using insertNode.induct with
  | case1 n s v k0 old hleaf =>
    intro path hwf hseq
    obtain ⟨lf, p, es⟩ := n
    simp only [Node.leaf] at hleaf
    subst hleaf
    rw [List.append_nil] at hseq
    subst hseq
    have hres : insertNode (Node.mk (some (k0, old)) p es) s [] v
        = (Node.mk (some (k0, v)) p es, some old) := by
      rw [insertNode_nil]
      rfl
    rw [hres]
    rw [wfN_iff] at hwf
    have hk0 : k0 = s := hwf.1 k0 old rfl
    subst hk0
    refine ⟨?_, ?_, ?_⟩
    · rw [wfN_iff]
      refine ⟨?_, hwf.2.1, hwf.2.2⟩
      intro k v' hkv
      injection hkv with h1
      injection h1 with h2 h3
      exact h2.symm
    · intro kv
      rw [toList_mk, toList_mk]
      simp only [Option.toList_some, List.singleton_append, List.mem_cons]
      constructor
      · rintro (rfl | hkv)
        · exact Or.inl rfl
        · refine Or.inr ⟨Or.inr hkv, ?_⟩
          obtain ⟨e, he, hext⟩ := toListE_key hwf.2.2 kv hkv
          exact ne_of_extends hext
      · rintro (rfl | ⟨hin, hne⟩)
        · exact Or.inl rfl
        · rcases hin with heq | hkv2
          · exfalso
            apply hne
            rw [heq]
          · exact Or.inr hkv2
    · rw [toList_mk, toList_mk, getNode_nil]
      simp [Node.leaf]
  | case2 n s v hleaf =>
    intro path hwf hseq
    obtain ⟨lf, p, es⟩ := n
    simp only [Node.leaf] at hleaf
    subst hleaf
    rw [List.append_nil] at hseq
    subst hseq
    have hres : insertNode (Node.mk none p es) s [] v
        = (Node.mk (some (s, v)) p es, none) := by
      rw [insertNode_nil]
      rfl
    rw [hres]
    rw [wfN_iff] at hwf
    refine ⟨?_, ?_, ?_⟩
    · rw [wfN_iff]
      refine ⟨?_, hwf.2.1, hwf.2.2⟩
      intro k v' hkv
      injection hkv with h1
      injection h1 with h2 h3
      exact h2.symm
    · intro kv
      rw [toList_mk, toList_mk]
      simp only [Option.toList_some, Option.toList_none, List.nil_append,
        List.singleton_append, List.mem_cons]
      constructor
      · rintro (rfl | hkv)
        · exact Or.inl rfl
        · refine Or.inr ⟨hkv, ?_⟩
          obtain ⟨e, he, hext⟩ := toListE_key hwf.2.2 kv hkv
          exact ne_of_extends hext
      · rintro (rfl | ⟨hin, hne⟩)
        · exact Or.inl rfl
        · exact Or.inr hin
    · rw [toList_mk, toList_mk, getNode_nil]
      simp [Node.leaf]
  | case3 n s v b bs h =>
    intro path hwf hseq
    obtain ⟨lf, p, es⟩ := n
    rw [insertNode_cons_none h]
    rw [wfN_iff] at hwf
    simp only [Node.leaf, Node.pfx, Node.children] at *
    have hfresh : ∀ g ∈ es, g.1 ≠ b := fresh_of_getEdge_none hwf.2.1 h
    have hadd : addEdge es (b, Node.mk (some (s, v)) (b :: bs) [])
        = insSorted (b, Node.mk (some (s, v)) (b :: bs) []) es :=
      addEdge_eq_insSorted hwf.2.1 hfresh
    have hperm := toListE_insSorted_perm (b, Node.mk (some (s, v)) (b :: bs) []) es
    have hnewlf : toList (Node.mk (some (s, v)) (b :: bs) ([] : List (Nat × Node V)))
        = [(s, v)] := by
      rw [toList_mk]
      rfl
    refine ⟨?_, ?_, ?_⟩
    · rw [wfN_iff, hadd]
      refine ⟨hwf.1, ?_, ?_⟩
      · exact insSorted_sorted hwf.2.1 hfresh
      · rw [wfE_iff]
        intro e he
        rcases mem_insSorted.mp he with rfl | hees
        · constructor
          · rfl
          · rw [wfN_iff]
            refine ⟨?_, rfl, rfl⟩
            intro k v' hkv
            injection hkv with h1
            injection h1 with h2 h3
            rw [← h2, hseq]
            rfl
        · exact (wfE_iff.mp hwf.2.2) e hees
    · intro kv
      rw [toList_mk, toList_mk, hadd]
      simp only [List.mem_append, hperm.mem_iff, hnewlf, List.mem_singleton]
      constructor
      · rintro (hlf | (rfl | hkv))
        · refine Or.inr ⟨Or.inl hlf, ?_⟩
          cases lf with
          | none => simp at hlf
          | some l =>
            simp only [Option.toList_some, List.mem_singleton] at hlf
            subst hlf
            have : kv.1 = path := hwf.1 kv.1 kv.2 (by cases kv; rfl)
            rw [this, hseq]
            intro hx
            have hpre : (path ++ [b]) <+: (path ++ b :: bs) := ⟨bs, by simp⟩
            exact ne_of_extends hpre hx.symm
        · exact Or.inl rfl
        · refine Or.inr ⟨Or.inr hkv, ?_⟩
          obtain ⟨e, he, hext⟩ := toListE_key hwf.2.2 kv hkv
          rw [hseq]
          exact key_ne_of_label_ne hext (hfresh e he)
      · rintro (rfl | ⟨hin, hne⟩)
        · exact Or.inr (Or.inl rfl)
        · rcases hin with hlf | hkv
          · exact Or.inl hlf
          · exact Or.inr (Or.inr hkv)
    · rw [toList_mk, toList_mk, hadd, getNode_cons, h]
      rw [List.length_append, List.length_append, hperm.length_eq,
        List.length_append, hnewlf]
      simp
      omega
  | case4 n s v b bs child h cp hcp ih =>
    intro path hwf hseq
    obtain ⟨lf, p, es⟩ := n
    rw [insertNode_cons_some h]
    simp only [if_pos hcp]
    rw [show longestPfx (b :: bs) child.pfx = cp from rfl]
    rw [wfN_iff] at hwf
    simp only [Node.leaf, Node.pfx, Node.children] at *
    have hchild : (b, child) ∈ es := getEdge_some_mem h
    have hwfc := (wfE_iff.mp hwf.2.2) (b, child) hchild
    have hpfx : child.pfx <+: (b :: bs) := by
      exact prefix_of_longestPfx_eq_length hcp
    obtain ⟨t, ht⟩ := hpfx
    have hdropt : (b :: bs).drop cp = t := by
      rw [← ht, hcp]
      exact List.drop_left _ _
    have hs2 : s = (path ++ child.pfx) ++ t := by
      rw [hseq, ← ht, List.append_assoc]
    have hs3 : s = (path ++ child.pfx) ++ (b :: bs).drop cp := by
      rw [hdropt]
      exact hs2
    have ihx := ih (path ++ child.pfx) hwfc.2 hs3
    obtain ⟨es₁, es₂, heq, hlt, hgt⟩ := mem_decomp_sorted hwf.2.1 hchild
    have hupd : updEdge es b (insertNode child s ((b :: bs).drop cp) v).1
        = es₁ ++ (b, (insertNode child s ((b :: bs).drop cp) v).1) :: es₂ := by
      rw [heq]
      exact updEdge_decomp hlt
    have hpfx2 : (insertNode child s ((b :: bs).drop cp) v).1.pfx = child.pfx :=
      insertNode_pfx child s _ v
    have hcp2 : cp = child.pfx.length := hcp
    have hget : getNode (Node.mk lf p es) (b :: bs)
        = getNode child ((b :: bs).drop cp) := by
      rw [getNode_cons_some h]
      have hpf : child.pfx.isPrefixOf (b :: bs) = true := by
        rw [isPrefixOf_iff]
        exact ⟨t, ht⟩
      rw [if_pos hpf, ← hcp2]
    -- membership in the two side blocks excludes the key s
    have hside : ∀ kv : Key × V, kv ∈ toListE es₁ ∨ kv ∈ toListE es₂ → kv.1 ≠ s := by
      intro kv hkv
      have hsub : ∀ e, (e ∈ es₁ ∨ e ∈ es₂) → e ∈ es := by
        intro e he
        rw [heq]
        rcases he with h1 | h2
        · exact List.mem_append_left _ h1
        · exact List.mem_append_right _ (List.mem_cons_of_mem _ h2)
      have hwfE1 : wfE path es₁ = true := by
        rw [wfE_iff]
        intro e he
        exact (wfE_iff.mp hwf.2.2) e (hsub e (Or.inl he))
      have hwfE2 : wfE path es₂ = true := by
        rw [wfE_iff]
        intro e he
        exact (wfE_iff.mp hwf.2.2) e (hsub e (Or.inr he))
      rcases hkv with hkv | hkv
      · obtain ⟨e, he, hext⟩ := toListE_key hwfE1 kv hkv
        rw [hseq]
        exact key_ne_of_label_ne hext (by have := hlt e he; omega)
      · obtain ⟨e, he, hext⟩ := toListE_key hwfE2 kv hkv
        rw [hseq]
        exact key_ne_of_label_ne hext (by have := hgt e he; omega)
    have hlf_ne : ∀ kv : Key × V, kv ∈ lf.toList → kv.1 ≠ s := by
      intro kv hkv
      cases lf with
      | none => simp at hkv
      | some l =>
        simp only [Option.toList_some, List.mem_singleton] at hkv
        subst hkv
        have hk : kv.1 = path := hwf.1 kv.1 kv.2 (by cases kv; rfl)
        rw [hk, hseq]
        intro hx
        have hpre : (path ++ [b]) <+: (path ++ b :: bs) := ⟨bs, by simp⟩
        exact ne_of_extends hpre hx.symm
    refine ⟨?_, ?_, ?_⟩
    · rw [wfN_iff]
      refine ⟨hwf.1, ?_, ?_⟩
      · apply sortedLabels_of_map_eq (updEdge_map_fst es b _).symm hwf.2.1
      · rw [wfE_iff]
        intro e he
        rw [hupd] at he
        rcases List.mem_append.mp he with he1 | he2
        · exact (wfE_iff.mp hwf.2.2) e (by rw [heq]; exact List.mem_append_left _ he1)
        · rcases List.mem_cons.mp he2 with rfl | he3
          · constructor
            · simp only [hpfx2]
              exact hwfc.1
            · simp only [hpfx2]
              exact ihx.1
          · exact (wfE_iff.mp hwf.2.2) e
              (by rw [heq]
                  exact List.mem_append_right _ (List.mem_cons_of_mem _ he3))
    · intro kv
      rw [toList_mk, toList_mk, hupd, heq]
      rw [toListE_append, toListE_cons, toListE_append, toListE_cons]
      simp only [List.mem_append]
      constructor
      · rintro (hlf | h1 | hmid | h2)
        · refine Or.inr ⟨Or.inl hlf, hlf_ne kv hlf⟩
        · refine Or.inr ⟨Or.inr (Or.inl h1), hside kv (Or.inl h1)⟩
        · rcases (ihx.2.1 kv).mp hmid with rfl | ⟨hin, hne⟩
          · exact Or.inl rfl
          · exact Or.inr ⟨Or.inr (Or.inr (Or.inl hin)), hne⟩
        · refine Or.inr ⟨Or.inr (Or.inr (Or.inr h2)), hside kv (Or.inr h2)⟩
      · rintro (rfl | ⟨hin, hne⟩)
        · refine Or.inr (Or.inr (Or.inl ?_))
          exact ((ihx.2.1 _).mpr (Or.inl rfl))
        · rcases hin with hlf | h1 | hmid | h2
          · exact Or.inl hlf
          · exact Or.inr (Or.inl h1)
          · refine Or.inr (Or.inr (Or.inl ?_))
            exact (ihx.2.1 kv).mpr (Or.inr ⟨hmid, hne⟩)
          · exact Or.inr (Or.inr (Or.inr h2))
    · rw [hget]
      rw [toList_mk, toList_mk, hupd, heq]
      rw [toListE_append, toListE_cons, toListE_append, toListE_cons]
      simp only [List.length_append]
      have := ihx.2.2
      omega
  | case5 n s v b bs child h cp hcp hdrop =>
    intro path hwf hseq
    obtain ⟨lf, p, es⟩ := n
    obtain ⟨clf, cpfx, ces⟩ := child
    have hcp2 : cp ≠ cpfx.length := hcp
    rw [insertNode_cons_some h]
    simp only [Node.leaf, Node.pfx, Node.children]
    rw [show longestPfx (b :: bs) cpfx = cp from rfl]
    rw [if_neg hcp2]
    simp only [hdrop]
    rw [wfN_iff] at hwf
    have hchild : (b, Node.mk clf cpfx ces) ∈ es := getEdge_some_mem h
    have hwfc := (wfE_iff.mp hwf.2.2) (b, Node.mk clf cpfx ces) hchild
    simp only [Node.leaf, Node.pfx, Node.children] at hwfc
    have hcple : cp ≤ cpfx.length := longestPfx_le_right (b :: bs) cpfx
    have hcplt : cp < cpfx.length := by omega
    have hlen1 : (b :: bs).length ≤ cp := List.drop_eq_nil_iff.mp hdrop
    have htake : (b :: bs).take cp = b :: bs := List.take_of_length_le hlen1
    have htake2 : (b :: bs).take cp = cpfx.take cp :=
      longestPfx_take_eq (b :: bs) cpfx
    obtain ⟨es₁, es₂, heq, hlt, hgt⟩ := mem_decomp_sorted hwf.2.1 hchild
    have hupd : ∀ c : Node V, updEdge es b c = es₁ ++ (b, c) :: es₂ := by
      intro c
      rw [heq]
      exact updEdge_decomp hlt
    simp only [addEdge_nil]
    rw [hupd]
    have hc2list : toList (Node.mk clf (cpfx.drop cp) ces)
        = toList (Node.mk clf cpfx ces) := by
      rw [toList_mk, toList_mk]
    have hpath2 : path ++ (b :: bs) ++ cpfx.drop cp = path ++ cpfx := by
      rw [List.append_assoc]
      rw [show (b :: bs) ++ cpfx.drop cp = cpfx from ?_]
      rw [← htake, htake2]
      exact List.take_append_drop cp cpfx
    have hc2wf : wfN (path ++ (b :: bs) ++ cpfx.drop cp)
        (Node.mk clf (cpfx.drop cp) ces) = true := by
      rw [hpath2, wfN_pfx_irrel]
      exact hwfc.2
    have hchild_ne : ∀ kv : Key × V, kv ∈ toList (Node.mk clf cpfx ces) →
        kv.1 ≠ s := by
      intro kv hkv heqs
      have hpre := toList_key (Node.mk clf cpfx ces) hwfc.2 kv hkv
      rw [heqs, hseq] at hpre
      have := (List.prefix_append_right_inj path).mp hpre
      exact hcp2 (longestPfx_eq_length_iff.mpr this)
    have hside : ∀ kv : Key × V, kv ∈ toListE es₁ ∨ kv ∈ toListE es₂ → kv.1 ≠ s := by
      intro kv hkv
      have hsub : ∀ e, (e ∈ es₁ ∨ e ∈ es₂) → e ∈ es := by
        intro e he
        rw [heq]
        rcases he with h1 | h2
        · exact List.mem_append_left _ h1
        · exact List.mem_append_right _ (List.mem_cons_of_mem _ h2)
      have hwfE1 : wfE path es₁ = true := by
        rw [wfE_iff]
        intro e he
        exact (wfE_iff.mp hwf.2.2) e (hsub e (Or.inl he))
      have hwfE2 : wfE path es₂ = true := by
        rw [wfE_iff]
        intro e he
        exact (wfE_iff.mp hwf.2.2) e (hsub e (Or.inr he))
      rcases hkv with hkv | hkv
      · obtain ⟨e, he, hext⟩ := toListE_key hwfE1 kv hkv
        rw [hseq]
        exact key_ne_of_label_ne hext (by have := hlt e he; omega)
      · obtain ⟨e, he, hext⟩ := toListE_key hwfE2 kv hkv
        rw [hseq]
        exact key_ne_of_label_ne hext (by have := hgt e he; omega)
    have hlf_ne : ∀ kv : Key × V, kv ∈ lf.toList → kv.1 ≠ s := by
      intro kv hkv
      cases lf with
      | none => simp at hkv
      | some l =>
        simp only [Option.toList_some, List.mem_singleton] at hkv
        subst hkv
        have hk : kv.1 = path := hwf.1 kv.1 kv.2 (by cases kv; rfl)
        rw [hk, hseq]
        intro hx
        have hpre : (path ++ [b]) <+: (path ++ b :: bs) := ⟨bs, by simp⟩
        exact ne_of_extends hpre hx.symm
    refine ⟨?_, ?_, ?_⟩
    · rw [wfN_iff]
      refine ⟨hwf.1, ?_, ?_⟩
      · have hs2 : sortedLabels (es₁ ++ (b, Node.mk clf cpfx ces) :: es₂) = true := by
          rw [← heq]
          exact hwf.2.1
        refine sortedLabels_of_map_eq ?_ hs2
        simp
      · rw [wfE_iff]
        intro e he
        rcases List.mem_append.mp he with he1 | he2
        · exact (wfE_iff.mp hwf.2.2) e (by rw [heq]; exact List.mem_append_left _ he1)
        · rcases List.mem_cons.mp he2 with rfl | he3
          · constructor
            · simp only [Node.pfx, htake]
              rfl
            · simp only [Node.pfx, Node.leaf, Node.children, htake]
              rw [wfN_iff]
              refine ⟨?_, rfl, ?_⟩
              · intro k v' hkv
                injection hkv with h1
                injection h1 with h2 h3
                rw [← h2, hseq]
              · rw [wfE_iff]
                intro e2 he2x
                simp only [List.mem_singleton] at he2x
                subst he2x
                exact ⟨drop_head?_getD hcplt, hc2wf⟩
          · exact (wfE_iff.mp hwf.2.2) e
              (by rw [heq]
                  exact List.mem_append_right _ (List.mem_cons_of_mem _ he3))
    · intro kv
      rw [toList_mk, toList_mk, heq]
      rw [toListE_append, toListE_cons, toListE_append, toListE_cons]
      rw [toList_mk]
      simp only [Option.toList_some, List.singleton_append, toListE_cons,
        toListE, List.append_nil, hc2list]
      simp only [List.mem_append, List.mem_cons]
      constructor
      · rintro (hlf | h1 | (rfl | hmid) | h2)
        · exact Or.inr ⟨Or.inl hlf, hlf_ne kv hlf⟩
        · exact Or.inr ⟨Or.inr (Or.inl h1), hside kv (Or.inl h1)⟩
        · exact Or.inl rfl
        · exact Or.inr ⟨Or.inr (Or.inr (Or.inl hmid)), hchild_ne kv hmid⟩
        · exact Or.inr ⟨Or.inr (Or.inr (Or.inr h2)), hside kv (Or.inr h2)⟩
      · rintro (rfl | ⟨hin, hne⟩)
        · exact Or.inr (Or.inr (Or.inl (Or.inl rfl)))
        · rcases hin with hlf | h1 | hmid | h2
          · exact Or.inl hlf
          · exact Or.inr (Or.inl h1)
          · exact Or.inr (Or.inr (Or.inl (Or.inr hmid)))
          · exact Or.inr (Or.inr (Or.inr h2))
    · have hget : getNode (Node.mk lf p es) (b :: bs) = none := by
        rw [getNode_cons_some h]
        rw [isPrefixOf_false_of_longestPfx_ne
          (show longestPfx (b :: bs) (Node.mk clf cpfx ces).pfx
              ≠ (Node.mk clf cpfx ces).pfx.length from hcp2)]
        rfl
      rw [hget]
      rw [toList_mk, toList_mk, heq]
      rw [toListE_append, toListE_cons, toListE_append, toListE_cons]
      rw [toList_mk]
      simp only [Option.toList_some, List.singleton_append, toListE_cons,
        toListE, List.append_nil, hc2list, Option.isSome_none]
      simp only [List.length_append, List.length_cons]
      simp
      omega
  | case6 n s v b bs child h b2 rest2 cp hcp hdrop =>
    intro path hwf hseq
    obtain ⟨lf, p, es⟩ := n
    obtain ⟨clf, cpfx, ces⟩ := child
    have hcp2 : cp ≠ cpfx.length := hcp
    rw [insertNode_cons_some h]
    simp only [Node.leaf, Node.pfx, Node.children]
    rw [show longestPfx (b :: bs) cpfx = cp from rfl]
    rw [if_neg hcp2]
    simp only [hdrop]
    rw [wfN_iff] at hwf
    have hchild : (b, Node.mk clf cpfx ces) ∈ es := getEdge_some_mem h
    have hwfc := (wfE_iff.mp hwf.2.2) (b, Node.mk clf cpfx ces) hchild
    simp only [Node.leaf, Node.pfx, Node.children] at hwfc
    have hcple : cp ≤ cpfx.length := longestPfx_le_right (b :: bs) cpfx
    have hcplt : cp < cpfx.length := by omega
    have hcplt2 : cp < (b :: bs).length := by
      by_contra hx
      rw [Nat.not_lt] at hx
      rw [List.drop_eq_nil_iff.mpr hx] at hdrop
      cases hdrop
    have hb2 : (b :: bs).getD cp 0 = b2 := getD_of_drop_eq_cons hdrop
    have hlabne : cpfx.getD cp 0 ≠ b2 := by
      have hne : (b :: bs).getD (longestPfx (b :: bs) cpfx) 0
          ≠ cpfx.getD (longestPfx (b :: bs) cpfx) 0 :=
        longestPfx_getD_ne hcplt2 hcplt
      rw [show longestPfx (b :: bs) cpfx = cp from rfl] at hne
      rw [hb2] at hne
      exact (Ne.symm hne)
    have htake2 : (b :: bs).take cp = cpfx.take cp :=
      longestPfx_take_eq (b :: bs) cpfx
    have hcpne0 : cp ≠ 0 := by
      obtain ⟨hh, _⟩ := hwfc
      cases cpfx with
      | nil => cases hh
      | cons x xs =>
        simp only [List.head?_cons, Option.some.injEq] at hh
        subst hh
        have : cp = longestPfx bs xs + 1 := longestPfx_cons_same x bs xs
        omega
    have hheadtake : ((b :: bs).take cp).head? = some b := take_cons_head? hcpne0
    obtain ⟨es₁, es₂, heq, hlt, hgt⟩ := mem_decomp_sorted hwf.2.1 hchild
    have hupd : ∀ c : Node V, updEdge es b c = es₁ ++ (b, c) :: es₂ := by
      intro c
      rw [heq]
      exact updEdge_decomp hlt
    simp only [addEdge_nil]
    have haddE : addEdge [(cpfx.getD cp 0, Node.mk clf (cpfx.drop cp) ces)]
        (b2, Node.mk (some (s, v)) (b2 :: rest2) [])
        = insSorted (b2, Node.mk (some (s, v)) (b2 :: rest2) [])
            [(cpfx.getD cp 0, Node.mk clf (cpfx.drop cp) ces)] := by
      apply addEdge_eq_insSorted
      · rfl
      · intro g hg
        simp only [List.mem_singleton] at hg
        subst hg
        exact hlabne
    rw [haddE, hupd]
    have hc2list : toList (Node.mk clf (cpfx.drop cp) ces)
        = toList (Node.mk clf cpfx ces) := by
      rw [toList_mk, toList_mk]
    have hpath2 : path ++ (b :: bs).take cp ++ cpfx.drop cp = path ++ cpfx := by
      rw [List.append_assoc, htake2]
      rw [List.take_append_drop]
    have hpath3 : path ++ (b :: bs).take cp ++ (b2 :: rest2) = path ++ (b :: bs) := by
      rw [List.append_assoc, ← hdrop]
      rw [List.take_append_drop]
    have hc2wf : wfN (path ++ (b :: bs).take cp ++ cpfx.drop cp)
        (Node.mk clf (cpfx.drop cp) ces) = true := by
      rw [hpath2, wfN_pfx_irrel]
      exact hwfc.2
    have hperm : (toListE (insSorted
          (b2, Node.mk (some (s, v)) (b2 :: rest2) ([] : List (Nat × Node V)))
          [(cpfx.getD cp 0, Node.mk clf (cpfx.drop cp) ces)])).Perm
        (toList (Node.mk (some (s, v)) (b2 :: rest2) ([] : List (Nat × Node V)))
          ++ toListE [(cpfx.getD cp 0, Node.mk clf (cpfx.drop cp) ces)]) :=
      toListE_insSorted_perm _ _
    have hchild_ne : ∀ kv : Key × V, kv ∈ toList (Node.mk clf cpfx ces) →
        kv.1 ≠ s := by
      intro kv hkv heqs
      have hpre := toList_key (Node.mk clf cpfx ces) hwfc.2 kv hkv
      rw [heqs, hseq] at hpre
      have := (List.prefix_append_right_inj path).mp hpre
      exact hcp2 (longestPfx_eq_length_iff.mpr this)
    have hside : ∀ kv : Key × V, kv ∈ toListE es₁ ∨ kv ∈ toListE es₂ → kv.1 ≠ s := by
      intro kv hkv
      have hsub : ∀ e, (e ∈ es₁ ∨ e ∈ es₂) → e ∈ es := by
        intro e he
        rw [heq]
        rcases he with h1 | h2
        · exact List.mem_append_left _ h1
        · exact List.mem_append_right _ (List.mem_cons_of_mem _ h2)
      have hwfE1 : wfE path es₁ = true := by
        rw [wfE_iff]
        intro e he
        exact (wfE_iff.mp hwf.2.2) e (hsub e (Or.inl he))
      have hwfE2 : wfE path es₂ = true := by
        rw [wfE_iff]
        intro e he
        exact (wfE_iff.mp hwf.2.2) e (hsub e (Or.inr he))
      rcases hkv with hkv | hkv
      · obtain ⟨e, he, hext⟩ := toListE_key hwfE1 kv hkv
        rw [hseq]
        exact key_ne_of_label_ne hext (by have := hlt e he; omega)
      · obtain ⟨e, he, hext⟩ := toListE_key hwfE2 kv hkv
        rw [hseq]
        exact key_ne_of_label_ne hext (by have := hgt e he; omega)
    have hlf_ne : ∀ kv : Key × V, kv ∈ lf.toList → kv.1 ≠ s := by
      intro kv hkv
      cases lf with
      | none => simp at hkv
      | some l =>
        simp only [Option.toList_some, List.mem_singleton] at hkv
        subst hkv
        have hk : kv.1 = path := hwf.1 kv.1 kv.2 (by cases kv; rfl)
        rw [hk, hseq]
        intro hx
        have hpre : (path ++ [b]) <+: (path ++ b :: bs) := ⟨bs, by simp⟩
        exact ne_of_extends hpre hx.symm
    refine ⟨?_, ?_, ?_⟩
    · rw [wfN_iff]
      refine ⟨hwf.1, ?_, ?_⟩
      · have hs2 : sortedLabels (es₁ ++ (b, Node.mk clf cpfx ces) :: es₂) = true := by
          rw [← heq]
          exact hwf.2.1
        refine sortedLabels_of_map_eq ?_ hs2
        simp
      · rw [wfE_iff]
        intro e he
        rcases List.mem_append.mp he with he1 | he2
        · exact (wfE_iff.mp hwf.2.2) e (by rw [heq]; exact List.mem_append_left _ he1)
        · rcases List.mem_cons.mp he2 with rfl | he3
          · constructor
            · simp only [Node.pfx]
              exact hheadtake
            · simp only [Node.pfx, Node.leaf, Node.children]
              rw [wfN_iff]
              refine ⟨?_, ?_, ?_⟩
              · intro k v' hkv
                cases hkv
              · apply insSorted_sorted
                · rfl
                · intro g hg
                  simp only [List.mem_singleton] at hg
                  subst hg
                  exact hlabne
              · rw [wfE_iff]
                intro e2 he2x
                rcases mem_insSorted.mp he2x with rfl | he2y
                · refine ⟨rfl, ?_⟩
                  simp only [Node.pfx, Node.leaf, Node.children]
                  rw [wfN_iff]
                  refine ⟨?_, rfl, rfl⟩
                  intro k v' hkv
                  injection hkv with h1
                  injection h1 with h2 h3
                  rw [← h2, hseq, ← hpath3]
                · simp only [List.mem_singleton] at he2y
                  subst he2y
                  refine ⟨?_, ?_⟩
                  · simp only [Node.pfx]
                    exact drop_head?_getD hcplt
                  · simp only [Node.pfx]
                    exact hc2wf
          · exact (wfE_iff.mp hwf.2.2) e
              (by rw [heq]
                  exact List.mem_append_right _ (List.mem_cons_of_mem _ he3))
    · intro kv
      rw [toList_mk, toList_mk, heq]
      rw [toListE_append, toListE_cons, toListE_append, toListE_cons]
      rw [toList_mk]
      have hnewlist : toList (Node.mk (some (s, v)) (b2 :: rest2)
          ([] : List (Nat × Node V))) = [(s, v)] := by
        rw [toList_mk]
        rfl
      simp only [Option.toList_none, List.nil_append, List.mem_append,
        hperm.mem_iff, hnewlist, toListE_cons, toListE, List.append_nil,
        hc2list, List.mem_singleton]
      constructor
      · rintro (hlf | h1 | (rfl | hmid) | h2)
        · exact Or.inr ⟨Or.inl hlf, hlf_ne kv hlf⟩
        · exact Or.inr ⟨Or.inr (Or.inl h1), hside kv (Or.inl h1)⟩
        · exact Or.inl rfl
        · exact Or.inr ⟨Or.inr (Or.inr (Or.inl hmid)), hchild_ne kv hmid⟩
        · exact Or.inr ⟨Or.inr (Or.inr (Or.inr h2)), hside kv (Or.inr h2)⟩
      · rintro (rfl | ⟨hin, hne⟩)
        · exact Or.inr (Or.inr (Or.inl (Or.inl rfl)))
        · rcases hin with hlf | h1 | hmid | h2
          · exact Or.inl hlf
          · exact Or.inr (Or.inl h1)
          · exact Or.inr (Or.inr (Or.inl (Or.inr hmid)))
          · exact Or.inr (Or.inr (Or.inr h2))
    · have hget : getNode (Node.mk lf p es) (b :: bs) = none := by
        rw [getNode_cons_some h]
        rw [isPrefixOf_false_of_longestPfx_ne
          (show longestPfx (b :: bs) (Node.mk clf cpfx ces).pfx
              ≠ (Node.mk clf cpfx ces).pfx.length from hcp2)]
        rfl
      rw [hget]
      rw [toList_mk, toList_mk, heq]
      rw [toListE_append, toListE_cons, toListE_append, toListE_cons]
      rw [toList_mk]
      simp only [Option.toList_none, List.nil_append, List.length_append]
      rw [hperm.length_eq]
      rw [show toList (Node.mk (some (s, v)) (b2 :: rest2)
          ([] : List (Nat × Node V))) = [(s, v)] from rfl]
      simp only [toListE_cons, toListE, List.append_nil, hc2list,
        List.length_append, List.length_singleton, Option.isSome_none]
      simp
      omega


/-! ## Helpers for Delete: merge lemmas and failure-frame facts -/

theorem head?_append_some {a y : Key} {x : Nat} (h : a.head? = some x) :
    (a ++ y).head? = some x := by
  cases a with
  | nil => cases h
  | cons b bs =>
    simp only [List.head?_cons, Option.some.injEq] at h
    simp [h]

theorem head?_of_pfx {a b : Key} {x : Nat} (h1 : a.head? = some x)
    (h2 : a <+: b) : b.head? = some x := by
  obtain ⟨t, rfl⟩ := h2
  exact head?_append_some h1

theorem mergeChild_cons {V} (lf : Option (Key × V)) (p : Key) (l : Nat)
    (c : Node V) (rest : List (Nat × Node V)) :
    mergeChild (.mk lf p ((l, c) :: rest)) = .mk c.leaf (p ++ c.pfx) c.children := by
  rfl

theorem length_eq_one_destruct {V} {es : List (Nat × Node V)}
    (h : es.length = 1) : ∃ l c, es = [(l, c)] := by
  cases es with
  | nil => cases h
  | cons e rest =>
    cases rest with
    | nil =>
      cases e with
      | mk l c => exact ⟨l, c, rfl⟩
    | cons f rest2 => simp at h

theorem sortedLabels_remove {V} {es₁ es₂ : List (Nat × Node V)}
    {e : Nat × Node V} (h : sortedLabels (es₁ ++ e :: es₂) = true) :
    sortedLabels (es₁ ++ es₂) = true := by
  rw [sortedLabels_iff] at h ⊢
  exact h.sublist (List.Sublist.append_left (List.sublist_cons_self e es₂) es₁)

theorem not_mem_key_of_getNode_none {V} {n : Node V} {path search : Key}
    (hwf : wfN path n = true) (hget : getNode n search = none) :
    ∀ kv : Key × V, kv ∈ toList n → kv.1 ≠ path ++ search := by
  intro kv hkv heq
  have hm : (path ++ search, kv.2) ∈ toList n := by
    rw [← heq]
    exact hkv
  have := (getNode_iff_mem n search hwf kv.2).mpr hm
  rw [hget] at this
  cases this

/-- The final "merge the parent" step of Delete and DeletePrefix: it
keeps the prefix as a prefix, stays well-formed, and does not change the
visit list. -/
theorem cMergeStep {V} (cond : Bool) (lf : Option (Key × V)) (p : Key)
    (es : List (Nat × Node V)) (ppath : Key)
    (hwf : wfN (ppath ++ p) (.mk lf p es) = true) :
    p <+: (if cond && es.length == 1 && lf.isNone
           then mergeChild (.mk lf p es) else .mk lf p es).pfx ∧
    wfN (ppath ++ (if cond && es.length == 1 && lf.isNone
           then mergeChild (.mk lf p es) else .mk lf p es).pfx)
      (if cond && es.length == 1 && lf.isNone
       then mergeChild (.mk lf p es) else .mk lf p es) = true ∧
    toList (if cond && es.length == 1 && lf.isNone
           then mergeChild (.mk lf p es) else .mk lf p es)
      = toList (.mk lf p es) := by
  by_cases hc : (cond && es.length == 1 && lf.isNone) = true
  · rw [if_pos hc]
    simp only [Bool.and_eq_true, beq_iff_eq,
      Option.isNone_iff_eq_none] at hc
    obtain ⟨⟨hcond, hlen⟩, hlf⟩ := hc
    subst hlf
    obtain ⟨l, c, hes⟩ := length_eq_one_destruct hlen
    subst hes
    rw [mergeChild_cons]
    rw [wfN_iff] at hwf
    have hwfc := (wfE_iff.mp hwf.2.2) (l, c) (List.mem_cons_self _ _)
    refine ⟨?_, ?_, ?_⟩
    · simp only [Node.pfx]
      exact ⟨c.pfx, rfl⟩
    · simp only [Node.pfx]
      rw [← List.append_assoc]
      cases c with
      | mk clf2 cp2 ce2 =>
        rw [wfN_pfx_irrel]
        simpa using hwfc.2
    · rw [toList_mk, toList_mk]
      cases c with
      | mk clf2 cp2 ce2 =>
        simp only [Node.leaf, Node.children, Option.toList_none,
          List.nil_append, toListE_cons, toListE, List.append_nil]
        rw [toList_mk]
  · rw [if_neg hc]
    rw [wfN_iff] at hwf
    refine ⟨List.prefix_refl _, ?_, rfl⟩
    · simp only [Node.pfx]
      rw [wfN_iff]
      exact hwf


/-! ## Shared key-exclusion helpers for the delete lemmas -/

theorem side_keys_ne {V} {path : Key} {es es₁ es₂ : List (Nat × Node V)}
    {b : Nat} {c : Node V}
    (hwfe : wfE path es = true) (heq : es = es₁ ++ (b, c) :: es₂)
    (hlt : ∀ e ∈ es₁, e.1 < b) (hgt : ∀ e ∈ es₂, b < e.1) (bs : Key) :
    ∀ kv : Key × V, kv ∈ toListE es₁ ∨ kv ∈ toListE es₂ →
      kv.1 ≠ path ++ b :: bs := by
  intro kv hkv
  have hsub : ∀ e, (e ∈ es₁ ∨ e ∈ es₂) → e ∈ es := by
    intro e he
    rw [heq]
    rcases he with h1 | h2
    · exact List.mem_append_left _ h1
    · exact List.mem_append_right _ (List.mem_cons_of_mem _ h2)
  have hwfE1 : wfE path es₁ = true := by
    rw [wfE_iff]
    intro e he
    exact (wfE_iff.mp hwfe) e (hsub e (Or.inl he))
  have hwfE2 : wfE path es₂ = true := by
    rw [wfE_iff]
    intro e he
    exact (wfE_iff.mp hwfe) e (hsub e (Or.inr he))
  rcases hkv with hkv | hkv
  · obtain ⟨e, he, hext⟩ := toListE_key hwfE1 kv hkv
    exact key_ne_of_label_ne hext (by have := hlt e he; omega)
  · obtain ⟨e, he, hext⟩ := toListE_key hwfE2 kv hkv
    exact key_ne_of_label_ne hext (by have := hgt e he; omega)

theorem leaf_key_ne {V} {path : Key} {lf : Option (Key × V)}
    (hlf : ∀ k v, lf = some (k, v) → k = path) (b : Nat) (bs : Key) :
    ∀ kv : Key × V, kv ∈ lf.toList → kv.1 ≠ path ++ b :: bs := by
  intro kv hkv
  cases lf with
  | none => simp at hkv
  | some l =>
    simp only [Option.toList_some, List.mem_singleton] at hkv
    subst hkv
    have hk : kv.1 = path := hlf kv.1 kv.2 (by cases kv; rfl)
    rw [hk]
    intro hx
    have hpre : (path ++ [b]) <+: (path ++ b :: bs) := ⟨bs, by simp⟩
    exact ne_of_extends hpre hx.symm

theorem sortedLabels_replace {V} {es es₁ es₂ : List (Nat × Node V)} {b : Nat}
    {c : Node V} (hs : sortedLabels es = true)
    (heq : es = es₁ ++ (b, c) :: es₂) (c' : Node V) :
    sortedLabels (es₁ ++ (b, c') :: es₂) = true := by
  apply sortedLabels_of_map_eq ?_ hs
  rw [heq]
  simp


theorem isSome_ite_one {V : Type} (v : V) :
    (if (some v).isSome = true then 1 else 0) = 1 := rfl

/-- Packs the conclusion of `deleteNode_master` for the no-op case: when
the searched key is absent the node is returned unchanged. -/
theorem deleteNode_master_of_fail {V} {n : Node V} {search ppath : Key}
    (hwf : wfN (ppath ++ n.pfx) n = true) (hget : getNode n search = none) :
    (none : Option V) = getNode n search ∧
    n.pfx <+: n.pfx ∧
    wfN (ppath ++ n.pfx) n = true ∧
    (∀ kv : Key × V, kv ∈ toList n
        ↔ (kv ∈ toList n ∧ kv.1 ≠ (ppath ++ n.pfx) ++ search)) ∧
    (toList n).length + (if (getNode n search).isSome = true then 1 else 0)
      = (toList n).length := by
  refine ⟨hget.symm, List.prefix_refl _, hwf, ?_, by rw [hget]; simp⟩
  intro kv
  constructor
  · intro hm
    exact ⟨hm, not_mem_key_of_getNode_none hwf hget kv hm⟩
  · exact fun hm => hm.1

/-- Correctness of `Tree.Delete`'s recursive descent on a well-formed
node: the returned value is the stored value of the searched key, the
node's prefix is only ever extended (by the parent-merge step), the
result is well-formed on the extended path, exactly the searched key
disappears from the visit list, and the length drops by one exactly when
the key was present. -/
theorem deleteNode_master {V} :
    ∀ (root? : Bool) (n : Node V) (search : Key),
      ∀ (ppath : Key), wfN (ppath ++ n.pfx) n = true →
      (deleteNode root? n search).2 = getNode n search ∧
      n.pfx <+: (deleteNode root? n search).1.pfx ∧
      wfN (ppath ++ (deleteNode root? n search).1.pfx)
        (deleteNode root? n search).1 = true ∧
      (∀ kv : Key × V, kv ∈ toList (deleteNode root? n search).1
          ↔ (kv ∈ toList n ∧ kv.1 ≠ (ppath ++ n.pfx) ++ search)) ∧
      (toList (deleteNode root? n search).1).length
          + (if (getNode n search).isSome = true then 1 else 0)
        = (toList n).length := by
  intro root? n search
  induction root?, n, search using deleteNode.induct with
  | case1 root? n hleaf =>
    intro ppath hwf
    have hget : getNode n [] = none := by
      rw [getNode_nil, hleaf]
      rfl
    rw [deleteNode_absent root? n [] hget]
    exact deleteNode_master_of_fail hwf hget
  | case2 root? n k0 old hleaf =>
    intro ppath hwf
    obtain ⟨lf, p, es⟩ := n
    simp only [Node.leaf] at hleaf
    subst hleaf
    simp only [Node.pfx] at hwf ⊢
    rw [wfN_iff] at hwf
    have hk0 : k0 = ppath ++ p := hwf.1 k0 old rfl
    have hresq : deleteNode root? (Node.mk (some (k0, old)) p es) []
        = (Node.mk none p es, some old) := by
      rw [deleteNode_nil]
      rfl
    have hr1 : (deleteNode root? (Node.mk (some (k0, old)) p es) []).1
        = Node.mk none p es := by
      rw [hresq]
    have hr2 : (deleteNode root? (Node.mk (some (k0, old)) p es) []).2
        = some old := by
      rw [hresq]
    have hget : getNode (Node.mk (some (k0, old)) p es) [] = some old := by
      rw [getNode_nil]
      rfl
    rw [hr1, hr2]
    refine ⟨hget.symm, List.prefix_refl _, ?_, ?_, ?_⟩
    · rw [wfN_iff]
      exact ⟨(by intro k v hkv; cases hkv), hwf.2.1, hwf.2.2⟩
    · intro kv
      rw [toList_mk, toList_mk]
      simp only [Option.toList_some, Option.toList_none, List.nil_append,
        List.singleton_append, List.mem_cons, List.append_nil]
      constructor
      · intro hkv
        refine ⟨Or.inr hkv, ?_⟩
        obtain ⟨e, he, hext⟩ := toListE_key hwf.2.2 kv hkv
        exact ne_of_extends hext
      · rintro ⟨hin, hne⟩
        rcases hin with heq | hkv2
        · exfalso
          apply hne
          rw [heq, hk0]
        · exact hkv2
    · rw [toList_mk, toList_mk, hget, isSome_ite_one]
      simp only [Option.toList_some, Option.toList_none, List.nil_append,
        List.singleton_append]
      simp [List.length_cons]
  | case3 root? n b bs h =>
    intro ppath hwf
    have hget : getNode n (b :: bs) = none := by
      rw [getNode_cons, h]
    rw [deleteNode_absent root? n (b :: bs) hget]
    exact deleteNode_master_of_fail hwf hget
  | case4 root? n b bs child h hpf rest res hres ih =>
    intro ppath hwf
    have hres0 : (deleteNode false child ((b :: bs).drop child.pfx.length)).2
        = none := hres
    have hwfc : child.pfx.head? = some b
        ∧ wfN ((ppath ++ n.pfx) ++ child.pfx) child = true := by
      obtain ⟨lf, p, es⟩ := n
      rw [wfN_iff] at hwf
      exact (wfE_iff.mp hwf.2.2) (b, child) (getEdge_some_mem h)
    have ihx := ih (ppath ++ n.pfx) hwfc.2
    have hgetc : getNode child ((b :: bs).drop child.pfx.length) = none := by
      rw [← ihx.1]
      exact hres0
    have hget : getNode n (b :: bs) = none := by
      rw [getNode_cons_some h, if_pos hpf]
      exact hgetc
    rw [deleteNode_absent root? n (b :: bs) hget]
    exact deleteNode_master_of_fail hwf hget
  | case7 root? n b bs child h hnpf =>
    intro ppath hwf
    have hget : getNode n (b :: bs) = none := by
      rw [getNode_cons_some h, if_neg hnpf]
    rw [deleteNode_absent root? n (b :: bs) hget]
    exact deleteNode_master_of_fail hwf hget
  | case6 root? n b bs child h old hpf rest res hres hnempty ih =>
    intro ppath hwf
    obtain ⟨lf, p, es⟩ := n
    simp only [Node.pfx] at hwf ⊢
    rw [wfN_iff] at hwf
    have hchild : (b, child) ∈ es := getEdge_some_mem h
    have hwfc := (wfE_iff.mp hwf.2.2) (b, child) hchild
    have hres0 : (deleteNode false child ((b :: bs).drop child.pfx.length)).2
        = some old := hres
    have hnem0 : ¬ ((b :: bs).drop child.pfx.length).isEmpty = true := hnempty
    have hie : ((b :: bs).drop child.pfx.length).isEmpty = false := by
      cases hx : ((b :: bs).drop child.pfx.length).isEmpty with
      | false => rfl
      | true => exact absurd hx hnem0
    have ihx := ih (ppath ++ p) hwfc.2
    obtain ⟨es₁, es₂, heq, hlt, hgt⟩ := mem_decomp_sorted hwf.2.1 hchild
    have hpre : child.pfx <+: (b :: bs) := isPrefixOf_iff.mp hpf
    obtain ⟨t, ht⟩ := hpre
    have hdropt : (b :: bs).drop child.pfx.length = t := by
      rw [← ht]
      exact List.drop_left _ _
    have hkeyeq : ((ppath ++ p) ++ child.pfx)
        ++ (b :: bs).drop child.pfx.length = (ppath ++ p) ++ (b :: bs) := by
      rw [List.append_assoc, hdropt, ht]
    have hresq : deleteNode root? (Node.mk lf p es) (b :: bs)
        = (Node.mk lf p (es₁ ++
            (b, (deleteNode false child ((b :: bs).drop child.pfx.length)).1)
            :: es₂), some old) := by
      rw [deleteNode_cons_some h, if_pos hpf]
      simp only [hres0]
      rw [if_neg hnem0]
      simp only [Node.leaf, Node.pfx, Node.children]
      rw [heq, updEdge_decomp hlt]
    have hr1 : (deleteNode root? (Node.mk lf p es) (b :: bs)).1
        = Node.mk lf p (es₁ ++
            (b, (deleteNode false child ((b :: bs).drop child.pfx.length)).1)
            :: es₂) := by
      rw [hresq]
    have hr2 : (deleteNode root? (Node.mk lf p es) (b :: bs)).2 = some old := by
      rw [hresq]
    have hget : getNode (Node.mk lf p es) (b :: bs)
        = getNode child ((b :: bs).drop child.pfx.length) := by
      rw [getNode_cons_some h, if_pos hpf]
    have hgets : getNode (Node.mk lf p es) (b :: bs) = some old := by
      rw [hget, ← ihx.1]
      exact hres0
    have hside := side_keys_ne hwf.2.2 heq hlt hgt bs
    have hlf_ne := leaf_key_ne hwf.1 b bs
    rw [hr1, hr2]
    refine ⟨hgets.symm, List.prefix_refl _, ?_, ?_, ?_⟩
    · rw [wfN_iff]
      refine ⟨hwf.1, sortedLabels_replace hwf.2.1 heq _, ?_⟩
      rw [wfE_iff]
      intro e he
      rcases List.mem_append.mp he with he1 | he2
      · exact (wfE_iff.mp hwf.2.2) e (by rw [heq]; exact List.mem_append_left _ he1)
      · rcases List.mem_cons.mp he2 with rfl | he3
        · constructor
          · exact head?_of_pfx hwfc.1 ihx.2.1
          · exact ihx.2.2.1
        · exact (wfE_iff.mp hwf.2.2) e
            (by rw [heq]
                exact List.mem_append_right _ (List.mem_cons_of_mem _ he3))
    · intro kv
      rw [toList_mk, toList_mk, heq]
      rw [toListE_append, toListE_cons, toListE_append, toListE_cons]
      simp only [List.mem_append]
      constructor
      · rintro (hl | h1 | hmid | h2)
        · exact ⟨Or.inl hl, hlf_ne kv hl⟩
        · exact ⟨Or.inr (Or.inl h1), hside kv (Or.inl h1)⟩
        · have := (ihx.2.2.2.1 kv).mp hmid
          refine ⟨Or.inr (Or.inr (Or.inl this.1)), ?_⟩
          rw [← hkeyeq]
          exact this.2
        · exact ⟨Or.inr (Or.inr (Or.inr h2)), hside kv (Or.inr h2)⟩
      · rintro ⟨hin, hne⟩
        rcases hin with hl | h1 | hmid | h2
        · exact Or.inl hl
        · exact Or.inr (Or.inl h1)
        · refine Or.inr (Or.inr (Or.inl ?_))
          apply (ihx.2.2.2.1 kv).mpr
          refine ⟨hmid, ?_⟩
          rw [hkeyeq]
          exact hne
        · exact Or.inr (Or.inr (Or.inr h2))
    · rw [hgets]
      rw [toList_mk, toList_mk, heq]
      rw [toListE_append, toListE_cons, toListE_append, toListE_cons]
      rw [isSome_ite_one]
      have hlc := ihx.2.2.2.2
      rw [← ihx.1, hres0, isSome_ite_one] at hlc
      have hlc2 : (toList (deleteNode false child
          ((b :: bs).drop child.pfx.length)).1).length + 1
          = (toList child).length := hlc
      simp only [List.length_append]
      omega
  | case5 root? n b bs child h old hpf rest res hres hempty ih =>
    intro ppath hwf
    clear ih
    obtain ⟨lf, p, es⟩ := n
    obtain ⟨clf, cpfx, ces⟩ := child
    simp only [Node.pfx] at hwf hpf ⊢
    have hempty2 : ((b :: bs).drop cpfx.length).isEmpty = true := hempty
    have hrest2 : (b :: bs).drop cpfx.length = [] :=
      List.isEmpty_iff.mp hempty2
    have hpre : cpfx <+: (b :: bs) := isPrefixOf_iff.mp hpf
    have hlenle : (b :: bs).length ≤ cpfx.length :=
      List.drop_eq_nil_iff.mp hrest2
    have hlen2 : cpfx.length = (b :: bs).length := by
      have := hpre.length_le
      omega
    have hcpfx : cpfx = b :: bs := hpre.eq_of_length hlen2
    subst hcpfx
    have hres2 : (deleteNode false (Node.mk clf (b :: bs) ces) []).2
        = some old := by
      have h0 : (deleteNode false (Node.mk clf (b :: bs) ces)
          ((b :: bs).drop (b :: bs).length)).2 = some old := hres
      rwa [List.drop_length] at h0
    cases clf with
    | none =>
      exfalso
      rw [deleteNode_nil] at hres2
      simp [Node.leaf] at hres2
    | some kv0 =>
      obtain ⟨k0, old0⟩ := kv0
      have hfull : deleteNode false (Node.mk (some (k0, old0)) (b :: bs) ces) []
          = (Node.mk none (b :: bs) ces, some old0) := by
        rw [deleteNode_nil]
        rfl
      have hold : old0 = old := by
        have h2 : (Node.mk none (b :: bs) ces, some old0).2 = some old := by
          rw [← hfull]
          exact hres2
        exact Option.some.inj h2
      subst old0
      rw [wfN_iff] at hwf
      have hchild : (b, Node.mk (some (k0, old)) (b :: bs) ces) ∈ es :=
        getEdge_some_mem h
      have hwfc := (wfE_iff.mp hwf.2.2) _ hchild
      simp only [Node.pfx] at hwfc
      have hwfcN := hwfc.2
      rw [wfN_iff] at hwfcN
      have hk0 : k0 = (ppath ++ p) ++ (b :: bs) := hwfcN.1 k0 old rfl
      obtain ⟨es₁, es₂, heq, hlt, hgt⟩ := mem_decomp_sorted hwf.2.1 hchild
      have hget : getNode (Node.mk lf p es) (b :: bs) = some old := by
        rw [getNode_cons_some h]
        simp only [Node.pfx]
        rw [if_pos hpf, List.drop_length, getNode_nil]
        rfl
      have hside := side_keys_ne hwf.2.2 heq hlt hgt bs
      have hlf_ne := leaf_key_ne hwf.1 b bs
      have hces_ne : ∀ kv : Key × V, kv ∈ toListE ces →
          kv.1 ≠ (ppath ++ p) ++ b :: bs := by
        intro kv hkv
        obtain ⟨e, he, hext⟩ := toListE_key hwfcN.2.2 kv hkv
        exact ne_of_extends hext
      have htln : toList (Node.mk lf p es)
          = lf.toList ++ (toListE es₁
              ++ (((k0, old) :: toListE ces) ++ toListE es₂)) := by
        rw [toList_mk, heq, toListE_append, toListE_cons, toList_mk]
        simp only [Option.toList_some, List.singleton_append]
      cases ces with
      | nil =>
        have hresq : deleteNode root? (Node.mk lf p es) (b :: bs)
            = (if !root? && (es₁ ++ es₂).length == 1 && lf.isNone
               then mergeChild (Node.mk lf p (es₁ ++ es₂))
               else Node.mk lf p (es₁ ++ es₂), some old) := by
          rw [deleteNode_cons_some h]
          simp only [Node.pfx]
          rw [if_pos hpf]
          simp only [List.drop_length, hfull, Node.leaf, Node.children,
            List.isEmpty_nil]
          rw [if_pos True.intro]
          rw [if_pos True.intro]
          rw [heq, delEdge_decomp hlt]
        have hwfn1 : wfN (ppath ++ p) (Node.mk lf p (es₁ ++ es₂)) = true := by
          rw [wfN_iff]
          refine ⟨hwf.1, ?_, ?_⟩
          · exact sortedLabels_remove (heq ▸ hwf.2.1)
          · rw [wfE_iff]
            intro e he
            rcases List.mem_append.mp he with he1 | he2
            · exact (wfE_iff.mp hwf.2.2) e
                (by rw [heq]; exact List.mem_append_left _ he1)
            · exact (wfE_iff.mp hwf.2.2) e
                (by rw [heq]
                    exact List.mem_append_right _ (List.mem_cons_of_mem _ he2))
        obtain ⟨hs1, hs2, hs3⟩ :=
          cMergeStep (!root?) lf p (es₁ ++ es₂) ppath hwfn1
        have hr1 : (deleteNode root? (Node.mk lf p es) (b :: bs)).1
            = (if !root? && (es₁ ++ es₂).length == 1 && lf.isNone
               then mergeChild (Node.mk lf p (es₁ ++ es₂))
               else Node.mk lf p (es₁ ++ es₂)) := by
          rw [hresq]
        have hr2 : (deleteNode root? (Node.mk lf p es) (b :: bs)).2
            = some old := by
          rw [hresq]
        rw [hr1, hr2, hget]
        refine ⟨rfl, hs1, hs2, ?_, ?_⟩
        · intro kv
          rw [hs3, htln]
          rw [toList_mk, toListE_append]
          have hnil : toListE ([] : List (Nat × Node V)) = [] := rfl
          rw [hnil]
          simp only [List.mem_append, List.mem_cons, List.nil_append]
          constructor
          · rintro (hl | h1 | h2)
            · exact ⟨Or.inl hl, hlf_ne kv hl⟩
            · exact ⟨Or.inr (Or.inl h1), hside kv (Or.inl h1)⟩
            · exact ⟨Or.inr (Or.inr (Or.inr h2)), hside kv (Or.inr h2)⟩
          · rintro ⟨hin, hne⟩
            rcases hin with hl | h1 | (rfl | hx) | h2
            · exact Or.inl hl
            · exact Or.inr (Or.inl h1)
            · exact absurd hk0 hne
            · cases hx
            · exact Or.inr (Or.inr h2)
        · rw [hs3, htln]
          rw [toList_mk, toListE_append]
          have hnil : toListE ([] : List (Nat × Node V)) = [] := rfl
          rw [hnil]
          rw [isSome_ite_one]
          simp only [List.length_append, List.length_cons, List.nil_append,
            List.length_nil]
          omega
      | cons e0 ces' =>
        have hne0 : toListE (e0 :: ces') = toList e0.2 ++ toListE ces' := by
          rw [toListE_cons]
        have hc2 : ∃ c2 : Node V,
            (if (e0 :: ces').length == 1
             then mergeChild (Node.mk none (b :: bs) (e0 :: ces'))
             else Node.mk none (b :: bs) (e0 :: ces')) = c2 ∧
            toList c2 = toListE (e0 :: ces') ∧
            c2.pfx.head? = some b ∧
            wfN (((ppath ++ p) ++ c2.pfx)) c2 = true ∧
            (b :: bs) <+: c2.pfx := by
          cases ces' with
          | nil =>
            obtain ⟨l1, g⟩ := e0
            obtain ⟨glf, gp, ges⟩ := g
            refine ⟨Node.mk glf ((b :: bs) ++ gp) ges, ?_, ?_, ?_, ?_, ?_⟩
            · rw [if_pos (by rfl)]
              rw [mergeChild_cons]
              simp only [Node.leaf, Node.pfx, Node.children]
            · rw [toListE_cons, toList_mk, toList_mk]
              simp only [toListE, List.append_nil]
            · simp only [Node.pfx, List.cons_append, List.head?_cons]
            · have hwfg := (wfE_iff.mp hwfcN.2.2) (l1, Node.mk glf gp ges)
                (List.mem_cons_self _ _)
              simp only [Node.pfx] at hwfg ⊢
              rw [← List.append_assoc]
              rw [wfN_pfx_irrel _ _ _ gp]
              exact hwfg.2
            · exact ⟨gp, rfl⟩
          | cons e1 r2 =>
            refine ⟨Node.mk none (b :: bs) (e0 :: e1 :: r2), ?_, ?_, ?_, ?_, ?_⟩
            · rw [if_neg (by simp)]
            · rw [toList_mk]
              simp only [Node.leaf, Node.children, Option.toList_none,
                List.nil_append]
            · simp only [Node.pfx, List.head?_cons]
            · simp only [Node.pfx]
              rw [wfN_iff]
              exact ⟨(by intro k v hkv; cases hkv), hwfcN.2.1, hwfcN.2.2⟩
            · exact List.prefix_refl _
        obtain ⟨c2, hc2eq, htl2, hhd2, hwf2, hpfx2⟩ := hc2
        have hresq : deleteNode root? (Node.mk lf p es) (b :: bs)
            = (if !root? && (es₁ ++ (b, c2) :: es₂).length == 1 && lf.isNone
               then mergeChild (Node.mk lf p (es₁ ++ (b, c2) :: es₂))
               else Node.mk lf p (es₁ ++ (b, c2) :: es₂), some old) := by
          rw [deleteNode_cons_some h]
          simp only [Node.pfx]
          rw [if_pos hpf]
          simp only [List.drop_length, hfull, Node.leaf, Node.children,
            List.isEmpty_nil, List.isEmpty_cons]
          rw [if_pos True.intro]
          rw [if_neg (by simp : ¬ ((false : Bool) = true))]
          rw [hc2eq, heq, updEdge_decomp hlt]
        have hwfn1 : wfN (ppath ++ p)
            (Node.mk lf p (es₁ ++ (b, c2) :: es₂)) = true := by
          rw [wfN_iff]
          refine ⟨hwf.1, sortedLabels_replace hwf.2.1 heq _, ?_⟩
          rw [wfE_iff]
          intro e he
          rcases List.mem_append.mp he with he1 | he2
          · exact (wfE_iff.mp hwf.2.2) e
              (by rw [heq]; exact List.mem_append_left _ he1)
          · rcases List.mem_cons.mp he2 with rfl | he3
            · exact ⟨hhd2, hwf2⟩
            · exact (wfE_iff.mp hwf.2.2) e
                (by rw [heq]
                    exact List.mem_append_right _ (List.mem_cons_of_mem _ he3))
        obtain ⟨hs1, hs2, hs3⟩ :=
          cMergeStep (!root?) lf p (es₁ ++ (b, c2) :: es₂) ppath hwfn1
        have hr1 : (deleteNode root? (Node.mk lf p es) (b :: bs)).1
            = (if !root? && (es₁ ++ (b, c2) :: es₂).length == 1 && lf.isNone
               then mergeChild (Node.mk lf p (es₁ ++ (b, c2) :: es₂))
               else Node.mk lf p (es₁ ++ (b, c2) :: es₂)) := by
          rw [hresq]
        have hr2 : (deleteNode root? (Node.mk lf p es) (b :: bs)).2
            = some old := by
          rw [hresq]
        rw [hr1, hr2, hget]
        refine ⟨rfl, hs1, hs2, ?_, ?_⟩
        · intro kv
          rw [hs3, htln]
          rw [toList_mk, toListE_append, toListE_cons, htl2]
          simp only [List.mem_append, List.mem_cons]
          constructor
          · rintro (hl | h1 | hmid | h2)
            · exact ⟨Or.inl hl, hlf_ne kv hl⟩
            · exact ⟨Or.inr (Or.inl h1), hside kv (Or.inl h1)⟩
            · exact ⟨Or.inr (Or.inr (Or.inl (Or.inr hmid))), hces_ne kv hmid⟩
            · exact ⟨Or.inr (Or.inr (Or.inr h2)), hside kv (Or.inr h2)⟩
          · rintro ⟨hin, hne⟩
            rcases hin with hl | h1 | hmid | h2
            · exact Or.inl hl
            · exact Or.inr (Or.inl h1)
            · rcases hmid with rfl | hmid2
              · exfalso
                apply hne
                exact hk0
              · exact Or.inr (Or.inr (Or.inl hmid2))
            · exact Or.inr (Or.inr (Or.inr h2))
        · rw [hs3, htln]
          rw [toList_mk, toListE_append, toListE_cons, htl2]
          rw [isSome_ite_one]
          simp only [List.length_append, List.length_cons]
          omega


/-! ## Unfold lemmas and helpers for `deletePfxNode` -/

theorem deletePfxNode_nil {V} (root? : Bool) (n : Node V) :
    deletePfxNode root? n [] = (.mk none n.pfx [], (toList n).length) := by
  rw [deletePfxNode.eq_def]

theorem deletePfxNode_cons {V} (root? : Bool) (n : Node V) (b : Nat) (bs : Key) :
    deletePfxNode root? n (b :: bs)
      = (match getEdge n b with
         | none => (n, 0)
         | some child =>
           if (!(b :: bs).isPrefixOf child.pfx
               && !child.pfx.isPrefixOf (b :: bs)) = true then (n, 0)
           else
             let p' := if child.pfx.length > (b :: bs).length then []
                       else (b :: bs).drop child.pfx.length
             let res := deletePfxNode false child p'
             let n1 : Node V := .mk n.leaf n.pfx (updEdge n.children b res.1)
             if p'.isEmpty then
               (if !root? && n1.children.length == 1 && n1.leaf.isNone
                then mergeChild n1 else n1,
                res.2)
             else (n1, res.2)) := by
  rw [deletePfxNode.eq_def]
  split
  · rename_i heq
    simp at heq
  · rename_i b2 bs2 heq
    injection heq with h1 h2
    subst h1
    subst h2
    split
    · rename_i heq2
      rw [heq2]
    · rename_i child heq2
      rw [heq2]

theorem deletePfxNode_cons_some {V} {root? : Bool} {n : Node V} {b : Nat}
    {bs : Key} {child : Node V} (h : getEdge n b = some child) :
    deletePfxNode root? n (b :: bs)
      = (if (!(b :: bs).isPrefixOf child.pfx
             && !child.pfx.isPrefixOf (b :: bs)) = true then (n, 0)
         else
           let p' := if child.pfx.length > (b :: bs).length then []
                     else (b :: bs).drop child.pfx.length
           let res := deletePfxNode false child p'
           let n1 : Node V := .mk n.leaf n.pfx (updEdge n.children b res.1)
           if p'.isEmpty then
             (if !root? && n1.children.length == 1 && n1.leaf.isNone
              then mergeChild n1 else n1,
              res.2)
           else (n1, res.2)) := by
  rw [deletePfxNode_cons, h]

theorem label_eq_of_both_prefix {path : Key} {a c : Nat} {bs k : Key}
    (h1 : (path ++ [a]) <+: k) (h2 : (path ++ c :: bs) <+: k) : a = c := by
  rcases List.prefix_or_prefix_of_prefix h1 h2 with hp | hp
  · have := (List.prefix_append_right_inj path).mp hp
    rw [List.cons_prefix_cons] at this
    exact this.1
  · have := (List.prefix_append_right_inj path).mp hp
    rw [List.cons_prefix_cons] at this
    exact this.1.symm

theorem not_prefix_of_leaf_key {path : Key} {c : Nat} {bs : Key} :
    ¬ (path ++ c :: bs) <+: path := by
  intro hx
  have h1 := hx.length_le
  rw [List.length_append, List.length_cons] at h1
  omega

/-- No key in the subtree carries the prefix `path ++ b :: bs` when every
child labelled `b` has a prefix incomparable with `b :: bs`. -/
theorem no_pfx_key_aux {V} {lf : Option (Key × V)} {pn : Key}
    {es : List (Nat × Node V)} {path : Key} {b : Nat} {bs : Key}
    (hwf : wfN path (.mk lf pn es) = true)
    (hch : ∀ child : Node V, (b, child) ∈ es →
      ¬ ((b :: bs) <+: child.pfx) ∧ ¬ (child.pfx <+: (b :: bs))) :
    ∀ kv : Key × V, kv ∈ toList (.mk lf pn es) →
      ¬ (path ++ (b :: bs)) <+: kv.1 := by
  intro kv hkv hkp
  rw [wfN_iff] at hwf
  rw [toList_mk] at hkv
  rcases List.mem_append.mp hkv with hl | he
  · cases lf with
    | none => simp at hl
    | some l =>
      simp only [Option.toList_some, List.mem_singleton] at hl
      subst hl
      have hk : kv.1 = path := hwf.1 kv.1 kv.2 (by cases kv; rfl)
      rw [hk] at hkp
      exact not_prefix_of_leaf_key hkp
  · obtain ⟨e, hees, hext⟩ := toListE_key hwf.2.2 kv he
    have hlab : e.1 = b := label_eq_of_both_prefix hext hkp
    obtain ⟨tail, htail⟩ := hkp
    cases e with
    | mk l child =>
      simp only at hlab
      subst l
      have hmem : (b, child) ∈ es := hees
      have hkv1 : kv.1 = path ++ b :: (bs ++ tail) := by
        rw [← htail]
        simp
      have hkvpair : kv = (path ++ b :: (bs ++ tail), kv.2) := by
        cases kv
        simp only at hkv1
        rw [hkv1]
      rw [hkvpair] at he
      have hinchild := (mem_toListE_label hwf.2.2 hwf.2.1 hmem).mp he
      have hwfc := (wfE_iff.mp hwf.2.2) (b, child) hmem
      have hkey := toList_key child hwfc.2 _ hinchild
      have hcmp : child.pfx <+: (b :: (bs ++ tail)) :=
        (List.prefix_append_right_inj path).mp hkey
      have hbs : (b :: bs) <+: (b :: (bs ++ tail)) := by
        rw [List.cons_prefix_cons]
        exact ⟨rfl, ⟨tail, rfl⟩⟩
      rcases List.prefix_or_prefix_of_prefix hcmp hbs with hp | hp
      · exact (hch child hmem).2 hp
      · exact (hch child hmem).1 hp

theorem isPrefixOf_eq_of_iff {a b k : Key} (h : (a <+: k) ↔ (b <+: k)) :
    a.isPrefixOf k = b.isPrefixOf k := by
  cases hx : a.isPrefixOf k with
  | true =>
    have := h.mp (isPrefixOf_iff.mp hx)
    rw [← isPrefixOf_iff] at this
    rw [this]
  | false =>
    cases hy : b.isPrefixOf k with
    | true =>
      have := h.mpr (isPrefixOf_iff.mp hy)
      rw [← isPrefixOf_iff] at this
      rw [hx] at this
      cases this
    | false => rfl

theorem isPrefixOf_false_iff {a k : Key} :
    a.isPrefixOf k = false ↔ ¬ (a <+: k) := by
  constructor
  · intro h hx
    rw [← isPrefixOf_iff] at hx
    rw [h] at hx
    cases hx
  · intro h
    cases hx : a.isPrefixOf k with
    | true => exact absurd (isPrefixOf_iff.mp hx) h
    | false => rfl

theorem side_keys_nopfx {V} {path : Key} {es es₁ es₂ : List (Nat × Node V)}
    {b : Nat} {c : Node V}
    (hwfe : wfE path es = true) (heq : es = es₁ ++ (b, c) :: es₂)
    (hlt : ∀ e ∈ es₁, e.1 < b) (hgt : ∀ e ∈ es₂, b < e.1) (bs : Key) :
    ∀ kv : Key × V, kv ∈ toListE es₁ ∨ kv ∈ toListE es₂ →
      ¬ (path ++ b :: bs) <+: kv.1 := by
  intro kv hkv hkp
  have hsub : ∀ e, (e ∈ es₁ ∨ e ∈ es₂) → e ∈ es := by
    intro e he
    rw [heq]
    rcases he with h1 | h2
    · exact List.mem_append_left _ h1
    · exact List.mem_append_right _ (List.mem_cons_of_mem _ h2)
  have hwfE1 : wfE path es₁ = true := by
    rw [wfE_iff]
    intro e he
    exact (wfE_iff.mp hwfe) e (hsub e (Or.inl he))
  have hwfE2 : wfE path es₂ = true := by
    rw [wfE_iff]
    intro e he
    exact (wfE_iff.mp hwfe) e (hsub e (Or.inr he))
  rcases hkv with hkv | hkv
  · obtain ⟨e, he, hext⟩ := toListE_key hwfE1 kv hkv
    have := label_eq_of_both_prefix hext hkp
    have := hlt e he
    omega
  · obtain ⟨e, he, hext⟩ := toListE_key hwfE2 kv hkv
    have := label_eq_of_both_prefix hext hkp
    have := hgt e he
    omega

theorem leaf_nopfx {V} {path : Key} {lf : Option (Key × V)}
    (hlf : ∀ k v, lf = some (k, v) → k = path) (b : Nat) (bs : Key) :
    ∀ kv : Key × V, kv ∈ lf.toList → ¬ (path ++ b :: bs) <+: kv.1 := by
  intro kv hkv
  cases lf with
  | none => simp at hkv
  | some l =>
    simp only [Option.toList_some, List.mem_singleton] at hkv
    subst hkv
    have hk : kv.1 = path := hlf kv.1 kv.2 (by cases kv; rfl)
    rw [hk]
    exact not_prefix_of_leaf_key

/-- Assembles the `deletePfxNode` master conclusion for the relinked node
`mk lf pn (es₁ ++ (b, R1) :: es₂)` from the recursive call's facts about
`R1` and the key-translation between the child frame and the parent
frame. -/
theorem deletePfxAssemble {V} {lf : Option (Key × V)} {pn : Key}
    {es es₁ es₂ : List (Nat × Node V)} {b : Nat} {bs : Key}
    {child : Node V} {R1 : Node V} {R2 : Nat} {PT : Key} {ppath : Key}
    (hwfI : (∀ k v, lf = some (k, v) → k = ppath ++ pn)
      ∧ sortedLabels es = true ∧ wfE (ppath ++ pn) es = true)
    (heq : es = es₁ ++ (b, child) :: es₂)
    (hlt : ∀ e ∈ es₁, e.1 < b) (hgt : ∀ e ∈ es₂, b < e.1)
    (hhd : child.pfx.head? = some b)
    (hwfchild : wfN ((ppath ++ pn) ++ child.pfx) child = true)
    (hpfx : child.pfx <+: R1.pfx)
    (hwfR : wfN ((ppath ++ pn) ++ R1.pfx) R1 = true)
    (hmem : ∀ kv : Key × V, kv ∈ toList R1
      ↔ (kv ∈ toList child
          ∧ ¬ (((ppath ++ pn) ++ child.pfx) ++ PT) <+: kv.1))
    (hcnt : R2 = ((toList child).filter
      (fun kv => (((ppath ++ pn) ++ child.pfx) ++ PT).isPrefixOf kv.1)).length)
    (hlen : (toList R1).length + R2 = (toList child).length)
    (hkeyiff : ∀ k : Key, ((ppath ++ pn) ++ child.pfx) <+: k →
      ((((ppath ++ pn) ++ child.pfx) ++ PT) <+: k
        ↔ ((ppath ++ pn) ++ (b :: bs)) <+: k)) :
    wfN (ppath ++ pn) (.mk lf pn (es₁ ++ (b, R1) :: es₂)) = true ∧
    (∀ kv : Key × V, kv ∈ toList (.mk lf pn (es₁ ++ (b, R1) :: es₂))
        ↔ (kv ∈ toList (.mk lf pn es)
            ∧ ¬ ((ppath ++ pn) ++ (b :: bs)) <+: kv.1)) ∧
    R2 = ((toList (.mk lf pn es)).filter
      (fun kv => ((ppath ++ pn) ++ (b :: bs)).isPrefixOf kv.1)).length ∧
    (toList (.mk lf pn (es₁ ++ (b, R1) :: es₂))).length + R2
      = (toList (.mk lf pn es)).length := by
  have hside := side_keys_nopfx hwfI.2.2 heq hlt hgt bs
  have hlfno := leaf_nopfx hwfI.1 b bs
  have hchmem : (b, child) ∈ es := by
    rw [heq]
    exact List.mem_append_right _ (List.mem_cons_self _ _)
  have hchkey : ∀ kv : Key × V, kv ∈ toList child →
      ((ppath ++ pn) ++ child.pfx) <+: kv.1 := by
    intro kv hkv
    exact toList_key child hwfchild kv hkv
  have htln : toList (Node.mk lf pn es)
      = lf.toList ++ (toListE es₁ ++ (toList child ++ toListE es₂)) := by
    rw [toList_mk, heq, toListE_append, toListE_cons]
  have htl1 : toList (Node.mk lf pn (es₁ ++ (b, R1) :: es₂))
      = lf.toList ++ (toListE es₁ ++ (toList R1 ++ toListE es₂)) := by
    rw [toList_mk, toListE_append, toListE_cons]
  refine ⟨?_, ?_, ?_, ?_⟩
  · rw [wfN_iff]
    refine ⟨hwfI.1, sortedLabels_replace hwfI.2.1 heq _, ?_⟩
    rw [wfE_iff]
    intro e he
    rcases List.mem_append.mp he with he1 | he2
    · exact (wfE_iff.mp hwfI.2.2) e
        (by rw [heq]; exact List.mem_append_left _ he1)
    · rcases List.mem_cons.mp he2 with rfl | he3
      · exact ⟨head?_of_pfx hhd hpfx, hwfR⟩
      · exact (wfE_iff.mp hwfI.2.2) e
          (by rw [heq]
              exact List.mem_append_right _ (List.mem_cons_of_mem _ he3))
  · intro kv
    rw [htl1, htln]
    simp only [List.mem_append]
    constructor
    · rintro (hl | h1 | hmid | h2)
      · exact ⟨Or.inl hl, hlfno kv hl⟩
      · exact ⟨Or.inr (Or.inl h1), hside kv (Or.inl h1)⟩
      · have hx := (hmem kv).mp hmid
        refine ⟨Or.inr (Or.inr (Or.inl hx.1)), ?_⟩
        intro hkp
        exact hx.2 ((hkeyiff kv.1 (hchkey kv hx.1)).mpr hkp)
      · exact ⟨Or.inr (Or.inr (Or.inr h2)), hside kv (Or.inr h2)⟩
    · rintro ⟨hin, hne⟩
      rcases hin with hl | h1 | hmid | h2
      · exact Or.inl hl
      · exact Or.inr (Or.inl h1)
      · refine Or.inr (Or.inr (Or.inl ?_))
        apply (hmem kv).mpr
        refine ⟨hmid, ?_⟩
        intro hkp
        exact hne ((hkeyiff kv.1 (hchkey kv hmid)).mp hkp)
      · exact Or.inr (Or.inr (Or.inr h2))
  · rw [htln]
    rw [List.filter_append, List.filter_append, List.filter_append]
    have hf1 : lf.toList.filter
        (fun kv => ((ppath ++ pn) ++ (b :: bs)).isPrefixOf kv.1) = [] := by
      rw [List.filter_eq_nil_iff]
      intro a ha hcontra
      exact hlfno a ha (isPrefixOf_iff.mp hcontra)
    have hf2 : (toListE es₁).filter
        (fun kv => ((ppath ++ pn) ++ (b :: bs)).isPrefixOf kv.1) = [] := by
      rw [List.filter_eq_nil_iff]
      intro a ha hcontra
      exact hside a (Or.inl ha) (isPrefixOf_iff.mp hcontra)
    have hf3 : (toListE es₂).filter
        (fun kv => ((ppath ++ pn) ++ (b :: bs)).isPrefixOf kv.1) = [] := by
      rw [List.filter_eq_nil_iff]
      intro a ha hcontra
      exact hside a (Or.inr ha) (isPrefixOf_iff.mp hcontra)
    have hfc : (toList child).filter
        (fun kv => ((ppath ++ pn) ++ (b :: bs)).isPrefixOf kv.1)
        = (toList child).filter
          (fun kv => (((ppath ++ pn) ++ child.pfx) ++ PT).isPrefixOf kv.1) := by
      apply List.filter_congr
      intro a ha
      exact isPrefixOf_eq_of_iff (hkeyiff a.1 (hchkey a ha)).symm
    rw [hf1, hf2, hf3, hfc, hcnt]
    simp
  · rw [htl1, htln]
    simp only [List.length_append]
    omega

/-- Correctness of `Tree.DeletePrefix`'s recursive descent on a
well-formed node: the node's prefix is preserved or extended, the result
is well-formed, exactly the keys carrying the prefix disappear from the
visit list, and the returned count is the number of such keys. -/
theorem deletePfxNode_master {V} :
    ∀ (root? : Bool) (n : Node V) (p : Key),
      ∀ (ppath : Key), wfN (ppath ++ n.pfx) n = true →
      n.pfx <+: (deletePfxNode root? n p).1.pfx ∧
      wfN (ppath ++ (deletePfxNode root? n p).1.pfx)
        (deletePfxNode root? n p).1 = true ∧
      (∀ kv : Key × V, kv ∈ toList (deletePfxNode root? n p).1
          ↔ (kv ∈ toList n ∧ ¬ ((ppath ++ n.pfx) ++ p) <+: kv.1)) ∧
      (deletePfxNode root? n p).2
        = ((toList n).filter
            (fun kv => ((ppath ++ n.pfx) ++ p).isPrefixOf kv.1)).length ∧
      (toList (deletePfxNode root? n p).1).length + (deletePfxNode root? n p).2
        = (toList n).length := by
  intro root? n p
  induction root?, n, p using deletePfxNode.induct with
  | case1 root? n =>
    intro ppath hwf
    obtain ⟨lf, pn, es⟩ := n
    simp only [Node.pfx] at hwf ⊢
    have hresq : deletePfxNode root? (Node.mk lf pn es) []
        = (Node.mk none pn [], (toList (Node.mk lf pn es)).length) := by
      rw [deletePfxNode_nil]
      rfl
    have hr1 : (deletePfxNode root? (Node.mk lf pn es) []).1
        = Node.mk none pn [] := by
      rw [hresq]
    have hr2 : (deletePfxNode root? (Node.mk lf pn es) []).2
        = (toList (Node.mk lf pn es)).length := by
      rw [hresq]
    have hall : ∀ kv : Key × V, kv ∈ toList (Node.mk lf pn es) →
        ((ppath ++ pn) ++ []) <+: kv.1 := by
      intro kv hkv
      rw [List.append_nil]
      exact toList_key _ hwf kv hkv
    have hallb : ∀ kv : Key × V, kv ∈ toList (Node.mk lf pn es) →
        ((ppath ++ pn) ++ []).isPrefixOf kv.1 = true := by
      intro kv hkv
      exact isPrefixOf_iff.mpr (hall kv hkv)
    have hemp : toList (Node.mk none pn ([] : List (Nat × Node V))) = [] := by
      rw [toList_mk]
      rfl
    rw [hr1, hr2]
    refine ⟨List.prefix_refl _, ?_, ?_, ?_, ?_⟩
    · rw [wfN_iff]
      refine ⟨(by intro k v hkv; cases hkv), ?_, ?_⟩
      · rw [sortedLabels_iff]
        exact List.Pairwise.nil
      · rw [wfE_iff]
        intro e he
        cases he
    · intro kv
      rw [hemp]
      constructor
      · intro hx
        cases hx
      · rintro ⟨hin, hne⟩
        exact absurd (hall kv hin) hne
    · rw [List.filter_eq_self.mpr hallb]
    · rw [hemp]
      simp
  | case2 root? n b bs h =>
    intro ppath hwf
    obtain ⟨lf, pn, es⟩ := n
    simp only [Node.pfx] at hwf ⊢
    have hwfI := hwf
    rw [wfN_iff] at hwfI
    have hresq : deletePfxNode root? (Node.mk lf pn es) (b :: bs)
        = (Node.mk lf pn es, 0) := by
      rw [deletePfxNode_cons, h]
    have hr1 : (deletePfxNode root? (Node.mk lf pn es) (b :: bs)).1
        = Node.mk lf pn es := by
      rw [hresq]
    have hr2 : (deletePfxNode root? (Node.mk lf pn es) (b :: bs)).2 = 0 := by
      rw [hresq]
    have hfresh : ∀ g ∈ es, g.1 ≠ b := fresh_of_getEdge_none hwfI.2.1 h
    have hnone : ∀ kv : Key × V, kv ∈ toList (Node.mk lf pn es) →
        ¬ ((ppath ++ pn) ++ (b :: bs)) <+: kv.1 := by
      apply no_pfx_key_aux hwf
      intro c hmem
      exact absurd rfl (hfresh (b, c) hmem)
    rw [hr1, hr2]
    refine ⟨List.prefix_refl _, hwf, ?_, ?_, ?_⟩
    · intro kv
      exact ⟨fun hx => ⟨hx, hnone kv hx⟩, fun hx => hx.1⟩
    · rw [List.filter_eq_nil_iff.mpr ?_]
      · rfl
      · intro a ha hcontra
        exact hnone a ha (isPrefixOf_iff.mp hcontra)
    · simp
  | case3 root? n b bs child h hg =>
    intro ppath hwf
    obtain ⟨lf, pn, es⟩ := n
    simp only [Node.pfx] at hwf ⊢
    have hwfI := hwf
    rw [wfN_iff] at hwfI
    have hchild : (b, child) ∈ es := getEdge_some_mem h
    have hresq : deletePfxNode root? (Node.mk lf pn es) (b :: bs)
        = (Node.mk lf pn es, 0) := by
      rw [deletePfxNode_cons_some h, if_pos hg]
    have hr1 : (deletePfxNode root? (Node.mk lf pn es) (b :: bs)).1
        = Node.mk lf pn es := by
      rw [hresq]
    have hr2 : (deletePfxNode root? (Node.mk lf pn es) (b :: bs)).2 = 0 := by
      rw [hresq]
    have hg2 : (b :: bs).isPrefixOf child.pfx = false
        ∧ child.pfx.isPrefixOf (b :: bs) = false := by
      simp only [Bool.and_eq_true, Bool.not_eq_true'] at hg
      exact hg
    have hnone : ∀ kv : Key × V, kv ∈ toList (Node.mk lf pn es) →
        ¬ ((ppath ++ pn) ++ (b :: bs)) <+: kv.1 := by
      apply no_pfx_key_aux hwf
      intro c hmem
      have hc : c = child := mem_label_unique hwfI.2.1 hmem hchild
      subst hc
      exact ⟨isPrefixOf_false_iff.mp hg2.1, isPrefixOf_false_iff.mp hg2.2⟩
    rw [hr1, hr2]
    refine ⟨List.prefix_refl _, hwf, ?_, ?_, ?_⟩
    · intro kv
      exact ⟨fun hx => ⟨hx, hnone kv hx⟩, fun hx => hx.1⟩
    · rw [List.filter_eq_nil_iff.mpr ?_]
      · rfl
      · intro a ha hcontra
        exact hnone a ha (isPrefixOf_iff.mp hcontra)
    · simp
  | case4 root? n b bs child h hg hp' hpe ih =>
    intro ppath hwf
    obtain ⟨lf, pn, es⟩ := n
    obtain ⟨clf, cpfx, ces⟩ := child
    simp only [Node.pfx] at hwf ⊢
    have hwfI := hwf
    rw [wfN_iff] at hwfI
    have hchild : (b, Node.mk clf cpfx ces) ∈ es := getEdge_some_mem h
    have hwfc := (wfE_iff.mp hwfI.2.2) _ hchild
    simp only [Node.pfx] at hwfc
    obtain ⟨es₁, es₂, heq, hlt, hgt⟩ := mem_decomp_sorted hwfI.2.1 hchild
    have hg0 : ¬ (!(b :: bs).isPrefixOf cpfx
        && !cpfx.isPrefixOf (b :: bs)) = true := hg
    have hcomp : (b :: bs) <+: cpfx ∨ cpfx <+: (b :: bs) := by
      cases hx : (b :: bs).isPrefixOf cpfx with
      | true => exact Or.inl (isPrefixOf_iff.mp hx)
      | false =>
        cases hy : cpfx.isPrefixOf (b :: bs) with
        | true => exact Or.inr (isPrefixOf_iff.mp hy)
        | false =>
          exfalso
          apply hg0
          rw [hx, hy]
          rfl
    have hpe0 : ((if cpfx.length > (b :: bs).length then ([] : Key)
        else (b :: bs).drop cpfx.length)).isEmpty = true := hpe
    have ihx := ih (ppath ++ pn) hwfc.2
    have hkeyiff : ∀ k : Key, ((ppath ++ pn) ++ cpfx) <+: k →
        ((((ppath ++ pn) ++ cpfx)
            ++ (if cpfx.length > (b :: bs).length then ([] : Key)
                else (b :: bs).drop cpfx.length)) <+: k
          ↔ ((ppath ++ pn) ++ (b :: bs)) <+: k) := by
      by_cases hlen : cpfx.length > (b :: bs).length
      · have hbc : (b :: bs) <+: cpfx := by
          rcases hcomp with hx | hx
          · exact hx
          · have := hx.length_le
            omega
        intro k hk
        rw [if_pos hlen, List.append_nil]
        constructor
        · intro _
          exact List.IsPrefix.trans
            ((List.prefix_append_right_inj (ppath ++ pn)).mpr hbc) hk
        · intro _
          exact hk
      · have hcb : cpfx <+: (b :: bs) := by
          rcases hcomp with hx | hx
          · have h1 := hx.length_le
            have h2 : b :: bs = cpfx := hx.eq_of_length (by omega)
            rw [← h2]
          · exact hx
        have hkeyeq : (((ppath ++ pn) ++ cpfx)
            ++ (if cpfx.length > (b :: bs).length then ([] : Key)
                else (b :: bs).drop cpfx.length))
            = (ppath ++ pn) ++ (b :: bs) := by
          rw [if_neg hlen, List.append_assoc]
          obtain ⟨t, ht⟩ := hcb
          rw [← ht, List.drop_left]
        intro k hk
        rw [hkeyeq]
    have hmem2 : ∀ kv : Key × V,
        kv ∈ toList (deletePfxNode false (Node.mk clf cpfx ces)
          (if cpfx.length > (b :: bs).length then ([] : Key)
           else (b :: bs).drop cpfx.length)).1
        ↔ (kv ∈ toList (Node.mk clf cpfx ces)
            ∧ ¬ (((ppath ++ pn) ++ cpfx)
                ++ (if cpfx.length > (b :: bs).length then ([] : Key)
                    else (b :: bs).drop cpfx.length)) <+: kv.1) :=
      ihx.2.2.1
    have hcnt2 : (deletePfxNode false (Node.mk clf cpfx ces)
          (if cpfx.length > (b :: bs).length then ([] : Key)
           else (b :: bs).drop cpfx.length)).2
        = ((toList (Node.mk clf cpfx ces)).filter
            (fun kv => (((ppath ++ pn) ++ cpfx)
              ++ (if cpfx.length > (b :: bs).length then ([] : Key)
                  else (b :: bs).drop cpfx.length)).isPrefixOf kv.1)).length :=
      ihx.2.2.2.1
    have hlen2 : (toList (deletePfxNode false (Node.mk clf cpfx ces)
          (if cpfx.length > (b :: bs).length then ([] : Key)
           else (b :: bs).drop cpfx.length)).1).length
        + (deletePfxNode false (Node.mk clf cpfx ces)
          (if cpfx.length > (b :: bs).length then ([] : Key)
           else (b :: bs).drop cpfx.length)).2
        = (toList (Node.mk clf cpfx ces)).length :=
      ihx.2.2.2.2
    have hasm := deletePfxAssemble hwfI heq hlt hgt hwfc.1 hwfc.2
      ihx.1 ihx.2.1 hmem2 hcnt2 hlen2 hkeyiff
    have hresq : deletePfxNode root? (Node.mk lf pn es) (b :: bs)
        = (if !root? && (es₁ ++ (b, (deletePfxNode false (Node.mk clf cpfx ces)
              (if cpfx.length > (b :: bs).length then ([] : Key)
               else (b :: bs).drop cpfx.length)).1) :: es₂).length == 1
            && lf.isNone
           then mergeChild (Node.mk lf pn (es₁
              ++ (b, (deletePfxNode false (Node.mk clf cpfx ces)
                  (if cpfx.length > (b :: bs).length then ([] : Key)
                   else (b :: bs).drop cpfx.length)).1) :: es₂))
           else Node.mk lf pn (es₁
              ++ (b, (deletePfxNode false (Node.mk clf cpfx ces)
                  (if cpfx.length > (b :: bs).length then ([] : Key)
                   else (b :: bs).drop cpfx.length)).1) :: es₂),
           (deletePfxNode false (Node.mk clf cpfx ces)
              (if cpfx.length > (b :: bs).length then ([] : Key)
               else (b :: bs).drop cpfx.length)).2) := by
      rw [deletePfxNode_cons_some h]
      simp only [Node.pfx]
      rw [if_neg hg0]
      simp only [hpe0, Node.leaf, Node.children]
      rw [if_pos True.intro]
      rw [heq, updEdge_decomp hlt]
    have hr1 := congrArg Prod.fst hresq
    have hr2 := congrArg Prod.snd hresq
    simp only at hr1 hr2
    obtain ⟨hs1, hs2, hs3⟩ := cMergeStep (!root?) lf pn
      (es₁ ++ (b, (deletePfxNode false (Node.mk clf cpfx ces)
          (if cpfx.length > (b :: bs).length then ([] : Key)
           else (b :: bs).drop cpfx.length)).1) :: es₂) ppath hasm.1
    rw [hr1, hr2]
    refine ⟨hs1, hs2, ?_, hasm.2.2.1, ?_⟩
    · intro kv
      rw [hs3]
      exact hasm.2.1 kv
    · rw [hs3]
      exact hasm.2.2.2
  | case5 root? n b bs child h hg hp' hpe ih =>
    intro ppath hwf
    obtain ⟨lf, pn, es⟩ := n
    obtain ⟨clf, cpfx, ces⟩ := child
    simp only [Node.pfx] at hwf ⊢
    have hwfI := hwf
    rw [wfN_iff] at hwfI
    have hchild : (b, Node.mk clf cpfx ces) ∈ es := getEdge_some_mem h
    have hwfc := (wfE_iff.mp hwfI.2.2) _ hchild
    simp only [Node.pfx] at hwfc
    obtain ⟨es₁, es₂, heq, hlt, hgt⟩ := mem_decomp_sorted hwfI.2.1 hchild
    have hg0 : ¬ (!(b :: bs).isPrefixOf cpfx
        && !cpfx.isPrefixOf (b :: bs)) = true := hg
    have hcomp : (b :: bs) <+: cpfx ∨ cpfx <+: (b :: bs) := by
      cases hx : (b :: bs).isPrefixOf cpfx with
      | true => exact Or.inl (isPrefixOf_iff.mp hx)
      | false =>
        cases hy : cpfx.isPrefixOf (b :: bs) with
        | true => exact Or.inr (isPrefixOf_iff.mp hy)
        | false =>
          exfalso
          apply hg0
          rw [hx, hy]
          rfl
    have hpe0 : ¬ ((if cpfx.length > (b :: bs).length then ([] : Key)
        else (b :: bs).drop cpfx.length)).isEmpty = true := hpe
    have hie : ((if cpfx.length > (b :: bs).length then ([] : Key)
        else (b :: bs).drop cpfx.length)).isEmpty = false := by
      cases hx : ((if cpfx.length > (b :: bs).length then ([] : Key)
          else (b :: bs).drop cpfx.length)).isEmpty with
      | false => rfl
      | true => exact absurd hx hpe0
    have ihx := ih (ppath ++ pn) hwfc.2
    have hkeyiff : ∀ k : Key, ((ppath ++ pn) ++ cpfx) <+: k →
        ((((ppath ++ pn) ++ cpfx)
            ++ (if cpfx.length > (b :: bs).length then ([] : Key)
                else (b :: bs).drop cpfx.length)) <+: k
          ↔ ((ppath ++ pn) ++ (b :: bs)) <+: k) := by
      by_cases hlen : cpfx.length > (b :: bs).length
      · have hbc : (b :: bs) <+: cpfx := by
          rcases hcomp with hx | hx
          · exact hx
          · have := hx.length_le
            omega
        intro k hk
        rw [if_pos hlen, List.append_nil]
        constructor
        · intro _
          exact List.IsPrefix.trans
            ((List.prefix_append_right_inj (ppath ++ pn)).mpr hbc) hk
        · intro _
          exact hk
      · have hcb : cpfx <+: (b :: bs) := by
          rcases hcomp with hx | hx
          · have h1 := hx.length_le
            have h2 : b :: bs = cpfx := hx.eq_of_length (by omega)
            rw [← h2]
          · exact hx
        have hkeyeq : (((ppath ++ pn) ++ cpfx)
            ++ (if cpfx.length > (b :: bs).length then ([] : Key)
                else (b :: bs).drop cpfx.length))
            = (ppath ++ pn) ++ (b :: bs) := by
          rw [if_neg hlen, List.append_assoc]
          obtain ⟨t, ht⟩ := hcb
          rw [← ht, List.drop_left]
        intro k hk
        rw [hkeyeq]
    have hmem2 : ∀ kv : Key × V,
        kv ∈ toList (deletePfxNode false (Node.mk clf cpfx ces)
          (if cpfx.length > (b :: bs).length then ([] : Key)
           else (b :: bs).drop cpfx.length)).1
        ↔ (kv ∈ toList (Node.mk clf cpfx ces)
            ∧ ¬ (((ppath ++ pn) ++ cpfx)
                ++ (if cpfx.length > (b :: bs).length then ([] : Key)
                    else (b :: bs).drop cpfx.length)) <+: kv.1) :=
      ihx.2.2.1
    have hcnt2 : (deletePfxNode false (Node.mk clf cpfx ces)
          (if cpfx.length > (b :: bs).length then ([] : Key)
           else (b :: bs).drop cpfx.length)).2
        = ((toList (Node.mk clf cpfx ces)).filter
            (fun kv => (((ppath ++ pn) ++ cpfx)
              ++ (if cpfx.length > (b :: bs).length then ([] : Key)
                  else (b :: bs).drop cpfx.length)).isPrefixOf kv.1)).length :=
      ihx.2.2.2.1
    have hlen2 : (toList (deletePfxNode false (Node.mk clf cpfx ces)
          (if cpfx.length > (b :: bs).length then ([] : Key)
           else (b :: bs).drop cpfx.length)).1).length
        + (deletePfxNode false (Node.mk clf cpfx ces)
          (if cpfx.length > (b :: bs).length then ([] : Key)
           else (b :: bs).drop cpfx.length)).2
        = (toList (Node.mk clf cpfx ces)).length :=
      ihx.2.2.2.2
    have hasm := deletePfxAssemble hwfI heq hlt hgt hwfc.1 hwfc.2
      ihx.1 ihx.2.1 hmem2 hcnt2 hlen2 hkeyiff
    have hresq : deletePfxNode root? (Node.mk lf pn es) (b :: bs)
        = (Node.mk lf pn (es₁
              ++ (b, (deletePfxNode false (Node.mk clf cpfx ces)
                  (if cpfx.length > (b :: bs).length then ([] : Key)
                   else (b :: bs).drop cpfx.length)).1) :: es₂),
           (deletePfxNode false (Node.mk clf cpfx ces)
              (if cpfx.length > (b :: bs).length then ([] : Key)
               else (b :: bs).drop cpfx.length)).2) := by
      rw [deletePfxNode_cons_some h]
      simp only [Node.pfx]
      rw [if_neg hg0]
      simp only [hie, Node.leaf, Node.children]
      rw [if_neg (by simp : ¬ ((false : Bool) = true))]
      rw [heq, updEdge_decomp hlt]
    have hr1 := congrArg Prod.fst hresq
    have hr2 := congrArg Prod.snd hresq
    simp only at hr1 hr2
    rw [hr1, hr2]
    refine ⟨List.prefix_refl _, hasm.1, hasm.2.1, hasm.2.2.1, hasm.2.2.2⟩


/-! ## Reachable trees: the root keeps an empty prefix and `size` counts
the visit list -/

theorem deleteNode_root_pfx {V} (n : Node V) (search : Key) :
    (deleteNode true n search).1.pfx = n.pfx := by
  rw [deleteNode.eq_def]
  split
  · split
    · rfl
    · rfl
  · rename_i search0 b tail
    split
    · rfl
    · rename_i child heq
      split
      · rename_i hpf
        cases hres : (deleteNode false child
            (List.drop (List.length child.pfx) (b :: tail))).2 with
        | none => simp only [hres]
        | some old =>
          simp only [hres]
          by_cases hemp :
              (List.drop (List.length child.pfx) (b :: tail)).isEmpty = true
          · rw [if_pos hemp]
            rfl
          · rw [if_neg hemp]
            rfl
      · rfl

theorem deletePfxNode_root_pfx {V} (n : Node V) (p : Key) :
    (deletePfxNode true n p).1.pfx = n.pfx := by
  rw [deletePfxNode.eq_def]
  split
  · rfl
  · rename_i search0 b tail
    split
    · rfl
    · rename_i child heq
      split
      · rfl
      · rename_i hg
        by_cases hemp : ((if List.length child.pfx > (b :: tail).length
            then ([] : Key)
            else List.drop (List.length child.pfx) (b :: tail))).isEmpty = true
        · rw [if_pos hemp]
          rfl
        · rw [if_neg hemp]
          rfl

theorem wfN_new {V} :
    wfN [] (Node.mk none [] ([] : List (Nat × Node V))) = true := by
  rw [wfN_iff]
  refine ⟨(by intro k v hkv; cases hkv), ?_, ?_⟩
  · rw [sortedLabels_iff]
    exact List.Pairwise.nil
  · rw [wfE_iff]
    intro e he
    cases he

/-- The reachability invariant: a well-formed root with an empty prefix
whose running size is the number of stored pairs. -/
def reachInv {V} (t : Tree V) : Prop :=
  wfN [] t.root = true ∧ t.root.pfx = []
    ∧ t.size = ((toList t.root).length : Int)

theorem applyOp_inv {V} (t : Tree V) (op : Op V) (ht : reachInv t) :
    reachInv (applyOp t op) := by
  obtain ⟨h1, h2, h3⟩ := ht
  cases op with
  | ins k v =>
    have hm := insertNode_master t.root k k v [] h1 rfl
    have hpfx := insertNode_pfx t.root k k v
    have hres := insertNode_res t.root k k v
    refine ⟨hm.1, ?_, ?_⟩
    · show (insertNode t.root k k v).1.pfx = []
      rw [hpfx]
      exact h2
    · show (if (insertNode t.root k k v).2.isSome then t.size else t.size + 1)
        = ((toList (insertNode t.root k k v).1).length : Int)
      rw [hres]
      have hlen := hm.2.2
      cases hg : getNode t.root k with
      | some w =>
        rw [hg] at hlen
        simp only [Option.isSome_some, eq_self_iff_true, if_true] at hlen ⊢
        rw [h3, hlen]
        push_cast
        omega
      | none =>
        rw [hg] at hlen
        simp only [Option.isSome_none, Bool.false_eq_true, if_false]
          at hlen ⊢
        rw [h3, hlen]
        push_cast
        omega
  | del k =>
    have hwf0 : wfN ([] ++ t.root.pfx) t.root = true := by
      rw [h2]
      exact h1
    have hm := deleteNode_master true t.root k [] hwf0
    have hp := deleteNode_root_pfx t.root k
    have hwf1 : wfN [] (deleteNode true t.root k).1 = true := by
      have hx := hm.2.2.1
      rw [hp, h2] at hx
      exact hx
    refine ⟨hwf1, ?_, ?_⟩
    · show (deleteNode true t.root k).1.pfx = []
      rw [hp]
      exact h2
    · show (if (deleteNode true t.root k).2.isSome then t.size - 1 else t.size)
        = ((toList (deleteNode true t.root k).1).length : Int)
      rw [hm.1]
      have hlen := hm.2.2.2.2
      cases hg : getNode t.root k with
      | some w =>
        rw [hg] at hlen
        simp only [Option.isSome_some, eq_self_iff_true, if_true] at hlen ⊢
        rw [h3]
        omega
      | none =>
        rw [hg] at hlen
        simp only [Option.isSome_none, Bool.false_eq_true, if_false]
          at hlen ⊢
        rw [h3]
        omega
  | dp p =>
    have hwf0 : wfN ([] ++ t.root.pfx) t.root = true := by
      rw [h2]
      exact h1
    have hm := deletePfxNode_master true t.root p [] hwf0
    have hp := deletePfxNode_root_pfx t.root p
    have hwf1 : wfN [] (deletePfxNode true t.root p).1 = true := by
      have hx := hm.2.1
      rw [hp, h2] at hx
      exact hx
    refine ⟨hwf1, ?_, ?_⟩
    · show (deletePfxNode true t.root p).1.pfx = []
      rw [hp]
      exact h2
    · show t.size - ((deletePfxNode true t.root p).2 : Int)
        = ((toList (deletePfxNode true t.root p).1).length : Int)
      have hlen := hm.2.2.2.2
      rw [h3]
      omega

theorem runOps_inv {V} : ∀ ops : List (Op V), reachInv (runOps ops) := by
  intro ops
  have hgen : ∀ (l : List (Op V)) (t : Tree V), reachInv t
      → reachInv (l.foldl applyOp t) := by
    intro l
    induction l with
    | nil => exact fun t ht => ht
    | cons op rest ih =>
      intro t ht
      exact ih _ (applyOp_inv t op ht)
  exact hgen ops (Tree.new V) ⟨wfN_new, rfl, rfl⟩


/-! ## Get after a sequence of inserts, and the visit-list claims -/

theorem getNode_new {V} (k : Key) :
    getNode (Node.mk none [] ([] : List (Nat × Node V))) k = none := by
  cases k with
  | nil =>
    rw [getNode_nil]
    rfl
  | cons b bs =>
    rw [getNode_cons]
    rfl

theorem get_insert {V} {t : Tree V} (hwf : wfN [] t.root = true)
    (s k : Key) (v : V) :
    (t.insert s v).1.get k = if k = s then some v else t.get k := by
  have hm := insertNode_master t.root s s v [] hwf rfl
  have hwf2 : wfN [] (insertNode t.root s s v).1 = true := hm.1
  show getNode (insertNode t.root s s v).1 k
    = if k = s then some v else getNode t.root k
  by_cases hk : k = s
  · subst hk
    rw [if_pos rfl]
    have hiff := getNode_iff_mem (insertNode t.root k k v).1 k hwf2 v
    rw [List.nil_append] at hiff
    exact hiff.mpr ((hm.2.1 (k, v)).mpr (Or.inl rfl))
  · rw [if_neg hk]
    cases hg : getNode t.root k with
    | some w =>
      have hiff0 := getNode_iff_mem t.root k hwf w
      rw [List.nil_append] at hiff0
      have hmem := hiff0.mp hg
      have hiff := getNode_iff_mem (insertNode t.root s s v).1 k hwf2 w
      rw [List.nil_append] at hiff
      exact hiff.mpr ((hm.2.1 (k, w)).mpr (Or.inr ⟨hmem, hk⟩))
    | none =>
      cases hg2 : getNode (insertNode t.root s s v).1 k with
      | none => rfl
      | some w =>
        exfalso
        have hiff := getNode_iff_mem (insertNode t.root s s v).1 k hwf2 w
        rw [List.nil_append] at hiff
        rcases (hm.2.1 (k, w)).mp (hiff.mp hg2) with heq2 | ⟨hmem2, hne2⟩
        · apply hk
          injection heq2 with hh1 hh2
        · have hiff0 := getNode_iff_mem t.root k hwf w
          rw [List.nil_append] at hiff0
          have := hiff0.mpr hmem2
          rw [hg] at this
          cases this

theorem get_after_inserts {V} :
    ∀ (l : List (Key × V)) (t : Tree V), wfN [] t.root = true →
      ∀ k : Key,
      (l.foldl (fun t2 kv => (t2.insert kv.1 kv.2).1) t).get k
        = ((l.filter (fun kv => kv.1 == k)).getLast?).elim (t.get k)
            (fun kv => some kv.2) := by
  intro l
  induction l with
  | nil =>
    intro t hwf k
    rfl
  | cons kv0 rest ih =>
    intro t hwf k
    obtain ⟨s, v⟩ := kv0
    have hwf2 : wfN [] ((t.insert s v).1.root) = true :=
      (insertNode_master t.root s s v [] hwf rfl).1
    have ihx := ih (t.insert s v).1 hwf2 k
    show (rest.foldl (fun t2 kv => (t2.insert kv.1 kv.2).1) (t.insert s v).1).get k = _
    rw [ihx, get_insert hwf s k v]
    by_cases hks : s = k
    · subst hks
      rw [List.filter_cons_of_pos (by simp)]
      cases hfr : rest.filter (fun kv => kv.1 == s) with
      | nil =>
        simp
      | cons c cs =>
        rw [List.getLast?_cons_cons]
        cases hgl : (c :: cs).getLast? with
        | none => simp at hgl
        | some d => rfl
    · have hpred : ((s, v).1 == k) = false := by
        simp only [beq_eq_false_iff_ne, ne_eq]
        exact hks
      rw [List.filter_cons_of_neg (by simp [hks])]
      cases hfr : rest.filter (fun kv => kv.1 == k) with
      | nil =>
        simp only [List.getLast?_nil, Option.elim]
        rw [if_neg (fun hx => hks hx.symm)]
      | cons c cs =>
        cases hgl : (c :: cs).getLast? with
        | none => simp at hgl
        | some d => rfl

/-- Claim C3: after any sequence of inserts from the empty tree, `Get`
returns exactly the most recent value assigned to the key, and `none`
for keys never inserted. -/
theorem radix_c3_get_is_last_assignment (V : Type) (l : List (Key × V))
    (k : Key) :
    (runOps (l.map (fun kv => Op.ins kv.1 kv.2))).get k
      = ((l.filter (fun kv => kv.1 == k)).getLast?).map (fun kv => kv.2) := by
  have hfold : runOps (l.map (fun kv => Op.ins kv.1 kv.2))
      = l.foldl (fun t2 kv => (t2.insert kv.1 kv.2).1) (Tree.new V) := by
    rw [runOps, List.foldl_map]
    rfl
  rw [hfold, get_after_inserts l (Tree.new V) wfN_new k]
  have hnew : (Tree.new V).get k = none := getNode_new k
  rw [hnew]
  cases hgl : (l.filter (fun kv => kv.1 == k)).getLast? with
  | none => rfl
  | some kv => rfl

/-- Claim C4: on every reachable tree, a full `Walk` with an
always-false callback visits exactly the present keys, each once with
its current value, in strictly ascending lexicographic order. -/
theorem radix_c4_walk_each_present_key_once_ascending (V : Type)
    (ops : List (Op V)) :
    ((runOps ops).walk.map Prod.fst).Pairwise (fun a b => klt a b = true) ∧
    (∀ (k : Key) (v : V), (k, v) ∈ (runOps ops).walk
        ↔ (runOps ops).get k = some v) := by
  obtain ⟨h1, h2, h3⟩ := runOps_inv ops
  constructor
  · rw [List.pairwise_map]
    exact toList_sorted (runOps ops).root h1
  · intro k v
    have hiff := getNode_iff_mem (runOps ops).root k h1 v
    rw [List.nil_append] at hiff
    exact ⟨fun h => hiff.mpr h, fun h => hiff.mp h⟩

/-- Claim C8: after every sequence of public operations, `Len` equals
the number of distinct present keys: the walk enumerates the present
keys without duplicates and `Len` is its length. -/
theorem radix_c8_len_counts_present_keys (V : Type) (ops : List (Op V)) :
    (runOps ops).len = (((runOps ops).walk.map Prod.fst).length : Int) ∧
    ((runOps ops).walk.map Prod.fst).Nodup ∧
    (∀ k : Key, k ∈ (runOps ops).walk.map Prod.fst
        ↔ ∃ v, (runOps ops).get k = some v) := by
  obtain ⟨h1, h2, h3⟩ := runOps_inv ops
  refine ⟨?_, ?_, ?_⟩
  · show (runOps ops).size = _
    rw [h3, List.length_map]
    rfl
  · show ((runOps ops).walk.map Prod.fst).Pairwise (fun a b => a ≠ b)
    rw [List.pairwise_map]
    exact (toList_sorted (runOps ops).root h1).imp (fun hab => klt_ne hab)
  · intro k
    constructor
    · intro hk
      rcases List.mem_map.mp hk with ⟨kv, hkv, hfst⟩
      refine ⟨kv.2, ?_⟩
      have hiff := getNode_iff_mem (runOps ops).root k h1 kv.2
      rw [List.nil_append] at hiff
      apply hiff.mpr
      rw [← hfst]
      exact hkv
    · rintro ⟨v, hv⟩
      have hiff := getNode_iff_mem (runOps ops).root k h1 v
      rw [List.nil_append] at hiff
      exact List.mem_map.mpr ⟨(k, v), hiff.mp hv, rfl⟩


/-! ## WalkPrefix: the visited list is the filtered visit list -/

theorem walkPfxNode_nil {V} (n : Node V) : walkPfxNode n [] = toList n := by
  rw [walkPfxNode.eq_def]

theorem walkPfxNode_cons {V} (n : Node V) (b : Nat) (bs : Key) :
    walkPfxNode n (b :: bs)
      = (match getEdge n b with
         | none => []
         | some child =>
           if child.pfx.isPrefixOf (b :: bs)
           then walkPfxNode child ((b :: bs).drop child.pfx.length)
           else if (b :: bs).isPrefixOf child.pfx then toList child
           else []) := by
  rw [walkPfxNode.eq_def]
  split
  · rename_i heq
    simp at heq
  · rename_i b2 bs2 heq
    injection heq with h1 h2
    subst h1
    subst h2
    split
    · rename_i heq2
      rw [heq2]
    · rename_i child heq2
      rw [heq2]

theorem walkPfxNode_cons_some {V} {n : Node V} {b : Nat} {bs : Key}
    {child : Node V} (h : getEdge n b = some child) :
    walkPfxNode n (b :: bs)
      = (if child.pfx.isPrefixOf (b :: bs)
         then walkPfxNode child ((b :: bs).drop child.pfx.length)
         else if (b :: bs).isPrefixOf child.pfx then toList child
         else []) := by
  rw [walkPfxNode_cons, h]

theorem toListE_not_prefix_of_path {V} {path : Key}
    {es : List (Nat × Node V)} (hwfe : wfE path es = true) :
    ∀ kv : Key × V, kv ∈ toListE es → kv.1.isPrefixOf path = false := by
  intro kv hkv
  obtain ⟨e, he, hext⟩ := toListE_key hwfe kv hkv
  rw [isPrefixOf_false_iff]
  intro hx
  have h1 := hext.length_le
  have h2 := hx.length_le
  rw [List.length_append, List.length_cons] at h1
  omega

theorem walkPfxNode_master {V} :
    ∀ (n : Node V) (p : Key), ∀ (path : Key), wfN path n = true →
      walkPfxNode n p
        = (toList n).filter (fun kv => (path ++ p).isPrefixOf kv.1) := by
  intro n p
  induction n, p using walkPfxNode.induct with
  | case1 n =>
    intro path hwf
    rw [walkPfxNode_nil, List.append_nil]
    symm
    rw [List.filter_eq_self]
    intro kv hkv
    exact isPrefixOf_iff.mpr (toList_key n hwf kv hkv)
  | case2 n b bs h =>
    intro path hwf
    obtain ⟨lf, pn, es⟩ := n
    rw [walkPfxNode_cons, h]
    have hwfI := hwf
    rw [wfN_iff] at hwfI
    have hfresh : ∀ g ∈ es, g.1 ≠ b := fresh_of_getEdge_none hwfI.2.1 h
    have hnone : ∀ kv : Key × V, kv ∈ toList (Node.mk lf pn es) →
        ¬ (path ++ (b :: bs)) <+: kv.1 := by
      apply no_pfx_key_aux hwf
      intro c hmem
      exact absurd rfl (hfresh (b, c) hmem)
    symm
    rw [List.filter_eq_nil_iff]
    intro a ha hcontra
    exact hnone a ha (isPrefixOf_iff.mp hcontra)
  | case3 n b bs child h hpf ih =>
    intro path hwf
    obtain ⟨lf, pn, es⟩ := n
    obtain ⟨clf, cpfx, ces⟩ := child
    simp only [Node.pfx] at hpf
    rw [walkPfxNode_cons_some h]
    simp only [Node.pfx]
    rw [if_pos hpf]
    have hwfI := hwf
    rw [wfN_iff] at hwfI
    have hchild : (b, Node.mk clf cpfx ces) ∈ es := getEdge_some_mem h
    have hwfc := (wfE_iff.mp hwfI.2.2) _ hchild
    simp only [Node.pfx] at hwfc
    obtain ⟨es₁, es₂, heq, hlt, hgt⟩ := mem_decomp_sorted hwfI.2.1 hchild
    have hkeyeq : (path ++ cpfx) ++ (b :: bs).drop cpfx.length
        = path ++ (b :: bs) := by
      rw [List.append_assoc]
      obtain ⟨t, ht⟩ := isPrefixOf_iff.mp hpf
      rw [← ht, List.drop_left]
    have ihx := ih (path ++ cpfx) hwfc.2
    simp only [Node.pfx] at ihx
    rw [ihx, hkeyeq]
    have hside := side_keys_nopfx hwfI.2.2 heq hlt hgt bs
    have hlfno := leaf_nopfx hwfI.1 b bs
    have htln : toList (Node.mk lf pn es)
        = lf.toList ++ (toListE es₁
            ++ (toList (Node.mk clf cpfx ces) ++ toListE es₂)) := by
      rw [toList_mk, heq, toListE_append, toListE_cons]
    rw [htln]
    rw [List.filter_append, List.filter_append, List.filter_append]
    have hf1 : lf.toList.filter
        (fun kv => (path ++ (b :: bs)).isPrefixOf kv.1) = [] := by
      rw [List.filter_eq_nil_iff]
      intro a ha hcontra
      exact hlfno a ha (isPrefixOf_iff.mp hcontra)
    have hf2 : (toListE es₁).filter
        (fun kv => (path ++ (b :: bs)).isPrefixOf kv.1) = [] := by
      rw [List.filter_eq_nil_iff]
      intro a ha hcontra
      exact hside a (Or.inl ha) (isPrefixOf_iff.mp hcontra)
    have hf3 : (toListE es₂).filter
        (fun kv => (path ++ (b :: bs)).isPrefixOf kv.1) = [] := by
      rw [List.filter_eq_nil_iff]
      intro a ha hcontra
      exact hside a (Or.inr ha) (isPrefixOf_iff.mp hcontra)
    rw [hf1, hf2, hf3]
    simp
  | case4 n b bs child h hnpf hpf2 =>
    intro path hwf
    obtain ⟨lf, pn, es⟩ := n
    obtain ⟨clf, cpfx, ces⟩ := child
    simp only [Node.pfx] at hnpf hpf2
    rw [walkPfxNode_cons_some h]
    simp only [Node.pfx]
    rw [if_neg hnpf, if_pos hpf2]
    have hwfI := hwf
    rw [wfN_iff] at hwfI
    have hchild : (b, Node.mk clf cpfx ces) ∈ es := getEdge_some_mem h
    have hwfc := (wfE_iff.mp hwfI.2.2) _ hchild
    simp only [Node.pfx] at hwfc
    obtain ⟨es₁, es₂, heq, hlt, hgt⟩ := mem_decomp_sorted hwfI.2.1 hchild
    have hside := side_keys_nopfx hwfI.2.2 heq hlt hgt bs
    have hlfno := leaf_nopfx hwfI.1 b bs
    have htln : toList (Node.mk lf pn es)
        = lf.toList ++ (toListE es₁
            ++ (toList (Node.mk clf cpfx ces) ++ toListE es₂)) := by
      rw [toList_mk, heq, toListE_append, toListE_cons]
    rw [htln]
    rw [List.filter_append, List.filter_append, List.filter_append]
    have hf1 : lf.toList.filter
        (fun kv => (path ++ (b :: bs)).isPrefixOf kv.1) = [] := by
      rw [List.filter_eq_nil_iff]
      intro a ha hcontra
      exact hlfno a ha (isPrefixOf_iff.mp hcontra)
    have hf2 : (toListE es₁).filter
        (fun kv => (path ++ (b :: bs)).isPrefixOf kv.1) = [] := by
      rw [List.filter_eq_nil_iff]
      intro a ha hcontra
      exact hside a (Or.inl ha) (isPrefixOf_iff.mp hcontra)
    have hf3 : (toListE es₂).filter
        (fun kv => (path ++ (b :: bs)).isPrefixOf kv.1) = [] := by
      rw [List.filter_eq_nil_iff]
      intro a ha hcontra
      exact hside a (Or.inr ha) (isPrefixOf_iff.mp hcontra)
    have hfc : (toList (Node.mk clf cpfx ces)).filter
        (fun kv => (path ++ (b :: bs)).isPrefixOf kv.1)
        = toList (Node.mk clf cpfx ces) := by
      rw [List.filter_eq_self]
      intro a ha
      apply isPrefixOf_iff.mpr
      have hkey := toList_key _ hwfc.2 a ha
      refine List.IsPrefix.trans ?_ hkey
      exact (List.prefix_append_right_inj path).mpr (isPrefixOf_iff.mp hpf2)
    rw [hf1, hf2, hf3, hfc]
    simp
  | case5 n b bs child h hnpf hnpf2 =>
    intro path hwf
    obtain ⟨lf, pn, es⟩ := n
    simp only [Node.pfx] at hnpf hnpf2
    rw [walkPfxNode_cons_some h]
    rw [if_neg (by simpa only [Node.pfx] using hnpf),
      if_neg (by simpa only [Node.pfx] using hnpf2)]
    have hwfI := hwf
    rw [wfN_iff] at hwfI
    have hchild : (b, child) ∈ es := getEdge_some_mem h
    have hnone : ∀ kv : Key × V, kv ∈ toList (Node.mk lf pn es) →
        ¬ (path ++ (b :: bs)) <+: kv.1 := by
      apply no_pfx_key_aux hwf
      intro c hmem
      have hc : c = child := mem_label_unique hwfI.2.1 hmem hchild
      subst hc
      constructor
      · intro hx
        exact hnpf2 (isPrefixOf_iff.mpr hx)
      · intro hx
        exact hnpf (isPrefixOf_iff.mpr hx)
    symm
    rw [List.filter_eq_nil_iff]
    intro a ha hcontra
    exact hnone a ha (isPrefixOf_iff.mp hcontra)

/-- Claim C5: on every reachable tree, `WalkPrefix(p)` with an
always-false callback visits exactly the present keys having `p` as a
prefix, each once with its current value, in strictly ascending
lexicographic order; and when no present key extends `p` it visits
nothing. -/
theorem radix_c5_walk_prefix_exact (V : Type) (ops : List (Op V)) (p : Key) :
    (∀ (k : Key) (v : V), (k, v) ∈ (runOps ops).walkPfx p
        ↔ ((runOps ops).get k = some v ∧ p <+: k)) ∧
    (((runOps ops).walkPfx p).map Prod.fst).Pairwise
      (fun a b => klt a b = true) ∧
    ((∀ (k : Key) (v : V), (runOps ops).get k = some v → ¬ p <+: k)
        → (runOps ops).walkPfx p = []) := by
  obtain ⟨h1, h2, h3⟩ := runOps_inv ops
  have hmw := walkPfxNode_master (runOps ops).root p [] h1
  rw [List.nil_append] at hmw
  have hw : (runOps ops).walkPfx p
      = (toList (runOps ops).root).filter (fun kv => p.isPrefixOf kv.1) := hmw
  refine ⟨?_, ?_, ?_⟩
  · intro k v
    rw [hw, List.mem_filter]
    have hiff := getNode_iff_mem (runOps ops).root k h1 v
    rw [List.nil_append] at hiff
    constructor
    · rintro ⟨hm, hpp⟩
      exact ⟨hiff.mpr hm, isPrefixOf_iff.mp hpp⟩
    · rintro ⟨hg, hpp⟩
      exact ⟨hiff.mp hg, isPrefixOf_iff.mpr hpp⟩
  · rw [hw, List.pairwise_map]
    exact (toList_sorted (runOps ops).root h1).sublist (List.filter_sublist _)
  · intro hnone
    rw [hw, List.filter_eq_nil_iff]
    intro a ha hcontra
    cases a with
    | mk k v =>
      have hiff := getNode_iff_mem (runOps ops).root k h1 v
      rw [List.nil_append] at hiff
      exact hnone k v (hiff.mpr ha) (isPrefixOf_iff.mp hcontra)

/-! ## LongestPrefix: the answer is the longest stored key that is a
prefix of the query -/

theorem lpNode_nil {V} (n : Node V) (last : Option (Key × V)) :
    lpNode n [] last = n.leaf.elim last some := by
  rw [lpNode.eq_def]
  cases n.leaf <;> rfl

theorem lpNode_cons {V} (n : Node V) (last : Option (Key × V)) (b : Nat)
    (bs : Key) :
    lpNode n (b :: bs) last
      = (match getEdge n b with
         | none => n.leaf.elim last some
         | some child =>
           if child.pfx.isPrefixOf (b :: bs)
           then lpNode child ((b :: bs).drop child.pfx.length)
                  (n.leaf.elim last some)
           else n.leaf.elim last some) := by
  rw [lpNode.eq_def]
  split
  · rename_i heq
    simp at heq
  · rename_i b2 bs2 heq
    injection heq with h1 h2
    subst h1
    subst h2
    split
    · rename_i heq2
      rw [heq2]
      cases n.leaf <;> rfl
    · rename_i child heq2
      rw [heq2]
      cases n.leaf <;> rfl

theorem lpNode_cons_some {V} {n : Node V} {b : Nat} {bs : Key}
    {child : Node V} (h : getEdge n b = some child)
    (last : Option (Key × V)) :
    lpNode n (b :: bs) last
      = (if child.pfx.isPrefixOf (b :: bs)
         then lpNode child ((b :: bs).drop child.pfx.length)
                (n.leaf.elim last some)
         else n.leaf.elim last some) := by
  rw [lpNode_cons, h]

theorem getLast?_elim_append {α β : Type} (l1 l2 : List α) (d : β)
    (f : α → β) :
    (l1 ++ l2).getLast?.elim d f = l2.getLast?.elim (l1.getLast?.elim d f) f := by
  cases l2 with
  | nil =>
    rw [List.append_nil]
    rfl
  | cons c cs =>
    rw [List.getLast?_append_cons]
    cases hgl : (c :: cs).getLast? with
    | none => simp at hgl
    | some d2 => rfl

theorem leaf_elim_getLast {V} (lf : Option (Key × V))
    (last : Option (Key × V)) {path q : Key}
    (hlf : ∀ k v, lf = some (k, v) → k = path)
    (hpq : path.isPrefixOf q = true) :
    lf.elim last some
      = (lf.toList.filter (fun kv => kv.1.isPrefixOf q)).getLast?.elim
          last some := by
  cases lf with
  | none => rfl
  | some l =>
    obtain ⟨k0, v0⟩ := l
    have hk0 : k0 = path := hlf k0 v0 rfl
    subst hk0
    simp only [Option.toList_some]
    simp [hpq]

theorem lpNode_master_stay {V} {lf : Option (Key × V)} {pn : Key}
    {es : List (Nat × Node V)} {path q : Key} {last : Option (Key × V)}
    (hlf : ∀ k v, lf = some (k, v) → k = path)
    (hpq : path.isPrefixOf q = true)
    (hes : (toListE es).filter (fun kv => kv.1.isPrefixOf q) = []) :
    lf.elim last some
      = ((toList (Node.mk lf pn es)).filter
          (fun kv => kv.1.isPrefixOf q)).getLast?.elim last some := by
  rw [toList_mk, List.filter_append, hes, List.append_nil]
  exact leaf_elim_getLast lf last hlf hpq

theorem side_keys_not_prefix {V} {path : Key}
    {es es₁ es₂ : List (Nat × Node V)} {b : Nat} {c : Node V}
    (hwfe : wfE path es = true) (heq : es = es₁ ++ (b, c) :: es₂)
    (hlt : ∀ e ∈ es₁, e.1 < b) (hgt : ∀ e ∈ es₂, b < e.1) (bs : Key) :
    ∀ kv : Key × V, kv ∈ toListE es₁ ∨ kv ∈ toListE es₂ →
      kv.1.isPrefixOf (path ++ b :: bs) = false := by
  intro kv hkv
  have hsub : ∀ e, (e ∈ es₁ ∨ e ∈ es₂) → e ∈ es := by
    intro e he
    rw [heq]
    rcases he with h1 | h2
    · exact List.mem_append_left _ h1
    · exact List.mem_append_right _ (List.mem_cons_of_mem _ h2)
  have hwfE1 : wfE path es₁ = true := by
    rw [wfE_iff]
    intro e he
    exact (wfE_iff.mp hwfe) e (hsub e (Or.inl he))
  have hwfE2 : wfE path es₂ = true := by
    rw [wfE_iff]
    intro e he
    exact (wfE_iff.mp hwfe) e (hsub e (Or.inr he))
  rw [isPrefixOf_false_iff]
  intro hkp
  rcases hkv with hkv | hkv
  · obtain ⟨e, he, hext⟩ := toListE_key hwfE1 kv hkv
    have hext2 : (path ++ [e.1]) <+: (path ++ b :: bs) :=
      List.IsPrefix.trans hext hkp
    have := (List.prefix_append_right_inj path).mp hext2
    rw [List.cons_prefix_cons] at this
    have := hlt e he
    omega
  · obtain ⟨e, he, hext⟩ := toListE_key hwfE2 kv hkv
    have hext2 : (path ++ [e.1]) <+: (path ++ b :: bs) :=
      List.IsPrefix.trans hext hkp
    have := (List.prefix_append_right_inj path).mp hext2
    rw [List.cons_prefix_cons] at this
    have := hgt e he
    omega

theorem lpNode_master {V} :
    ∀ (n : Node V) (search : Key) (last : Option (Key × V)),
      ∀ (path : Key), wfN path n = true →
      lpNode n search last
        = ((toList n).filter
            (fun kv => kv.1.isPrefixOf (path ++ search))).getLast?.elim
            last some := by
  have hnil : ∀ (n : Node V) (last : Option (Key × V)) (path : Key),
      wfN path n = true →
      lpNode n [] last
        = ((toList n).filter
            (fun kv => kv.1.isPrefixOf (path ++ []))).getLast?.elim
            last some := by
    intro n last path hwf
    obtain ⟨lf, pn, es⟩ := n
    rw [lpNode_nil]
    simp only [Node.leaf]
    rw [wfN_iff] at hwf
    apply lpNode_master_stay hwf.1
    · rw [List.append_nil]
      exact isPrefixOf_iff.mpr (List.prefix_refl _)
    · rw [List.filter_eq_nil_iff]
      intro a ha hcontra
      rw [List.append_nil] at hcontra
      have := toListE_not_prefix_of_path hwf.2.2 a ha
      rw [this] at hcontra
      cases hcontra
  have hstaycons : ∀ (n : Node V) (last : Option (Key × V)) (b : Nat)
      (bs : Key) (path : Key), wfN path n = true →
      (∀ kv : Key × V, kv ∈ toListE n.children →
        kv.1.isPrefixOf (path ++ b :: bs) = false) →
      n.leaf.elim last some
        = ((toList n).filter
            (fun kv => kv.1.isPrefixOf (path ++ b :: bs))).getLast?.elim
            last some := by
    intro n last b bs path hwf hes
    obtain ⟨lf, pn, es⟩ := n
    simp only [Node.leaf, Node.children] at hes ⊢
    rw [wfN_iff] at hwf
    apply lpNode_master_stay hwf.1
    · exact isPrefixOf_iff.mpr ⟨b :: bs, rfl⟩
    · rw [List.filter_eq_nil_iff]
      intro a ha hcontra
      have := hes a ha
      rw [this] at hcontra
      cases hcontra
  have hfreshes : ∀ (lf : Option (Key × V)) (pn : Key)
      (es : List (Nat × Node V)) (b : Nat) (bs : Key) (path : Key),
      wfN path (Node.mk lf pn es) = true →
      getEdge (Node.mk lf pn es) b = none →
      ∀ kv : Key × V, kv ∈ toListE es →
        kv.1.isPrefixOf (path ++ b :: bs) = false := by
    intro lf pn es b bs path hwf h
    rw [wfN_iff] at hwf
    have hfresh : ∀ g ∈ es, g.1 ≠ b := fresh_of_getEdge_none hwf.2.1 h
    intro a ha
    rw [isPrefixOf_false_iff]
    intro hkp
    obtain ⟨e, he, hext⟩ := toListE_key hwf.2.2 a ha
    have hext2 : (path ++ [e.1]) <+: (path ++ b :: bs) :=
      List.IsPrefix.trans hext hkp
    have := (List.prefix_append_right_inj path).mp hext2
    rw [List.cons_prefix_cons] at this
    exact hfresh e he this.1
  have hnpfes : ∀ (lf : Option (Key × V)) (pn : Key)
      (es : List (Nat × Node V)) (b : Nat) (bs : Key) (child : Node V)
      (path : Key),
      wfN path (Node.mk lf pn es) = true →
      getEdge (Node.mk lf pn es) b = some child →
      ¬ child.pfx.isPrefixOf (b :: bs) = true →
      ∀ kv : Key × V, kv ∈ toListE es →
        kv.1.isPrefixOf (path ++ b :: bs) = false := by
    intro lf pn es b bs child path hwf h hnpf
    have hwfI := hwf
    rw [wfN_iff] at hwfI
    have hchild : (b, child) ∈ es := getEdge_some_mem h
    have hwfc := (wfE_iff.mp hwfI.2.2) _ hchild
    obtain ⟨es₁, es₂, heq, hlt, hgt⟩ := mem_decomp_sorted hwfI.2.1 hchild
    have hside := side_keys_not_prefix hwfI.2.2 heq hlt hgt bs
    intro a ha
    rw [heq, toListE_append, toListE_cons] at ha
    rcases List.mem_append.mp ha with h1 | h12
    · exact hside a (Or.inl h1)
    · rcases List.mem_append.mp h12 with hmid | h2
      · rw [isPrefixOf_false_iff]
        intro hkp
        have hkey := toList_key _ hwfc.2 a hmid
        have htr : (path ++ child.pfx) <+: (path ++ b :: bs) :=
          List.IsPrefix.trans hkey hkp
        have := (List.prefix_append_right_inj path).mp htr
        exact hnpf (isPrefixOf_iff.mpr this)
      · exact hside a (Or.inr h2)
  intro n search last
  induction n, search, last using lpNode.induct with
  | case1 n last l hleaf =>
    intro path hwf
    exact hnil n last path hwf
  | case2 n last hleaf =>
    intro path hwf
    exact hnil n last path hwf
  | case3 n last b bs h l hleaf =>
    intro path hwf
    rw [lpNode_cons, h]
    obtain ⟨lf, pn, es⟩ := n
    exact hstaycons _ last b bs path hwf
      (hfreshes lf pn es b bs path hwf h)
  | case4 n last b bs h hleaf =>
    intro path hwf
    rw [lpNode_cons, h]
    obtain ⟨lf, pn, es⟩ := n
    exact hstaycons _ last b bs path hwf
      (hfreshes lf pn es b bs path hwf h)
  | case5 n last b bs child h hpf ih =>
    intro path hwf
    have hwfI := hwf
    obtain ⟨lf, pn, es⟩ := n
    rw [wfN_iff] at hwfI
    have hchild : (b, child) ∈ es := getEdge_some_mem h
    have hwfc := (wfE_iff.mp hwfI.2.2) _ hchild
    obtain ⟨es₁, es₂, heq, hlt, hgt⟩ := mem_decomp_sorted hwfI.2.1 hchild
    have hside := side_keys_not_prefix hwfI.2.2 heq hlt hgt bs
    have hkeyeq : (path ++ child.pfx) ++ (b :: bs).drop child.pfx.length
        = path ++ (b :: bs) := by
      rw [List.append_assoc]
      obtain ⟨t, ht⟩ := isPrefixOf_iff.mp hpf
      rw [← ht, List.drop_left]
    have ihx := ih (path ++ child.pfx) hwfc.2
    obtain ⟨L, hLe, hL⟩ : ∃ L : Option (Key × V),
        L = (Node.mk lf pn es).leaf.elim last some ∧
        lpNode child ((b :: bs).drop child.pfx.length) L
          = ((toList child).filter
              (fun kv => kv.1.isPrefixOf
                ((path ++ child.pfx)
                  ++ (b :: bs).drop child.pfx.length))).getLast?.elim
              L some := by
      refine ⟨_, ?_, ihx⟩
      cases lf <;> rfl
    rw [lpNode_cons_some h, if_pos hpf, ← hLe, hL, hkeyeq]
    have htln : toList (Node.mk lf pn es)
        = lf.toList ++ (toListE es₁
            ++ (toList child ++ toListE es₂)) := by
      rw [toList_mk, heq, toListE_append, toListE_cons]
    rw [htln]
    rw [List.filter_append, List.filter_append, List.filter_append]
    have hf2 : (toListE es₁).filter
        (fun kv => kv.1.isPrefixOf (path ++ b :: bs)) = [] := by
      rw [List.filter_eq_nil_iff]
      intro a ha hcontra
      have := hside a (Or.inl ha)
      rw [this] at hcontra
      cases hcontra
    have hf3 : (toListE es₂).filter
        (fun kv => kv.1.isPrefixOf (path ++ b :: bs)) = [] := by
      rw [List.filter_eq_nil_iff]
      intro a ha hcontra
      have := hside a (Or.inr ha)
      rw [this] at hcontra
      cases hcontra
    rw [hf2, hf3, List.nil_append, List.append_nil]
    rw [getLast?_elim_append]
    rw [← leaf_elim_getLast lf last hwfI.1
      (isPrefixOf_iff.mpr ⟨b :: bs, rfl⟩)]
    rw [hLe]
    simp only [Node.leaf]
  | case6 n last b bs child h l hleaf hnpf =>
    intro path hwf
    rw [lpNode_cons_some h, if_neg hnpf]
    obtain ⟨lf, pn, es⟩ := n
    exact hstaycons _ last b bs path hwf
      (hnpfes lf pn es b bs child path hwf h hnpf)
  | case7 n last b bs child h hleaf hnpf =>
    intro path hwf
    rw [lpNode_cons_some h, if_neg hnpf]
    obtain ⟨lf, pn, es⟩ := n
    exact hstaycons _ last b bs path hwf
      (hnpfes lf pn es b bs child path hwf h hnpf)

theorem getLast?_mem_self {α : Type} :
    ∀ {l : List α} {a : α}, l.getLast? = some a → a ∈ l := by
  intro l
  induction l with
  | nil =>
    intro a h
    cases h
  | cons x xs ih =>
    intro a h
    cases xs with
    | nil =>
      rw [List.getLast?_singleton] at h
      injection h with h2
      rw [h2]
      exact List.mem_singleton.mpr rfl
    | cons y ys =>
      rw [List.getLast?_cons_cons] at h
      exact List.mem_cons_of_mem _ (ih h)

theorem getLast?_max_of_pairwise {α : Type} {R : α → α → Prop} :
    ∀ {l : List α}, l.Pairwise R → ∀ {b : α}, l.getLast? = some b →
      ∀ a ∈ l, a = b ∨ R a b := by
  intro l
  induction l with
  | nil =>
    intro _ b hb
    cases hb
  | cons x xs ih =>
    intro hp b hb a ha
    rw [List.pairwise_cons] at hp
    cases xs with
    | nil =>
      rw [List.getLast?_singleton] at hb
      injection hb with hb2
      rcases List.mem_singleton.mp ha with rfl
      exact Or.inl hb2
    | cons y ys =>
      rw [List.getLast?_cons_cons] at hb
      rcases List.mem_cons.mp ha with rfl | ha2
      · exact Or.inr (hp.1 b (getLast?_mem_self hb))
      · exact ih hp.2 hb a ha2

/-- Claim C6: on every reachable tree, `LongestPrefix(k)` returns the
longest present key that is a prefix of `k` together with its current
value, and reports not-found exactly when no present key is a prefix of
`k`. -/
theorem radix_c6_longest_prefix (V : Type) (ops : List (Op V)) (k : Key) :
    (∀ (m : Key) (v : V), (runOps ops).lp k = some (m, v) →
      ((runOps ops).get m = some v ∧ m <+: k ∧
        ∀ (m2 : Key) (v2 : V), (runOps ops).get m2 = some v2 → m2 <+: k →
          m2.length ≤ m.length)) ∧
    ((runOps ops).lp k = none →
      ∀ (m : Key) (v : V), (runOps ops).get m = some v → ¬ m <+: k) := by
  obtain ⟨h1, h2, h3⟩ := runOps_inv ops
  have hm := lpNode_master (runOps ops).root k none [] h1
  rw [List.nil_append] at hm
  have helim : ∀ o : Option (Key × V), o.elim (none : Option (Key × V)) some = o := by
    intro o
    cases o <;> rfl
  have hlp : (runOps ops).lp k
      = ((toList (runOps ops).root).filter
          (fun kv => kv.1.isPrefixOf k)).getLast? := by
    rw [← helim ((List.filter _ (toList (runOps ops).root)).getLast?)]
    exact hm
  have hgetIff : ∀ (m : Key) (v : V), (runOps ops).get m = some v
      ↔ (m, v) ∈ toList (runOps ops).root := by
    intro m v
    have hiff := getNode_iff_mem (runOps ops).root m h1 v
    rw [List.nil_append] at hiff
    exact hiff
  constructor
  · intro m v hsome
    rw [hlp] at hsome
    have hmem := getLast?_mem_self hsome
    rw [List.mem_filter] at hmem
    have hget : (runOps ops).get m = some v := (hgetIff m v).mpr hmem.1
    have hpfx : m <+: k := isPrefixOf_iff.mp hmem.2
    refine ⟨hget, hpfx, ?_⟩
    intro m2 v2 hg2 hp2
    have hmem2 : (m2, v2) ∈ (toList (runOps ops).root).filter
        (fun kv => kv.1.isPrefixOf k) :=
      List.mem_filter.mpr ⟨(hgetIff m2 v2).mp hg2, isPrefixOf_iff.mpr hp2⟩
    have hsorted : ((toList (runOps ops).root).filter
        (fun kv => kv.1.isPrefixOf k)).Pairwise
        (fun a b => klt a.1 b.1 = true) :=
      (toList_sorted (runOps ops).root h1).sublist (List.filter_sublist _)
    rcases getLast?_max_of_pairwise hsorted hsome (m2, v2) hmem2 with heq | hklt
    · injection heq with he1 he2
      rw [he1]
    · rcases List.prefix_or_prefix_of_prefix hp2 hpfx with hx | hx
      · exact hx.length_le
      · by_cases hmm : m = m2
        · rw [hmm]
        · exfalso
          have hk1 : klt m m2 = true := klt_of_prefix_ne hx hmm
          have hk2 := klt_asymm hklt
          rw [hk1] at hk2
          cases hk2
  · intro hnone m v hg hp
    rw [hlp] at hnone
    have hmem : (m, v) ∈ (toList (runOps ops).root).filter
        (fun kv => kv.1.isPrefixOf k) :=
      List.mem_filter.mpr ⟨(hgetIff m v).mp hg, isPrefixOf_iff.mpr hp⟩
    cases hf : (toList (runOps ops).root).filter
        (fun kv => kv.1.isPrefixOf k) with
    | nil =>
      rw [hf] at hmem
      cases hmem
    | cons c cs =>
      rw [hf] at hnone
      cases hgl : (c :: cs).getLast? with
      | none => simp at hgl
      | some d =>
        rw [hgl] at hnone
        cases hnone

end Radix
